import Mathlib

/-!
# Verification of the retirement-savings temporal engine

Shallow embedding of the core of the `self-saving-for-retirement` service
(`app/core/engine.py`, `app/core/finance.py`, `app/core/time_utils.py`).

Modelling conventions:

* Python floats carrying monetary values are modelled as exact rationals `ℚ`;
  the helper `money` (Python `round(x, 2)`, round-half-to-even) becomes
  rounding to an integer number of cents with ties to even.
* Python's `heapq` priority queue is modelled by its observable contract: a
  collection whose first element is the minimum in the lexicographic tuple
  order; we realise it as a list kept sorted by `List.orderedInsert`.
* `bisect.bisect_left` / `bisect.bisect_right` are modelled by their
  documented behaviour on sorted input (`takeWhile` counting).
* Python's `sorted(xs, key=k)` is modelled by `List.insertionSort` with the
  relation `k a ≤ k b` (a stable sort, like Python's).
* Fallible Python code (raising `ValueError`) returns `Option`.
* The union-find of `_q_overrides_dsu` mutates a parent array; we pass the
  parent map (`ℕ → ℕ`) explicitly and give the `find` loop explicit fuel
  (the chain of parent pointers is strictly increasing, so `size + 1` steps
  always suffice, which the correctness lemmas prove).
* The runtime strategy selector `_choose_q_strategy` compares floating-point
  cost estimates built from `math.log2`; it is modelled as an opaque boolean
  parameter `useDsu` of the engine, and the theorems are proved for every
  value of that parameter (the selection is observationally irrelevant,
  which is exactly what claim C1 establishes).
-/

namespace Retirement

/-! ## Money model (`app/core/finance.py`) -/

/-- Round a rational to the nearest integer, ties to even
(the rounding of Python's builtin `round`). -/
def roundHalfEven (q : ℚ) : ℤ :=
  let n : ℤ := q.floor
  let frac : ℚ := q - n
  if frac < 1 / 2 then n
  else if 1 / 2 < frac then n + 1
  else if n % 2 = 0 then n else n + 1

/-- `money(value)` from `finance.py`: round to two decimal places. -/
def money (q : ℚ) : ℚ := (roundHalfEven (q * 100) : ℚ) / 100

/-- A rational that is an exact two-decimal (cent) value, i.e. in the image
of `money`. -/
def IsCents (q : ℚ) : Prop := ∃ n : ℤ, q = (n : ℚ) / 100

/-- `next_multiple_of_100` from `finance.py`: exact-decimal ceiling division,
`100 · ⌈amount/100⌉`, raising (`none`) on negative input. -/
def next_multiple_of_100 (amount : ℚ) : Option ℚ :=
  if amount < 0 then none
  else some (money ((⌈amount / 100⌉ : ℤ) * 100))

/-- `remanent_from_amount` from `finance.py`: `money(ceiling - amount)`. -/
def remanent_from_amount (amount : ℚ) : Option ℚ :=
  (next_multiple_of_100 amount).map fun c => money (c - amount)

/-! ## Data model (canonical transactions and Q/P/K periods) -/

/-- A canonical transaction as produced by `_canonical_transaction`:
normalized date string, epoch seconds, monetary fields, and the
`adjusted_remanent` key which is only present (`some`) after the temporal
engine has run. -/
structure Txn where
  date : String
  epoch : ℤ
  amount : ℚ
  ceiling : ℚ
  remanent : ℚ
  adjusted : Option ℚ
deriving DecidableEq, Repr, Inhabited

/-- A Q-interval as built by `_build_periods(..., "q")`: epoch bounds plus
the `fixed` override value. -/
structure QPeriod where
  startEpoch : ℤ
  endEpoch : ℤ
  value : ℚ
deriving DecidableEq, Repr, Inhabited

/-- A P-interval as built by `_build_periods(..., "p")`: epoch bounds plus
the `extra` additive value. -/
structure PPeriod where
  startEpoch : ℤ
  endEpoch : ℤ
  value : ℚ
deriving DecidableEq, Repr, Inhabited

/-- A K-interval as built by `_build_periods(..., "k")`: original start/end
strings plus epoch bounds. -/
structure KPeriod where
  startStr : String
  endStr : String
  startEpoch : ℤ
  endEpoch : ℤ
deriving DecidableEq, Repr, Inhabited

/-- An enumerated Q-interval: the `index` field (insertion order) paired
with the period, as produced by enumerating the input list. -/
abbrev IQP := ℕ × QPeriod

/-! ## Sorting by key (Python's `sorted(..., key=...)`) -/

/-- The comparison relation induced by a sort key. -/
def keyLE {α : Type} {β : Type} [LinearOrder β] (k : α → β) (a b : α) : Prop :=
  k a ≤ k b

instance {α : Type} {β : Type} [LinearOrder β] (k : α → β) :
    DecidableRel (keyLE k) := fun a b => inferInstanceAs (Decidable (k a ≤ k b))

instance {α : Type} {β : Type} [LinearOrder β] (k : α → β) :
    IsTotal α (keyLE k) := ⟨fun a b => le_total (k a) (k b)⟩

instance {α : Type} {β : Type} [LinearOrder β] (k : α → β) :
    IsTrans α (keyLE k) := ⟨fun _ _ _ => le_trans⟩

/-- Python's stable `sorted(xs, key=k)`. -/
def sortByKey {α : Type} {β : Type} [LinearOrder β] (k : α → β) (l : List α) :
    List α :=
  l.insertionSort (keyLE k)

/-! ## Q-override: declarative specification -/

/-- A period is active at epoch `t` when `start_epoch ≤ t ≤ end_epoch`. -/
def qContains (t : ℤ) (q : QPeriod) : Prop := q.startEpoch ≤ t ∧ t ≤ q.endEpoch

instance (t : ℤ) (q : QPeriod) : Decidable (qContains t q) :=
  inferInstanceAs (Decidable (_ ∧ _))

/-- The heap priority of an enumerated Q-interval: `(-start_epoch, index)`
lexicographically, so the minimum is the latest-started / earliest-inserted
interval. -/
def qPrio (iq : IQP) : ℤ ×ₗ ℕ := toLex (-iq.2.startEpoch, iq.1)

/-- The Q-interval that wins at epoch `t`: among the enumerated intervals
containing `t`, the one with the latest `start_epoch`, ties broken by the
smallest `index`. -/
def qWinner (t : ℤ) (iqs : List IQP) : Option IQP :=
  (iqs.filter fun iq => decide (qContains t iq.2)).argmin qPrio

/-- Declarative per-position Q-override vector: the winning interval's
`fixed` value at each transaction epoch, if any. -/
def qOracle (orderedTimes : List ℤ) (qPeriods : List QPeriod) : List (Option ℚ) :=
  orderedTimes.map fun t => (qWinner t qPeriods.enum).map fun iq => iq.2.value

/-! ## Q-override, heap strategy (`_q_overrides_heap`) -/

/-- A heap entry `(-start_epoch, index, end_epoch, value)` as pushed by
`_q_overrides_heap`. -/
abbrev HeapEntry := ℤ × ℕ × ℤ × ℚ

/-- The lexicographic tuple order Python's `heapq` compares entries with. -/
def entryKey (e : HeapEntry) : ℤ ×ₗ ℕ ×ₗ ℤ ×ₗ ℚ :=
  toLex (e.1, toLex (e.2.1, toLex (e.2.2.1, e.2.2.2)))

/-- The heap order on entries. -/
def entryLE : HeapEntry → HeapEntry → Prop := keyLE entryKey

instance : DecidableRel entryLE := fun a b =>
  inferInstanceAs (Decidable (entryKey a ≤ entryKey b))

instance : IsTotal HeapEntry entryLE :=
  inferInstanceAs (IsTotal HeapEntry (keyLE entryKey))

instance : IsTrans HeapEntry entryLE :=
  inferInstanceAs (IsTrans HeapEntry (keyLE entryKey))

/-- The heap entry for an enumerated Q-interval. -/
def toEntry (iq : IQP) : HeapEntry :=
  (-iq.2.startEpoch, iq.1, iq.2.endEpoch, iq.2.value)

/-- The push phase of `_q_overrides_heap`: push every still-pending interval
whose `start_epoch ≤ ts` onto the heap (the heap is the sorted list
`active`, insertion keeps it sorted). -/
def heapPushDue (t : ℤ) : List IQP → List HeapEntry → List IQP × List HeapEntry
  | [], active => ([], active)
  | (i, q) :: rest, active =>
    if q.startEpoch ≤ t then
      heapPushDue t rest (active.orderedInsert entryLE (toEntry (i, q)))
    else ((i, q) :: rest, active)

/-- The lazy-expiry phase: pop while the top's `end_epoch < ts`. -/
def heapPopExpired (t : ℤ) : List HeapEntry → List HeapEntry
  | [] => []
  | e :: rest => if e.2.2.1 < t then heapPopExpired t rest else e :: rest

/-- Main loop of `_q_overrides_heap` over the epoch-sorted transaction
times. -/
def heapLoop : List ℤ → List IQP → List HeapEntry → List (Option ℚ)
  | [], _, _ => []
  | t :: ts, pending, active =>
    let pa := heapPushDue t pending active
    let active2 := heapPopExpired t pa.2
    (active2.head?.map fun e => e.2.2.2) :: heapLoop ts pa.1 active2

/-- `_q_overrides_heap(ordered_times, q_periods)` from `engine.py`. -/
def q_overrides_heap (orderedTimes : List ℤ) (qPeriods : List QPeriod) :
    List (Option ℚ) :=
  if orderedTimes.isEmpty ∨ qPeriods.isEmpty then
    List.replicate orderedTimes.length none
  else
    heapLoop orderedTimes
      (sortByKey (fun iq : IQP => toLex (iq.2.startEpoch, iq.1)) qPeriods.enum) []

/-! ## Q-override, DSU strategy (`_q_overrides_dsu`) -/

/-- `bisect.bisect_left` on a sorted list: the number of elements `< x`. -/
def bisectLeft (l : List ℤ) (x : ℤ) : ℕ :=
  (l.takeWhile fun v => decide (v < x)).length

/-- `bisect.bisect_right` on a sorted list: the number of elements `≤ x`. -/
def bisectRight (l : List ℤ) (x : ℤ) : ℕ :=
  (l.takeWhile fun v => decide (v ≤ x)).length

/-- The union-find `find` with path halving from `_q_overrides_dsu`.  The
parent map is threaded explicitly; `fuel` bounds the number of loop
iterations (the visited index strictly increases, so any fuel of at least
`size + 1` is enough on valid states). -/
def dsuFind : ℕ → (ℕ → ℕ) → ℕ → ℕ × (ℕ → ℕ)
  | 0, parent, i => (i, parent)
  | fuel + 1, parent, i =>
    if parent i = i then (i, parent)
    else
      let g := parent (parent i)
      dsuFind fuel (Function.update parent i g) g

/-- The state of the DSU sweep: parent map, override vector (as a map),
number of assigned positions, and the `(start_epoch, end_epoch) → (left,
right)` bounds cache. -/
structure DsuState where
  parent : ℕ → ℕ
  ov : ℕ → Option ℚ
  assigned : ℕ
  cache : List ((ℤ × ℤ) × (ℤ × ℤ))

/-- The inner assignment walk of `_q_overrides_dsu`: starting from
`pos = find(left)`, assign the interval's value to every unassigned
position `≤ right`, linking each assigned position to the next unassigned
one. -/
def assignLoop (size : ℕ) (v : ℚ) (right : ℕ) :
    ℕ → ℕ → (ℕ → ℕ) → (ℕ → Option ℚ) → ℕ → (ℕ → ℕ) × (ℕ → Option ℚ) × ℕ
  | 0, _, parent, ov, cnt => (parent, ov, cnt)
  | fuel + 1, pos, parent, ov, cnt =>
    if pos ≤ right then
      let ov2 := Function.update ov pos (some v)
      let fr := dsuFind (size + 1) parent (pos + 1)
      let parent2 := Function.update fr.2 pos fr.1
      assignLoop size v right fuel fr.1 parent2 ov2 (cnt + 1)
    else (parent, ov, cnt)

/-- One step per Q-interval of `_q_overrides_dsu`, walking the
priority-sorted interval list, with early exit once all positions are
assigned. -/
def dsuProcess (times : List ℤ) (size : ℕ) : List IQP → DsuState → DsuState
  | [], st => st
  | (_, q) :: rest, st =>
    if size ≤ st.assigned then st
    else
      let ck := (q.startEpoch, q.endEpoch)
      let lr : ℤ × ℤ :=
        match st.cache.find? fun e => decide (e.1 = ck) with
        | some e => e.2
        | none => ((bisectLeft times q.startEpoch : ℤ),
                   (bisectRight times q.endEpoch : ℤ) - 1)
      let cache2 :=
        match st.cache.find? fun e => decide (e.1 = ck) with
        | some _ => st.cache
        | none => (ck, lr) :: st.cache
      if lr.2 < lr.1 then
        dsuProcess times size rest ⟨st.parent, st.ov, st.assigned, cache2⟩
      else
        let fr := dsuFind (size + 1) st.parent lr.1.toNat
        let res := assignLoop size q.value lr.2.toNat (size + 1) fr.1 fr.2
          st.ov st.assigned
        dsuProcess times size rest ⟨res.1, res.2.1, res.2.2, cache2⟩

/-- `_q_overrides_dsu(ordered_times, q_periods)` from `engine.py`. -/
def q_overrides_dsu (orderedTimes : List ℤ) (qPeriods : List QPeriod) :
    List (Option ℚ) :=
  let size := orderedTimes.length
  if size = 0 ∨ qPeriods.isEmpty then List.replicate size none
  else
    let sortedQ := sortByKey (fun iq : IQP => toLex (-iq.2.startEpoch, iq.1))
      qPeriods.enum
    let st := dsuProcess orderedTimes size sortedQ ⟨id, fun _ => none, 0, []⟩
    (List.range size).map st.ov

/-- The smallest position `≥ i` that is unassigned (or the sentinel `N`):
the value the DSU `find` computes.  Specification device for the DSU
proofs. -/
def nxtFree (ov : ℕ → Option ℚ) (N : ℕ) (i : ℕ) : ℕ :=
  if N ≤ i then i
  else if ov i = none then i
  else nxtFree ov N (i + 1)
termination_by N - i
decreasing_by omega

/-- The number of assigned positions (`assigned_count`), as counted from
the override map.  Specification device for the DSU proofs. -/
def cntOf (N : ℕ) (ov : ℕ → Option ℚ) : ℕ :=
  ((List.range N).filter fun p => (ov p).isSome).length

/-- The union-find invariant of `_q_overrides_dsu`, restricted to indices
`≥ lo`: an unassigned position (and the sentinel region `≥ N`) is its own
parent, and an assigned position points strictly forward but not past the
next unassigned position.  Specification device for the DSU proofs. -/
def DsuInvFrom (N lo : ℕ) (parent : ℕ → ℕ) (ov : ℕ → Option ℚ) : Prop :=
  (∀ i, lo ≤ i → i < N → ov i ≠ none →
    i < parent i ∧ parent i ≤ nxtFree ov N i) ∧
  (∀ i, lo ≤ i → i < N → ov i = none → parent i = i) ∧
  (∀ i, lo ≤ i → N ≤ i → parent i = i)

/-! ## P-extra sweep and `_apply_temporal_rules` -/

/-- A P-interval is active at epoch `t` when `start_epoch ≤ t ≤ end_epoch`. -/
def pContains (t : ℤ) (p : PPeriod) : Prop := p.startEpoch ≤ t ∧ t ≤ p.endEpoch

instance (t : ℤ) (p : PPeriod) : Decidable (pContains t p) :=
  inferInstanceAs (Decidable (_ ∧ _))

/-- Declarative P-extra: the sum of `extra` over all P-intervals containing
`t` (both endpoints inclusive). -/
def pExtra (t : ℤ) (ps : List PPeriod) : ℚ :=
  ((ps.filter fun p => decide (pContains t p)).map fun p => p.value).sum

/-- `p_start_events`: `(start_epoch, value)` pairs, sorted. -/
def pStartEvents (ps : List PPeriod) : List (ℤ × ℚ) :=
  sortByKey (fun ev : ℤ × ℚ => (toLex ev : ℤ ×ₗ ℚ))
    (ps.map fun p => (p.startEpoch, p.value))

/-- `p_end_events`: `(end_epoch + 1, value)` pairs, sorted. -/
def pEndEvents (ps : List PPeriod) : List (ℤ × ℚ) :=
  sortByKey (fun ev : ℤ × ℚ => (toLex ev : ℤ ×ₗ ℚ))
    (ps.map fun p => (p.endEpoch + 1, p.value))

/-- Consume start-events with key `≤ ts`, adding their values to the
running extra. -/
def sweepAdd (t : ℤ) : List (ℤ × ℚ) → ℚ → List (ℤ × ℚ) × ℚ
  | [], run => ([], run)
  | (k, v) :: rest, run =>
    if k ≤ t then sweepAdd t rest (run + v) else ((k, v) :: rest, run)

/-- Consume end-events with key `≤ ts`, subtracting their values from the
running extra. -/
def sweepSub (t : ℤ) : List (ℤ × ℚ) → ℚ → List (ℤ × ℚ) × ℚ
  | [], run => ([], run)
  | (k, v) :: rest, run =>
    if k ≤ t then sweepSub t rest (run - v) else ((k, v) :: rest, run)

/-- The per-sorted-position adjustment loop of `_apply_temporal_rules`:
each triple is `(epoch, q_override, remanent)`; the result is the
`adjusted_remanent` at each sorted position. -/
def adjLoop : List (ℤ × Option ℚ × ℚ) → List (ℤ × ℚ) → List (ℤ × ℚ) → ℚ → List ℚ
  | [], _, _, _ => []
  | (t, ov, rem) :: rest, starts, ends, run =>
    let sa := sweepAdd t starts run
    let sb := sweepSub t ends sa.2
    money (ov.getD rem + sb.2) :: adjLoop rest sa.1 sb.1 sb.2

/-- `sorted(range(len(transactions)), key=lambda i: (epoch_i, i))`: the
epoch-sorted permutation of transaction positions. -/
def canonicalOrder (txs : List Txn) : List ℕ :=
  sortByKey (fun i => (toLex ((txs.getD i default).epoch, i) : ℤ ×ₗ ℕ))
    (List.range txs.length)

/-- The ordered epoch vector `[transactions[i]["epoch"] for i in ordered_indices]`. -/
def orderedTimesOf (txs : List Txn) (idx : List ℕ) : List ℤ :=
  idx.map fun i => (txs.getD i default).epoch

/-- The ordered remanent vector, read off along `ordered_indices`. -/
def orderedRemsOf (txs : List Txn) (idx : List ℕ) : List ℚ :=
  idx.map fun i => (txs.getD i default).remanent

/-- The override vector produced by the selected strategy (`useDsu` stands
for the `_choose_q_strategy` heuristic; see the module docstring). -/
def overridesOf (useDsu : List ℤ → List QPeriod → Bool)
    (times : List ℤ) (qs : List QPeriod) : List (Option ℚ) :=
  if useDsu times qs then q_overrides_dsu times qs else q_overrides_heap times qs

/-- The per-sorted-position `adjusted_remanent` vector of
`_apply_temporal_rules`. -/
def adjSortedOf (useDsu : List ℤ → List QPeriod → Bool)
    (txs : List Txn) (qs : List QPeriod) (ps : List PPeriod)
    (idx : List ℕ) : List ℚ :=
  adjLoop ((orderedTimesOf txs idx).zip
      ((overridesOf useDsu (orderedTimesOf txs idx) qs).zip (orderedRemsOf txs idx)))
    (pStartEvents ps) (pEndEvents ps) 0

/-- The per-original-position write of `transactions[tx_index]
["adjusted_remanent"] = ...`, as a map from positions to the written
value. -/
def assignOf (useDsu : List ℤ → List QPeriod → Bool)
    (txs : List Txn) (qs : List QPeriod) (ps : List PPeriod)
    (idx : List ℕ) : ℕ → Option ℚ :=
  (idx.zip (adjSortedOf useDsu txs qs ps idx)).foldl
    (fun f pr => Function.update f pr.1 (some pr.2)) fun _ => none

/-- `_apply_temporal_rules(transactions, q_periods, p_periods,
ordered_indices=...)` from `engine.py`.  `oidx` is the optional
`ordered_indices` argument (`none` = compute it internally). -/
def applyTemporalRules (useDsu : List ℤ → List QPeriod → Bool)
    (txs : List Txn) (qs : List QPeriod) (ps : List PPeriod)
    (oidx : Option (List ℕ)) : List Txn :=
  if txs.isEmpty then []
  else
    let orderedIdx := oidx.getD (canonicalOrder txs)
    List.zipWith
      (fun i tx =>
        match assignOf useDsu txs qs ps orderedIdx i with
        | some a => { tx with adjusted := some a }
        | none => tx)
      (List.range txs.length) txs

/-! ## K-membership (`_merge_k_periods`, `_membership_in_k`) -/

/-- A K-interval contains epoch `t` when `start_epoch ≤ t ≤ end_epoch`. -/
def kContains (t : ℤ) (k : KPeriod) : Prop := k.startEpoch ≤ t ∧ t ≤ k.endEpoch

instance (t : ℤ) (k : KPeriod) : Decidable (kContains t k) :=
  inferInstanceAs (Decidable (_ ∧ _))

/-- The coalescing walk of `_merge_k_periods`: merge the next interval into
the current one when its start is within `current_end + 1`. -/
def mergeLoop : ℤ → ℤ → List (ℤ × ℤ) → List (ℤ × ℤ)
  | cs, ce, [] => [(cs, ce)]
  | cs, ce, (s, e) :: rest =>
    if s ≤ ce + 1 then mergeLoop cs (if ce < e then e else ce) rest
    else (cs, ce) :: mergeLoop s e rest

/-- `_merge_k_periods(k_periods)` from `engine.py`. -/
def mergeKPeriods (ks : List KPeriod) : List (ℤ × ℤ) :=
  match sortByKey (fun iv : ℤ × ℤ => (toLex iv : ℤ ×ₗ ℤ))
    (ks.map fun k => (k.startEpoch, k.endEpoch)) with
  | [] => []
  | (s, e) :: rest => mergeLoop s e rest

/-- The two-pointer sweep of `_membership_in_k`: walk the epoch-ordered
transaction positions, advancing past merged intervals that end before the
current timestamp, and record containment against the current interval. -/
def sweepK (txs : List Txn) : List ℕ → List (ℤ × ℤ) → (ℕ → Bool) → ℕ → Bool
  | [], _, mem => mem
  | j :: rest, ms, mem =>
    let ts := (txs.getD j default).epoch
    let ms2 := ms.dropWhile fun iv => decide (iv.2 < ts)
    match ms2 with
    | [] => sweepK txs rest [] mem
    | (s, e) :: tl =>
      sweepK txs rest ((s, e) :: tl)
        (Function.update mem j (decide (s ≤ ts ∧ ts ≤ e)))

/-- `_membership_in_k(transactions, k_periods, ordered_indices=...)` from
`engine.py`. -/
def membershipInK (txs : List Txn) (ks : List KPeriod)
    (oidx : Option (List ℕ)) : List Bool :=
  if txs.isEmpty then []
  else if ks.isEmpty then List.replicate txs.length true
  else
    let ordered := oidx.getD (canonicalOrder txs)
    match mergeKPeriods ks with
    | [] => List.replicate txs.length false
    | m :: ms =>
      (List.range txs.length).map (sweepK txs ordered (m :: ms) fun _ => false)

/-! ## K-aggregation (`aggregate_savings_by_k`) -/

/-- One `savingsByDates` record. -/
structure KSaving where
  startStr : String
  endStr : String
  amount : ℚ
deriving DecidableEq, Repr, Inhabited

/-- `tx.get("adjusted_remanent", tx["remanent"])`. -/
def txValue (tx : Txn) : ℚ := tx.adjusted.getD tx.remanent

/-- The running prefix-sum builder (`prefix.append(prefix[-1] + value)`). -/
def prefixFrom (acc : ℚ) : List ℚ → List ℚ
  | [] => []
  | v :: rest => (acc + v) :: prefixFrom (acc + v) rest

/-- The prefix-sum vector `[0, v₀, v₀+v₁, ...]`. -/
def prefixSums (l : List ℚ) : List ℚ := 0 :: prefixFrom 0 l

/-- `aggregate_savings_by_k(transactions, k_periods, is_sorted=...)` from
`engine.py`. -/
def aggregate_savings_by_k (txs : List Txn) (ks : List KPeriod)
    (isSorted : Bool) : List KSaving :=
  if ks.isEmpty then []
  else
    let ordered := if isSorted then txs else sortByKey (fun tx => tx.epoch) txs
    let times := ordered.map fun tx => tx.epoch
    let pre := prefixSums (ordered.map txValue)
    ks.map fun k =>
      let left := bisectLeft times k.startEpoch
      let right := bisectRight times k.endEpoch
      ⟨k.startStr, k.endStr, money (pre.getD right 0 - pre.getD left 0)⟩

/-! ## Validator cumulative cap (`validate_transactions`, lines 241-243 and
304-325) -/

/-- `limit = money(max_investment if max_investment is not None else
wage * 12)`. -/
def validatorLimit (wage : ℚ) (maxInvestment : Option ℚ) : ℚ :=
  money (maxInvestment.getD (wage * 12))

/-- The float tolerance `1e-9` used by the cumulative-cap check. -/
def capEps : ℚ := 1 / 1000000000

/-- The cumulative-cap walk over structurally valid candidates, generic in
the record type (`rem` projects the `remanent` field): returns the
`(valid, rejected)` partition, rejecting a record exactly when including it
would push the running sum above `limit + 1e-9` and continuing with later
candidates. -/
def capLoop {α : Type} (rem : α → ℚ) (limit : ℚ) : List α → ℚ → List α × List α
  | [], _ => ([], [])
  | tx :: rest, running =>
    if limit + capEps < running + rem tx then
      let vr := capLoop rem limit rest running
      (vr.1, tx :: vr.2)
    else
      let vr := capLoop rem limit rest (running + rem tx)
      (tx :: vr.1, vr.2)

/-! ## Filter pipeline classification (`filter_transactions`, lines
567-599) -/

/-- One record of the filter `valid` output. -/
structure FValid where
  date : String
  amount : ℚ
  ceiling : ℚ
  remanent : ℚ
  inKPeriod : Bool
deriving DecidableEq, Repr, Inhabited

/-- One record of the filter `invalid` output
(`_filter_invalid_output`). -/
structure FInvalid where
  date : String
  amount : ℚ
  message : String
deriving DecidableEq, Repr, Inhabited

/-- The message for transactions outside every K-interval. -/
def outsideKMsg : String := "Transaction is outside all k evaluation ranges."

/-- The final classification loop of `filter_transactions`: zip the
adjusted transactions with their K-membership and route each into `valid`,
`invalid`, or silently drop it. -/
def filterClassify : List (Txn × Bool) → List FValid × List FInvalid
  | [] => ([], [])
  | (tx, inK) :: rest =>
    let a := money (tx.adjusted.getD tx.remanent)
    let vr := filterClassify rest
    if inK = false then
      (vr.1, ⟨tx.date, money tx.amount, outsideKMsg⟩ :: vr.2)
    else if a ≤ 0 then vr
    else (⟨tx.date, money tx.amount, money tx.ceiling, a, true⟩ :: vr.1, vr.2)

/-- The post-canonicalization part of `filter_transactions` (the claim's
scope: canonical, deduplicated transactions): run the temporal engine with
the precomputed order, compute K-membership, classify. -/
def filterCore (useDsu : List ℤ → List QPeriod → Bool) (canonical : List Txn)
    (qs : List QPeriod) (ps : List PPeriod) (ks : List KPeriod) :
    List FValid × List FInvalid :=
  let orderedIdx := canonicalOrder canonical
  let adjusted := applyTemporalRules useDsu canonical qs ps (some orderedIdx)
  let membership := membershipInK adjusted ks (some orderedIdx)
  filterClassify (adjusted.zip membership)

/-- The temporal-engine output that `filter_transactions` classifies. -/
def adjustedOf (useDsu : List ℤ → List QPeriod → Bool) (canonical : List Txn)
    (qs : List QPeriod) (ps : List PPeriod) : List Txn :=
  applyTemporalRules useDsu canonical qs ps (some (canonicalOrder canonical))

/-- The K-membership vector that `filter_transactions` classifies
against. -/
def memOf (useDsu : List ℤ → List QPeriod → Bool) (canonical : List Txn)
    (qs : List QPeriod) (ps : List PPeriod) (ks : List KPeriod) : List Bool :=
  membershipInK (adjustedOf useDsu canonical qs ps) ks
    (some (canonicalOrder canonical))

/-- The per-record `valid` routing of the classification loop: `none` when
the record is filtered out, `some` with the emitted record otherwise. -/
def fValidOf (pr : Txn × Bool) : Option FValid :=
  if pr.2 = false then none
  else if money (pr.1.adjusted.getD pr.1.remanent) ≤ 0 then none
  else some ⟨pr.1.date, money pr.1.amount, money pr.1.ceiling,
    money (pr.1.adjusted.getD pr.1.remanent), true⟩

/-- The per-record `invalid` routing of the classification loop. -/
def fInvalidOf (pr : Txn × Bool) : Option FInvalid :=
  if pr.2 = false then some ⟨pr.1.date, money pr.1.amount, outsideKMsg⟩
  else none

/-- A concrete strategy/batch/K-list instance (used only to witness the
filter classification claim on concrete data). -/
def c7U : List ℤ → List QPeriod → Bool := fun _ _ => false

def c7C : List Txn := [⟨"2023-01-01 00:00", 10, 75, 100, 25, none⟩]

def c7K : List KPeriod := [⟨"2023-01-01 00:00", "2023-01-01 00:05", 0, 5⟩]


/-! ## Timestamp codec (`app/core/time_utils.py`) -/

/-- The whitespace characters Python's `str.strip` / `int` remove
(ASCII fragment). -/
def pySpaceChars : List Char := [' ', '\t', '\n', '\r', Char.ofNat 11, Char.ofNat 12]

/-- Strip surrounding whitespace (`value.strip()`), ASCII fragment. -/
def pyStrip (l : List Char) : List Char :=
  ((l.dropWhile fun c => decide (c ∈ pySpaceChars)).reverse.dropWhile
    fun c => decide (c ∈ pySpaceChars)).reverse

/-- After the first digit of an integer literal: `(('_')? digit)*`
(Python 3 allows single underscores between digits). -/
def digitsTail : List Char → Bool
  | [] => true
  | '_' :: rest =>
    match rest with
    | [] => false
    | d :: rest2 => d.isDigit && digitsTail rest2
  | c :: rest => c.isDigit && digitsTail rest

/-- A valid unsigned integer body: nonempty, starts with a digit,
underscores only between digits. -/
def intBodyOk : List Char → Bool
  | [] => false
  | c :: rest => c.isDigit && digitsTail rest

/-- The numeric value of a digit string (underscores skipped). -/
def digitsVal (l : List Char) : ℕ :=
  (l.filter fun c => decide (c ≠ '_')).foldl
    (fun acc c => acc * 10 + (c.toNat - '0'.toNat)) 0

/-- Python's `int(str)` on ASCII input: optional surrounding whitespace,
optional sign, digits with single underscores between them. -/
def pyInt (l : List Char) : Option ℤ :=
  match pyStrip l with
  | '+' :: rest => if intBodyOk rest then some (digitsVal rest : ℤ) else none
  | '-' :: rest => if intBodyOk rest then some (-(digitsVal rest : ℤ)) else none
  | rest => if intBodyOk rest then some (digitsVal rest : ℤ) else none

/-- Gregorian leap year. -/
def isLeapYear (y : ℤ) : Prop := (y % 4 = 0 ∧ y % 100 ≠ 0) ∨ y % 400 = 0

instance (y : ℤ) : Decidable (isLeapYear y) :=
  inferInstanceAs (Decidable (_ ∨ _))

/-- Days in a month of the proleptic Gregorian calendar. -/
def daysInMonth (y m : ℤ) : ℤ :=
  if m = 2 then (if isLeapYear y then 29 else 28)
  else if m = 4 ∨ m = 6 ∨ m = 9 ∨ m = 11 then 30
  else 31

/-- The validity check of `datetime(year, month, day, hour, minute,
second)`. -/
def validDateTime (y m d h mi s : ℤ) : Prop :=
  1 ≤ y ∧ y ≤ 9999 ∧ 1 ≤ m ∧ m ≤ 12 ∧ 1 ≤ d ∧ d ≤ daysInMonth y m ∧
    0 ≤ h ∧ h ≤ 23 ∧ 0 ≤ mi ∧ mi ≤ 59 ∧ 0 ≤ s ∧ s ≤ 59

instance (y m d h mi s : ℤ) : Decidable (validDateTime y m d h mi s) :=
  inferInstanceAs (Decidable (_ ∧ _))

/-- The Julian day number of a Gregorian date (all intermediate quantities
nonnegative for `y ≥ 1`, so truncating division agrees with floor). -/
def jdn (y m d : ℤ) : ℤ :=
  let a := (14 - m) / 12
  let ym := y + 4800 - a
  let mm := m + 12 * a - 3
  d + (153 * mm + 2) / 5 + 365 * ym + ym / 4 - ym / 100 + ym / 400 - 32045

/-- `datetime.replace(tzinfo=utc).timestamp()` as integer UTC seconds. -/
def utcEpoch (y m d h mi s : ℤ) : ℤ :=
  86400 * (jdn y m d - 2440588) + 3600 * h + 60 * mi + s

/-- `int(cleaned[a:b])`. -/
def sliceInt (l : List Char) (a b : ℕ) : Option ℤ := pyInt ((l.drop a).take (b - a))

/-- `parse_timestamp_to_epoch(value)` from `time_utils.py` (ASCII inputs):
strip, check length 16/19 and the separators, parse the components with
`int`, validate the calendar instant, normalize the 16-char form by
appending `":00"`, and return the normalized string with the UTC epoch. -/
def parse_timestamp_to_epoch (value : List Char) : Option (List Char × ℤ) :=
  let cleaned := pyStrip value
  if cleaned.isEmpty then none
  else if ¬ (cleaned.length = 16 ∨ cleaned.length = 19) then none
  else if ¬ (cleaned.getD 4 'X' = '-' ∧ cleaned.getD 7 'X' = '-' ∧
      cleaned.getD 10 'X' = ' ' ∧ cleaned.getD 13 'X' = ':' ∧
      (cleaned.length = 19 → cleaned.getD 16 'X' = ':')) then none
  else
    match sliceInt cleaned 0 4, sliceInt cleaned 5 7, sliceInt cleaned 8 10,
      sliceInt cleaned 11 13, sliceInt cleaned 14 16,
      (if cleaned.length = 19 then sliceInt cleaned 17 19 else some 0) with
    | some y, some mo, some d, some h, some mi, some s =>
      if validDateTime y mo d h mi s then
        some ((if cleaned.length = 19 then cleaned
               else cleaned ++ [':', '0', '0']), utcEpoch y mo d h mi s)
      else none
    | _, _, _, _, _, _ => none

/-- The component match of `parse_timestamp_to_epoch`, named so that its
branches can be inverted in proofs. -/
def parseTail (cleaned : List Char) :
    Option ℤ → Option ℤ → Option ℤ → Option ℤ → Option ℤ → Option ℤ →
      Option (List Char × ℤ)
  | some y, some mo, some d, some h, some mi, some s =>
    if validDateTime y mo d h mi s then
      some ((if cleaned.length = 19 then cleaned
             else cleaned ++ [':', '0', '0']), utcEpoch y mo d h mi s)
    else none
  | _, _, _, _, _, _ => none

/-! # Theorems -/

/-! ## Money lemmas -/

theorem ratFloor_eq_intFloor (q : ℚ) : q.floor = ⌊q⌋ :=
  (Rat.floor_def' q).trans Rat.floor_def.symm

theorem roundHalfEven_intCast (n : ℤ) : roundHalfEven (n : ℚ) = n := by
  unfold roundHalfEven
  rw [ratFloor_eq_intFloor]
  simp

theorem money_of_isCents {q : ℚ} (h : IsCents q) : money q = q := by
  obtain ⟨n, rfl⟩ := h
  unfold money
  rw [div_mul_cancel₀ _ (by norm_num : (100 : ℚ) ≠ 0), roundHalfEven_intCast]

theorem isCents_money (q : ℚ) : IsCents (money q) := ⟨roundHalfEven (q * 100), rfl⟩

theorem money_money (q : ℚ) : money (money q) = money q :=
  money_of_isCents (isCents_money q)

theorem IsCents.add {a b : ℚ} (ha : IsCents a) (hb : IsCents b) :
    IsCents (a + b) := by
  obtain ⟨m, rfl⟩ := ha
  obtain ⟨n, rfl⟩ := hb
  exact ⟨m + n, by push_cast; ring⟩

theorem IsCents.sub {a b : ℚ} (ha : IsCents a) (hb : IsCents b) :
    IsCents (a - b) := by
  obtain ⟨m, rfl⟩ := ha
  obtain ⟨n, rfl⟩ := hb
  exact ⟨m - n, by push_cast; ring⟩

theorem IsCents.neg {a : ℚ} (ha : IsCents a) : IsCents (-a) := by
  obtain ⟨m, rfl⟩ := ha
  exact ⟨-m, by push_cast; ring⟩

theorem isCents_intCast (n : ℤ) : IsCents (n : ℚ) :=
  ⟨n * 100, by push_cast; ring⟩

theorem isCents_zero : IsCents (0 : ℚ) := ⟨0, by norm_num⟩

theorem isCents_sum {l : List ℚ} (h : ∀ q ∈ l, IsCents q) : IsCents l.sum := by
  induction l with
  | nil => simpa using isCents_zero
  | cons a tl ih =>
    rw [List.sum_cons]
    exact (h a (List.mem_cons_self a tl)).add
      (ih fun q hq => h q (List.mem_cons_of_mem a hq))

/-- Cent values are integer multiples of 1/100, so a strict inequality
between them leaves a gap of at least 1/100 > 1e-9; this discharges the
float tolerance in the cumulative-cap check. -/
theorem isCents_le_of_le_add_eps {a b : ℚ} (ha : IsCents a) (hb : IsCents b)
    (h : a ≤ b + capEps) : a ≤ b := by
  obtain ⟨m, rfl⟩ := ha
  obtain ⟨n, rfl⟩ := hb
  unfold capEps at h
  by_contra hlt
  push_neg at hlt
  have hmn : n < m := by
    by_contra hge
    push_neg at hge
    exact absurd (by exact_mod_cast hge : (m : ℚ) ≤ n)
      (not_le.mpr (by exact (div_lt_div_iff_of_pos_right (by norm_num)).mp hlt))
  have h1 : (n : ℚ) + 1 ≤ m := by exact_mod_cast hmn
  have : (n : ℚ) / 100 + 1 / 100 ≤ (m : ℚ) / 100 := by linarith
  linarith

/-! ## Finance lemmas and claim C8 -/

theorem le_ceil_mul_100 {amount : ℚ} :
    amount ≤ ((⌈amount / 100⌉ : ℤ) : ℚ) * 100 := by
  have h := Int.le_ceil (amount / 100)
  have h2 : amount / 100 * 100 ≤ ((⌈amount / 100⌉ : ℤ) : ℚ) * 100 :=
    mul_le_mul_of_nonneg_right h (by norm_num)
  calc amount = amount / 100 * 100 := by field_simp
    _ ≤ _ := h2

theorem ceil_mul_100_least {amount : ℚ} (m : ℤ) (hm : amount ≤ (m : ℚ) * 100) :
    ((⌈amount / 100⌉ : ℤ) : ℚ) * 100 ≤ (m : ℚ) * 100 := by
  have h1 : amount / 100 ≤ (m : ℚ) := by
    rw [div_le_iff₀ (by norm_num : (0 : ℚ) < 100)]
    exact hm
  have h2 : ⌈amount / 100⌉ ≤ m := Int.ceil_le.mpr h1
  have h3 : ((⌈amount / 100⌉ : ℤ) : ℚ) ≤ (m : ℚ) := by exact_mod_cast h2
  nlinarith

theorem next_multiple_of_100_eq {amount : ℚ} (h : 0 ≤ amount) :
    next_multiple_of_100 amount = some (((⌈amount / 100⌉ : ℤ) : ℚ) * 100) := by
  unfold next_multiple_of_100
  rw [if_neg (not_lt.mpr h)]
  congr 1
  have hcast : (((⌈amount / 100⌉ : ℤ) * 100 : ℤ) : ℚ) =
      ((⌈amount / 100⌉ : ℤ) : ℚ) * 100 := by push_cast; ring
  rw [← hcast, money_of_isCents (isCents_intCast _)]

/-- C8: for `0 ≤ a < 500000` an exact two-decimal value,
`next_multiple_of_100(a)` is `100·⌈a/100⌉`, the smallest multiple of 100
that is `≥ a`, and the synthesized remanent is exactly that ceiling minus
`a`. -/
theorem C8_next_multiple_of_100 (a : ℚ) (h0 : 0 ≤ a) (_h5 : a < 500000)
    (hc : IsCents a) :
    next_multiple_of_100 a = some (((⌈a / 100⌉ : ℤ) : ℚ) * 100) ∧
    a ≤ ((⌈a / 100⌉ : ℤ) : ℚ) * 100 ∧
    (∀ m : ℤ, a ≤ (m : ℚ) * 100 →
      ((⌈a / 100⌉ : ℤ) : ℚ) * 100 ≤ (m : ℚ) * 100) ∧
    (∀ k : ℤ, a = (k : ℚ) * 100 → ((⌈a / 100⌉ : ℤ) : ℚ) * 100 = a) ∧
    remanent_from_amount a = some (((⌈a / 100⌉ : ℤ) : ℚ) * 100 - a) := by
  refine ⟨next_multiple_of_100_eq h0, le_ceil_mul_100, fun m hm => ceil_mul_100_least m hm, ?_, ?_⟩
  · rintro k rfl
    have : ((k : ℚ) * 100) / 100 = (k : ℚ) := by field_simp
    rw [this, Int.ceil_intCast]
  · unfold remanent_from_amount
    rw [next_multiple_of_100_eq h0]
    simp only [Option.map_some']
    congr 1
    have hcents : IsCents (((⌈a / 100⌉ : ℤ) : ℚ) * 100 - a) := by
      refine IsCents.sub ?_ hc
      have : ((⌈a / 100⌉ : ℤ) : ℚ) * 100 = ((⌈a / 100⌉ * 100 : ℤ) : ℚ) := by
        push_cast; ring
      rw [this]
      exact isCents_intCast _
    exact money_of_isCents hcents

/-- C8 witness: concrete evaluations through the theorem at `a = 250`,
plus the concrete spec examples `375 → 400` and `300 → 300`. -/
theorem C8_witness :
    next_multiple_of_100 (250 : ℚ) = some 300 ∧
    remanent_from_amount (250 : ℚ) = some 50 ∧
    next_multiple_of_100 (375 : ℚ) = some 400 ∧
    next_multiple_of_100 (300 : ℚ) = some 300 := by
  have h1 := C8_next_multiple_of_100 250 (by norm_num) (by norm_num)
    ⟨25000, by norm_num⟩
  have h2 := C8_next_multiple_of_100 375 (by norm_num) (by norm_num)
    ⟨37500, by norm_num⟩
  have h3 := C8_next_multiple_of_100 300 (by norm_num) (by norm_num)
    ⟨30000, by norm_num⟩
  have c1 : (⌈(250 : ℚ) / 100⌉ : ℤ) = 3 := by (rw [Int.ceil_eq_iff]; norm_num)
  have c2 : (⌈(375 : ℚ) / 100⌉ : ℤ) = 4 := by (rw [Int.ceil_eq_iff]; norm_num)
  have c3 : (⌈(300 : ℚ) / 100⌉ : ℤ) = 3 := by (rw [Int.ceil_eq_iff]; norm_num)
  refine ⟨?_, ?_, ?_, ?_⟩
  · rw [h1.1, c1]; norm_num
  · rw [h1.2.2.2.2, c1]; norm_num
  · rw [h2.1, c2]; norm_num
  · rw [h3.1, c3]; norm_num

/-! ## Sorting and enumeration lemmas -/

theorem sortByKey_perm {α β : Type} [LinearOrder β] (k : α → β) (l : List α) :
    List.Perm (sortByKey k l) l :=
  List.perm_insertionSort _ l

theorem sortByKey_sorted {α β : Type} [LinearOrder β] (k : α → β) (l : List α) :
    (sortByKey k l).Sorted (keyLE k) :=
  List.sorted_insertionSort _ l

theorem mem_sortByKey {α β : Type} [LinearOrder β] {k : α → β} {l : List α}
    {x : α} : x ∈ sortByKey k l ↔ x ∈ l :=
  (sortByKey_perm k l).mem_iff

theorem enum_fst_inj {α : Type} {l : List α} {a b : ℕ × α}
    (ha : a ∈ l.enum) (hb : b ∈ l.enum) (h : a.1 = b.1) : a = b := by
  rw [List.mem_enum_iff_getElem?] at ha hb
  rw [h] at ha
  exact Prod.ext h (Option.some.inj (ha.symm.trans hb))

theorem enum_snd_mem {α : Type} {l : List α} {a : ℕ × α} (ha : a ∈ l.enum) :
    a.2 ∈ l := by
  rw [List.mem_enum_iff_getElem?] at ha
  exact List.getElem?_mem ha

theorem qPrio_inj {qs : List QPeriod} {a b : IQP}
    (ha : a ∈ qs.enum) (hb : b ∈ qs.enum) (h : qPrio a = qPrio b) : a = b := by
  have h2 : (ofLex (qPrio a)) = (ofLex (qPrio b)) := congrArg ofLex h
  have h3 : a.1 = b.1 := congrArg Prod.snd h2
  exact enum_fst_inj ha hb h3

/-! ## `qWinner` characterization -/

theorem qWinner_eq_none_iff {t : ℤ} {iqs : List IQP} :
    qWinner t iqs = none ↔ ∀ iq ∈ iqs, ¬ qContains t iq.2 := by
  unfold qWinner
  rw [List.argmin_eq_none, List.filter_eq_nil_iff]
  simp

theorem qWinner_spec {t : ℤ} {iqs : List IQP} {m : IQP}
    (h : qWinner t iqs = some m) :
    m ∈ iqs ∧ qContains t m.2 ∧
      ∀ iq ∈ iqs, qContains t iq.2 → qPrio m ≤ qPrio iq := by
  unfold qWinner at h
  have hmem : m ∈ (iqs.filter fun iq => decide (qContains t iq.2)).argmin qPrio :=
    Option.mem_def.mpr h
  have hmf := List.argmin_mem hmem
  rw [List.mem_filter] at hmf
  refine ⟨hmf.1, of_decide_eq_true hmf.2, fun iq hiq hc => ?_⟩
  exact List.le_of_mem_argmin
    (List.mem_filter.mpr ⟨hiq, decide_eq_true hc⟩) hmem

theorem qWinner_eq_some_of {t : ℤ} {iqs : List IQP} {m : IQP}
    (hinj : ∀ a ∈ iqs, ∀ b ∈ iqs, qPrio a = qPrio b → a = b)
    (hm : m ∈ iqs) (hc : qContains t m.2)
    (hmin : ∀ iq ∈ iqs, qContains t iq.2 → qPrio m ≤ qPrio iq) :
    qWinner t iqs = some m := by
  cases h : qWinner t iqs with
  | none => exact absurd hc (qWinner_eq_none_iff.mp h m hm)
  | some w =>
    obtain ⟨hw, hcw, hminw⟩ := qWinner_spec h
    have heq : qPrio w = qPrio m :=
      le_antisymm (hminw m hm hc) (hmin w hw hcw)
    rw [hinj w hw m hm heq]

/-! ## Heap-entry order lemmas -/

theorem entryLE_refl (e : HeapEntry) : entryLE e e := le_refl _

theorem entryLE_prio {a b : IQP}
    (h : entryLE (toEntry a) (toEntry b)) : qPrio a ≤ qPrio b := by
  unfold entryLE keyLE entryKey toEntry at h
  rcases (Prod.Lex.le_iff _ _).mp h with h1 | ⟨h1, h2⟩
  · exact (Prod.Lex.le_iff _ _).mpr (Or.inl h1)
  · rcases (Prod.Lex.le_iff _ _).mp h2 with h3 | ⟨h3, _⟩
    · exact (Prod.Lex.le_iff _ _).mpr (Or.inr ⟨h1, le_of_lt h3⟩)
    · exact (Prod.Lex.le_iff _ _).mpr (Or.inr ⟨h1, le_of_eq h3⟩)

/-! ## Heap strategy correctness -/

theorem heapPushDue_spec (t : ℤ) :
    ∀ (pending : List IQP) (active : List HeapEntry),
      pending.Sorted (keyLE fun iq : IQP => (toLex (iq.2.startEpoch, iq.1) : ℤ ×ₗ ℕ)) →
      active.Sorted entryLE →
      ∃ consumed,
        pending = consumed ++ (heapPushDue t pending active).1 ∧
        (∀ iq ∈ consumed, iq.2.startEpoch ≤ t) ∧
        (∀ iq ∈ (heapPushDue t pending active).1, t < iq.2.startEpoch) ∧
        (heapPushDue t pending active).2.Sorted entryLE ∧
        (∀ e, e ∈ (heapPushDue t pending active).2 ↔
          e ∈ active ∨ ∃ iq ∈ consumed, e = toEntry iq) := by
  intro pending
  induction pending with
  | nil =>
    intro active _ hact
    exact ⟨[], rfl, by simp, by simp [heapPushDue], by simpa [heapPushDue] using hact,
      by simp [heapPushDue]⟩
  | cons hd rest ih =>
    obtain ⟨i, q⟩ := hd
    intro active hpend hact
    by_cases hle : q.startEpoch ≤ t
    · have hres : heapPushDue t ((i, q) :: rest) active
          = heapPushDue t rest (active.orderedInsert entryLE (toEntry (i, q))) := by
        simp [heapPushDue, hle]
      have hact2 : (active.orderedInsert entryLE (toEntry (i, q))).Sorted entryLE :=
        hact.orderedInsert _ _
      obtain ⟨consumed, hsplit, hcons, hpend2, hsort2, hmem⟩ :=
        ih (active.orderedInsert entryLE (toEntry (i, q))) hpend.of_cons hact2
      refine ⟨(i, q) :: consumed, ?_, ?_, ?_, ?_, ?_⟩
      · rw [hres, List.cons_append]
        exact congrArg (List.cons _) hsplit
      · intro iq hiq
        rcases List.mem_cons.mp hiq with rfl | hmem2
        · exact hle
        · exact hcons iq hmem2
      · rw [hres]; exact hpend2
      · rw [hres]; exact hsort2
      · intro e
        rw [hres, hmem e, List.mem_orderedInsert]
        constructor
        · rintro ((rfl | he) | ⟨iq, hiq, rfl⟩)
          · exact Or.inr ⟨(i, q), List.mem_cons_self _ _, rfl⟩
          · exact Or.inl he
          · exact Or.inr ⟨iq, List.mem_cons_of_mem _ hiq, rfl⟩
        · rintro (he | ⟨iq, hiq, rfl⟩)
          · exact Or.inl (Or.inr he)
          · rcases List.mem_cons.mp hiq with rfl | hmem2
            · exact Or.inl (Or.inl rfl)
            · exact Or.inr ⟨iq, hmem2, rfl⟩
    · have hres : heapPushDue t ((i, q) :: rest) active = ((i, q) :: rest, active) := by
        simp [heapPushDue, hle]
      refine ⟨[], by simp [hres], by simp, ?_, by rw [hres]; exact hact, by simp [hres]⟩
      rw [hres]
      intro iq hiq
      rcases List.mem_cons.mp hiq with rfl | hmem2
      · exact not_le.mp hle
      · have hrel := List.rel_of_sorted_cons hpend iq hmem2
        have hfst : q.startEpoch ≤ iq.2.startEpoch :=
          Prod.Lex.monotone_fst _ _ hrel
        exact lt_of_lt_of_le (not_le.mp hle) hfst

theorem heapPopExpired_split (t : ℤ) :
    ∀ l : List HeapEntry,
      ∃ pre, l = pre ++ heapPopExpired t l ∧ ∀ e ∈ pre, e.2.2.1 < t := by
  intro l
  induction l with
  | nil => exact ⟨[], rfl, by simp⟩
  | cons e rest ih =>
    by_cases h : e.2.2.1 < t
    · obtain ⟨pre, hsplit, hpre⟩ := ih
      refine ⟨e :: pre, ?_, ?_⟩
      · rw [show heapPopExpired t (e :: rest) = heapPopExpired t rest by
          simp [heapPopExpired, h]]
        rw [List.cons_append]
        exact congrArg (List.cons _) hsplit
      · intro x hx
        rcases List.mem_cons.mp hx with rfl | hx2
        · exact h
        · exact hpre x hx2
    · exact ⟨[], by simp [heapPopExpired, h], by simp⟩

theorem heapPopExpired_head {t : ℤ} :
    ∀ {l : List HeapEntry} {e : HeapEntry} {rest : List HeapEntry},
      heapPopExpired t l = e :: rest → ¬ e.2.2.1 < t := by
  intro l
  induction l with
  | nil => intro e rest h; simp [heapPopExpired] at h
  | cons a tl ih =>
    intro e rest h
    by_cases ha : a.2.2.1 < t
    · rw [show heapPopExpired t (a :: tl) = heapPopExpired t tl by
        simp [heapPopExpired, ha]] at h
      exact ih h
    · rw [show heapPopExpired t (a :: tl) = a :: tl by simp [heapPopExpired, ha]] at h
      rw [← (List.cons.injEq .. |>.mp h).1]
      exact ha

theorem heapLoop_eq (qs : List QPeriod) :
    ∀ (ts : List ℤ) (t0 : ℤ) (done pending : List IQP) (active : List HeapEntry),
      sortByKey (fun iq : IQP => (toLex (iq.2.startEpoch, iq.1) : ℤ ×ₗ ℕ)) qs.enum
        = done ++ pending →
      (∀ iq ∈ done, iq.2.startEpoch ≤ t0) →
      active.Sorted entryLE →
      (∀ e ∈ active, ∃ iq ∈ done, e = toEntry iq) →
      (∀ iq ∈ done, toEntry iq ∈ active ∨ iq.2.endEpoch < t0) →
      ts.Sorted (· ≤ ·) →
      (∀ t ∈ ts, t0 ≤ t) →
      heapLoop ts pending active
        = ts.map fun t => (qWinner t qs.enum).map fun iq => iq.2.value := by
  intro ts
  induction ts with
  | nil => intros; rfl
  | cons t ts ih =>
    intro t0 done pending active hsplit hdone hact horigin hmiss hsorted hlb
    have hSsorted := sortByKey_sorted
      (fun iq : IQP => (toLex (iq.2.startEpoch, iq.1) : ℤ ×ₗ ℕ)) qs.enum
    rw [hsplit] at hSsorted
    have hpend : pending.Sorted
        (keyLE fun iq : IQP => (toLex (iq.2.startEpoch, iq.1) : ℤ ×ₗ ℕ)) :=
      (List.pairwise_append.mp hSsorted).2.1
    have ht0t : t0 ≤ t := hlb t (List.mem_cons_self _ _)
    obtain ⟨consumed, hps, hcle, hpgt, hsort2, hmem2⟩ :=
      heapPushDue_spec t pending active hpend hact
    obtain ⟨pre, hpopsplit, hpre⟩ :=
      heapPopExpired_split t (heapPushDue t pending active).2
    have hsplit2 : sortByKey (fun iq : IQP => (toLex (iq.2.startEpoch, iq.1) : ℤ ×ₗ ℕ))
        qs.enum = (done ++ consumed) ++ (heapPushDue t pending active).1 :=
      hsplit.trans ((congrArg (done ++ ·) hps).trans
        (List.append_assoc done consumed _).symm)
    have hdone2le : ∀ iq ∈ done ++ consumed, iq.2.startEpoch ≤ t := by
      intro iq hiq
      rcases List.mem_append.mp hiq with h1 | h2
      · exact le_trans (hdone iq h1) ht0t
      · exact hcle iq h2
    have hact3sorted : (heapPopExpired t (heapPushDue t pending active).2).Sorted
        entryLE := by
      rw [hpopsplit] at hsort2
      exact (List.pairwise_append.mp hsort2).2.1
    have horigin3 : ∀ e ∈ heapPopExpired t (heapPushDue t pending active).2,
        ∃ iq ∈ done ++ consumed, e = toEntry iq := by
      intro e he
      have he2 : e ∈ (heapPushDue t pending active).2 := by
        rw [hpopsplit]; exact List.mem_append_right _ he
      rcases (hmem2 e).mp he2 with hae | ⟨iq, hiq, rfl⟩
      · obtain ⟨iq, hiq, rfl⟩ := horigin e hae
        exact ⟨iq, List.mem_append_left _ hiq, rfl⟩
      · exact ⟨iq, List.mem_append_right _ hiq, rfl⟩
    have hmiss3 : ∀ iq ∈ done ++ consumed,
        toEntry iq ∈ heapPopExpired t (heapPushDue t pending active).2 ∨
          iq.2.endEpoch < t := by
      intro iq hiq
      have hin2 : toEntry iq ∈ (heapPushDue t pending active).2 ∨
          iq.2.endEpoch < t := by
        rcases List.mem_append.mp hiq with h1 | h2
        · rcases hmiss iq h1 with hA | hB
          · exact Or.inl ((hmem2 _).mpr (Or.inl hA))
          · exact Or.inr (lt_of_lt_of_le hB ht0t)
        · exact Or.inl ((hmem2 _).mpr (Or.inr ⟨iq, h2, rfl⟩))
      rcases hin2 with hA | hB
      · rw [hpopsplit] at hA
        rcases List.mem_append.mp hA with hpre2 | hin3
        · exact Or.inr (hpre _ hpre2)
        · exact Or.inl hin3
      · exact Or.inr hB
    have hindone2 : ∀ iq ∈ qs.enum, qContains t iq.2 → iq ∈ done ++ consumed := by
      intro iq hiq hc
      have hiqS : iq ∈ (done ++ consumed) ++ (heapPushDue t pending active).1 := by
        rw [← hsplit2]; exact mem_sortByKey.mpr hiq
      rcases List.mem_append.mp hiqS with h1 | h2
      · exact h1
      · exact absurd hc.1 (not_le.mpr (hpgt iq h2))
    have hhead : ((heapPopExpired t (heapPushDue t pending active).2).head?.map
        fun e => e.2.2.2) = (qWinner t qs.enum).map fun iq => iq.2.value := by
      cases hact3 : heapPopExpired t (heapPushDue t pending active).2 with
      | nil =>
        have hw : qWinner t qs.enum = none := by
          rw [qWinner_eq_none_iff]
          intro iq hiq hc
          have hd2 := hindone2 iq hiq hc
          rcases hmiss3 iq hd2 with hA | hB
          · rw [hact3] at hA; exact absurd hA (List.not_mem_nil _)
          · exact absurd hc.2 (not_le.mpr hB)
        rw [hw]
        rfl
      | cons e act4 =>
        obtain ⟨iq0, hiq0done, heq⟩ := horigin3 e (hact3 ▸ List.mem_cons_self _ _)
        have hnotexp : ¬ e.2.2.1 < t := heapPopExpired_head hact3
        have hc0 : qContains t iq0.2 := by
          refine ⟨hdone2le iq0 hiq0done, ?_⟩
          have : e.2.2.1 = iq0.2.endEpoch := by rw [heq]; rfl
          rw [← this]
          exact not_lt.mp hnotexp
        have hmin : ∀ iq ∈ qs.enum, qContains t iq.2 → qPrio iq0 ≤ qPrio iq := by
          intro iq hiq hc
          have hd2 := hindone2 iq hiq hc
          have hinact3 : toEntry iq ∈ e :: act4 := by
            rw [← hact3]
            exact (hmiss3 iq hd2).resolve_right (not_lt.mpr hc.2)
          rcases List.mem_cons.mp hinact3 with hEq | hin4
          · rw [heq] at hEq
            refine entryLE_prio ?_
            rw [hEq]
            exact entryLE_refl _
          · have hrel : entryLE e (toEntry iq) :=
              List.rel_of_sorted_cons (hact3 ▸ hact3sorted) _ hin4
            rw [heq] at hrel
            exact entryLE_prio hrel
        have hiq0mem : iq0 ∈ qs.enum :=
          mem_sortByKey.mp (hsplit2 ▸ List.mem_append_left _ hiq0done)
        have hW : qWinner t qs.enum = some iq0 :=
          qWinner_eq_some_of (fun a ha b hb => qPrio_inj ha hb) hiq0mem hc0 hmin
        rw [hW]
        simp only [List.head?_cons, Option.map_some']
        rw [heq]
        rfl
    have hstep : heapLoop (t :: ts) pending active =
        ((heapPopExpired t (heapPushDue t pending active).2).head?.map
          fun e => e.2.2.2) ::
          heapLoop ts (heapPushDue t pending active).1
            (heapPopExpired t (heapPushDue t pending active).2) := rfl
    rw [hstep, List.map_cons, hhead]
    congr 1
    exact ih t (done ++ consumed) (heapPushDue t pending active).1
      (heapPopExpired t (heapPushDue t pending active).2)
      hsplit2 hdone2le hact3sorted horigin3 hmiss3 hsorted.of_cons
      (fun t2 ht2 => List.rel_of_sorted_cons hsorted t2 ht2)

theorem heap_eq_oracle (times : List ℤ) (qs : List QPeriod)
    (h : times.Sorted (· ≤ ·)) :
    q_overrides_heap times qs = qOracle times qs := by
  unfold q_overrides_heap qOracle
  by_cases hc : times.isEmpty ∨ qs.isEmpty
  · rw [if_pos hc]
    rcases hc with hc | hc
    · rw [List.isEmpty_iff.mp hc]
      rfl
    · rw [List.isEmpty_iff.mp hc]
      have : ∀ t : ℤ, (qWinner t (List.enum ([] : List QPeriod))).map
          (fun iq : IQP => iq.2.value) = none := by
        intro t
        rw [show qWinner t (List.enum ([] : List QPeriod)) = none from rfl]
        rfl
      calc List.replicate times.length none
          = times.map fun _ => (none : Option ℚ) := (List.map_const' times none).symm
        _ = _ := by
            apply List.map_congr_left
            intro t _
            exact (this t).symm
  · rw [if_neg hc]
    push_neg at hc
    obtain ⟨h1, _⟩ := hc
    match times, h with
    | t0 :: rest, h =>
      exact heapLoop_eq qs (t0 :: rest) t0 [] _ []
        rfl (by simp) List.sorted_nil (by simp) (by simp) h
        (fun t ht => by
          rcases List.mem_cons.mp ht with rfl | ht2
          · exact le_refl t
          · exact List.rel_of_sorted_cons h t ht2)

/-! ## `nxtFree` lemmas -/

theorem nxtFree_ge (ov : ℕ → Option ℚ) (N : ℕ) : ∀ i, i ≤ nxtFree ov N i := by
  intro i
  generalize hk : N - i = k
  induction k generalizing i with
  | zero =>
    have hN : N ≤ i := by omega
    rw [nxtFree, if_pos hN]
  | succ k ih =>
    have hN : ¬ N ≤ i := by omega
    rw [nxtFree, if_neg hN]
    by_cases hov : ov i = none
    · rw [if_pos hov]
    · rw [if_neg hov]
      have := ih (i + 1) (by omega)
      omega

theorem nxtFree_le (ov : ℕ → Option ℚ) (N : ℕ) :
    ∀ i, i ≤ N → nxtFree ov N i ≤ N := by
  intro i
  generalize hk : N - i = k
  induction k generalizing i with
  | zero =>
    intro hi
    have hN : N ≤ i := by omega
    rw [nxtFree, if_pos hN]
    omega
  | succ k ih =>
    intro hi
    have hN : ¬ N ≤ i := by omega
    rw [nxtFree, if_neg hN]
    by_cases hov : ov i = none
    · rw [if_pos hov]; omega
    · rw [if_neg hov]
      exact ih (i + 1) (by omega) (by omega)

theorem nxtFree_spec (ov : ℕ → Option ℚ) (N : ℕ) :
    ∀ i, i ≤ N →
      nxtFree ov N i = N ∨
        (nxtFree ov N i < N ∧ ov (nxtFree ov N i) = none) := by
  intro i
  generalize hk : N - i = k
  induction k generalizing i with
  | zero =>
    intro hi
    have hN : N ≤ i := by omega
    rw [nxtFree, if_pos hN]
    omega
  | succ k ih =>
    intro hi
    have hN : ¬ N ≤ i := by omega
    rw [nxtFree, if_neg hN]
    by_cases hov : ov i = none
    · rw [if_pos hov]
      exact Or.inr ⟨by omega, hov⟩
    · rw [if_neg hov]
      exact ih (i + 1) (by omega) (by omega)

theorem nxtFree_min (ov : ℕ → Option ℚ) (N : ℕ) :
    ∀ i j, i ≤ j → j < nxtFree ov N i → ov j ≠ none := by
  intro i
  generalize hk : N - i = k
  induction k generalizing i with
  | zero =>
    intro j hij hj
    have hN : N ≤ i := by omega
    rw [nxtFree, if_pos hN] at hj
    omega
  | succ k ih =>
    intro j hij hj
    have hN : ¬ N ≤ i := by omega
    rw [nxtFree, if_neg hN] at hj
    by_cases hov : ov i = none
    · rw [if_pos hov] at hj; omega
    · rw [if_neg hov] at hj
      by_cases hji : j = i
      · rw [hji]; exact hov
      · exact ih (i + 1) (by omega) j (by omega) hj

theorem nxtFree_eq_of_between (ov : ℕ → Option ℚ) (N : ℕ) :
    ∀ i j, i ≤ j → j ≤ nxtFree ov N i → nxtFree ov N j = nxtFree ov N i := by
  intro i
  generalize hk : N - i = k
  induction k generalizing i with
  | zero =>
    intro j hij hj
    have hN : N ≤ i := by omega
    rw [nxtFree, if_pos hN] at hj
    have : j = i := le_antisymm hj hij
    rw [this]
  | succ k ih =>
    intro j hij hj
    have hN : ¬ N ≤ i := by omega
    by_cases hov : ov i = none
    · rw [nxtFree, if_neg hN, if_pos hov] at hj
      have : j = i := le_antisymm hj hij
      rw [this]
    · have hstep : nxtFree ov N i = nxtFree ov N (i + 1) := by
        rw [nxtFree, if_neg hN, if_neg hov]
      by_cases hji : j = i
      · rw [hji]
      · have hj2 : j ≤ nxtFree ov N (i + 1) := hstep ▸ hj
        rw [ih (i + 1) (by omega) j (by omega) hj2, hstep]

theorem nxtFree_mono (ov ov2 : ℕ → Option ℚ)
    (hsub : ∀ j, ov2 j = none → ov j = none) (N : ℕ) :
    ∀ i, nxtFree ov N i ≤ nxtFree ov2 N i := by
  intro i
  generalize hk : N - i = k
  induction k generalizing i with
  | zero =>
    have hN : N ≤ i := by omega
    rw [nxtFree, if_pos hN]
    exact nxtFree_ge ov2 N i
  | succ k ih =>
    have hN : ¬ N ≤ i := by omega
    by_cases hov : ov i = none
    · rw [nxtFree, if_neg hN, if_pos hov]
      exact nxtFree_ge ov2 N i
    · have hov2 : ov2 i ≠ none := fun h => hov (hsub i h)
      rw [nxtFree, if_neg hN, if_neg hov]
      rw [show nxtFree ov2 N i = nxtFree ov2 N (i + 1) by
        rw [nxtFree, if_neg hN, if_neg hov2]]
      exact ih (i + 1) (by omega)

/-! ## `cntOf` lemmas -/

theorem filter_update_length {l : List ℕ} {ov : ℕ → Option ℚ} {p : ℕ} (v : ℚ)
    (hnd : l.Nodup) (hmem : p ∈ l) (hnone : ov p = none) :
    (l.filter fun x => (Function.update ov p (some v) x).isSome).length
      = (l.filter fun x => (ov x).isSome).length + 1 := by
  induction l with
  | nil => exact absurd hmem (List.not_mem_nil p)
  | cons a tl ih =>
    rw [List.nodup_cons] at hnd
    by_cases hap : a = p
    · subst hap
      have h1 : (Function.update ov a (some v) a).isSome = true := by
        rw [Function.update_same]; rfl
      rw [List.filter_cons, List.filter_cons, if_pos h1,
        if_neg (by rw [hnone]; simp)]
      have heq : tl.filter (fun x => (Function.update ov a (some v) x).isSome)
          = tl.filter fun x => (ov x).isSome := by
        apply List.filter_congr
        intro x hx
        have hxa : x ≠ a := fun h => hnd.1 (h ▸ hx)
        rw [Function.update_noteq hxa]
      rw [heq, List.length_cons]
    · have hmem2 : p ∈ tl := by
        rcases List.mem_cons.mp hmem with h | h
        · exact absurd h.symm hap
        · exact h
      have heq : (Function.update ov p (some v) a).isSome = (ov a).isSome := by
        rw [Function.update_noteq hap]
      rw [List.filter_cons, List.filter_cons, heq]
      by_cases ha : (ov a).isSome
      · rw [if_pos ha, if_pos ha, List.length_cons, List.length_cons,
          ih hnd.2 hmem2]
      · rw [if_neg ha, if_neg ha, ih hnd.2 hmem2]

theorem cntOf_update {N : ℕ} {ov : ℕ → Option ℚ} {p : ℕ} (v : ℚ)
    (hp : p < N) (hnone : ov p = none) :
    cntOf N (Function.update ov p (some v)) = cntOf N ov + 1 :=
  filter_update_length v (List.nodup_range N) (List.mem_range.mpr hp) hnone

theorem cntOf_le (N : ℕ) (ov : ℕ → Option ℚ) : cntOf N ov ≤ N := by
  unfold cntOf
  calc ((List.range N).filter fun p => (ov p).isSome).length
      ≤ (List.range N).length := ((List.range N).filter_sublist).length_le
    _ = N := List.length_range N

theorem cntOf_full {N : ℕ} {ov : ℕ → Option ℚ} (h : N ≤ cntOf N ov) :
    ∀ p, p < N → (ov p).isSome := by
  have h2 : cntOf N ov ≤ N := cntOf_le N ov
  have hlen : ((List.range N).filter fun p => (ov p).isSome).length
      = (List.range N).length := by
    unfold cntOf at h h2
    rw [List.length_range]
    omega
  have hall := List.filter_eq_self.mp
    (List.Sublist.eq_of_length ((List.range N).filter_sublist) hlen)
  intro p hp
  exact hall p (List.mem_range.mpr hp)

/-! ## Bisect characterization on sorted lists -/

theorem lt_bisectLeft_iff {l : List ℤ} (hs : l.Sorted (· ≤ ·)) {x : ℤ} :
    ∀ {p : ℕ}, p < l.length → (p < bisectLeft l x ↔ l.getD p 0 < x) := by
  induction l with
  | nil => intro p hp; simp at hp
  | cons a tl ih =>
    intro p hp
    unfold bisectLeft
    rw [List.takeWhile_cons]
    by_cases ha : a < x
    · rw [if_pos (decide_eq_true ha)]
      match p with
      | 0 => simpa using ha
      | p + 1 =>
        rw [List.length_cons] at hp
        have := ih hs.of_cons (Nat.lt_of_succ_lt_succ hp)
        unfold bisectLeft at this
        simpa using this
    · rw [if_neg (by simpa using ha)]
      simp only [List.length_nil, Nat.not_lt_zero, false_iff]
      match p with
      | 0 => simpa using ha
      | p + 1 =>
        rw [List.length_cons] at hp
        have hmem : tl.getD p 0 ∈ tl := by
          rw [List.getD_eq_getElem tl 0 (Nat.lt_of_succ_lt_succ hp)]
          exact List.getElem_mem _
        have hle : a ≤ tl.getD p 0 := List.rel_of_sorted_cons hs _ hmem
        simp only [List.getD_cons_succ]
        omega

theorem lt_bisectRight_iff {l : List ℤ} (hs : l.Sorted (· ≤ ·)) {x : ℤ} :
    ∀ {p : ℕ}, p < l.length → (p < bisectRight l x ↔ l.getD p 0 ≤ x) := by
  induction l with
  | nil => intro p hp; simp at hp
  | cons a tl ih =>
    intro p hp
    unfold bisectRight
    rw [List.takeWhile_cons]
    by_cases ha : a ≤ x
    · rw [if_pos (decide_eq_true ha)]
      match p with
      | 0 => simpa using ha
      | p + 1 =>
        rw [List.length_cons] at hp
        have := ih hs.of_cons (Nat.lt_of_succ_lt_succ hp)
        unfold bisectRight at this
        simpa using this
    · rw [if_neg (by simpa using ha)]
      simp only [List.length_nil, Nat.not_lt_zero, false_iff]
      match p with
      | 0 => simpa using ha
      | p + 1 =>
        rw [List.length_cons] at hp
        have hmem : tl.getD p 0 ∈ tl := by
          rw [List.getD_eq_getElem tl 0 (Nat.lt_of_succ_lt_succ hp)]
          exact List.getElem_mem _
        have hle : a ≤ tl.getD p 0 := List.rel_of_sorted_cons hs _ hmem
        simp only [List.getD_cons_succ]
        omega

theorem bisectLeft_le_length (l : List ℤ) (x : ℤ) : bisectLeft l x ≤ l.length :=
  (List.takeWhile_sublist _).length_le

theorem bisectRight_le_length (l : List ℤ) (x : ℤ) : bisectRight l x ≤ l.length :=
  (List.takeWhile_sublist _).length_le

/-! ## `find?` helper lemmas -/

theorem find?_append_some {α : Type} {p : α → Bool} :
    ∀ {l1 : List α} (l2 : List α) {a : α},
      l1.find? p = some a → (l1 ++ l2).find? p = some a := by
  intro l1
  induction l1 with
  | nil => intro l2 a h; simp [List.find?] at h
  | cons b tl ih =>
    intro l2 a h
    rw [List.cons_append]
    by_cases hb : p b
    · rw [List.find?_cons_of_pos _ hb] at h ⊢
      exact h
    · rw [List.find?_cons_of_neg _ hb] at h ⊢
      exact ih l2 h

theorem find?_append_none {α : Type} {p : α → Bool} :
    ∀ {l1 : List α} (l2 : List α),
      l1.find? p = none → (l1 ++ l2).find? p = l2.find? p := by
  intro l1
  induction l1 with
  | nil => intro l2 _; rfl
  | cons b tl ih =>
    intro l2 h
    rw [List.cons_append]
    by_cases hb : p b
    · rw [List.find?_cons_of_pos _ hb] at h; exact absurd h (by simp)
    · rw [List.find?_cons_of_neg _ hb] at h ⊢
      exact ih l2 h

theorem find?_split {α : Type} {p : α → Bool} :
    ∀ {l : List α} {a : α}, l.find? p = some a →
      ∃ l1 l2, l = l1 ++ a :: l2 ∧ ∀ x ∈ l1, ¬ p x := by
  intro l
  induction l with
  | nil => intro a h; simp [List.find?] at h
  | cons b tl ih =>
    intro a h
    by_cases hb : p b
    · rw [List.find?_cons_of_pos _ hb] at h
      refine ⟨[], tl, ?_, by simp⟩
      rw [Option.some_inj.mp h]
      rfl
    · rw [List.find?_cons_of_neg _ hb] at h
      obtain ⟨l1, l2, hsplit, hl1⟩ := ih h
      refine ⟨b :: l1, l2, by rw [hsplit]; rfl, ?_⟩
      intro x hx
      rcases List.mem_cons.mp hx with rfl | hx2
      · simpa using hb
      · exact hl1 x hx2

/-! ## DSU `find` correctness -/

theorem dsuFind_spec (N lo : ℕ) (ov : ℕ → Option ℚ) :
    ∀ (fuel : ℕ) (parent : ℕ → ℕ) (i : ℕ),
      DsuInvFrom N lo parent ov → lo ≤ i → i ≤ N → N + 1 - i ≤ fuel →
      (dsuFind fuel parent i).1 = nxtFree ov N i ∧
      DsuInvFrom N lo (dsuFind fuel parent i).2 ov ∧
      ∀ j, j < i → (dsuFind fuel parent i).2 j = parent j := by
  intro fuel
  induction fuel with
  | zero => intro parent i _ _ hiN hfuel; omega
  | succ fuel ih =>
    intro parent i hinv hlo hiN hfuel
    obtain ⟨hP1, hP2, hP3⟩ := hinv
    have hstep : dsuFind (fuel + 1) parent i =
        if parent i = i then (i, parent)
        else dsuFind fuel (Function.update parent i (parent (parent i)))
          (parent (parent i)) := rfl
    by_cases hroot : parent i = i
    · rw [hstep, if_pos hroot]
      refine ⟨?_, ⟨hP1, hP2, hP3⟩, fun j _ => rfl⟩
      by_cases hNi : N ≤ i
      · rw [nxtFree, if_pos hNi]
      · have hiltN : i < N := by omega
        by_cases hov : ov i = none
        · rw [nxtFree, if_neg hNi, if_pos hov]
        · exact absurd hroot (Nat.ne_of_lt (hP1 i hlo hiltN hov).1).symm
    · have hiltN : i < N := by
        by_contra hcon
        exact hroot (hP3 i hlo (by omega))
      have hov : ov i ≠ none := fun h => hroot (hP2 i hlo hiltN h)
      obtain ⟨hlt, hle⟩ := hP1 i hlo hiltN hov
      have hnxtN : nxtFree ov N i ≤ N := nxtFree_le ov N i hiN
      have hg_bounds : parent i ≤ parent (parent i) ∧
          parent (parent i) ≤ nxtFree ov N i := by
        rcases lt_or_eq_of_le hle with hplt | hpeq
        · have hfree : ov (parent i) ≠ none :=
            nxtFree_min ov N i (parent i) (le_of_lt hlt) hplt
          have hpiN : parent i < N := lt_of_lt_of_le hplt hnxtN
          obtain ⟨h1, h2⟩ := hP1 (parent i)
            (le_trans hlo (le_of_lt hlt)) hpiN hfree
          refine ⟨le_of_lt h1, ?_⟩
          rwa [nxtFree_eq_of_between ov N i (parent i) (le_of_lt hlt) hle] at h2
        · rcases nxtFree_spec ov N i hiN with hN2 | ⟨hltN2, hfree2⟩
          · have : parent (parent i) = parent i := by
              rw [hpeq, hN2]
              exact hP3 N (le_trans hlo hiN) (le_refl N)
            rw [this]
            exact ⟨le_refl _, hle⟩
          · have : parent (parent i) = parent i := by
              rw [hpeq]
              exact hP2 _ (le_trans hlo (hpeq ▸ le_of_lt hlt)) hltN2 hfree2
            rw [this]
            exact ⟨le_refl _, hle⟩
      have higlt : i < parent (parent i) := lt_of_lt_of_le hlt hg_bounds.1
      have hgN : parent (parent i) ≤ N := le_trans hg_bounds.2 hnxtN
      have hinv2 : DsuInvFrom N lo (Function.update parent i (parent (parent i))) ov := by
        refine ⟨?_, ?_, ?_⟩
        · intro j hjlo hjN hjov
          by_cases hji : j = i
          · subst hji
            rw [Function.update_same]
            exact ⟨higlt, hg_bounds.2⟩
          · rw [Function.update_noteq hji]
            exact hP1 j hjlo hjN hjov
        · intro j hjlo hjN hjov
          have hji : j ≠ i := fun h => hov (h ▸ hjov)
          rw [Function.update_noteq hji]
          exact hP2 j hjlo hjN hjov
        · intro j hjlo hjN
          have hji : j ≠ i := fun h => by omega
          rw [Function.update_noteq hji]
          exact hP3 j hjlo hjN
      obtain ⟨hr1, hr2, hr3⟩ := ih (Function.update parent i (parent (parent i)))
        (parent (parent i)) hinv2 (le_trans hlo (le_of_lt higlt)) hgN (by omega)
      rw [hstep, if_neg hroot]
      refine ⟨?_, hr2, ?_⟩
      · rw [hr1]
        exact nxtFree_eq_of_between ov N i (parent (parent i))
          (le_of_lt higlt) hg_bounds.2
      · intro j hj
        rw [hr3 j (lt_trans hj higlt)]
        exact Function.update_noteq (Nat.ne_of_lt hj) _ _

/-! ## DSU assignment walk correctness -/

theorem assignLoop_spec (N : ℕ) (v : ℚ) (right : ℕ) (hr : right < N) :
    ∀ (fuel pos : ℕ) (parent : ℕ → ℕ) (ov : ℕ → Option ℚ) (cnt : ℕ),
      DsuInvFrom N 0 parent ov →
      pos = nxtFree ov N pos →
      pos ≤ N →
      cnt = cntOf N ov →
      right + 2 ≤ fuel + pos →
      DsuInvFrom N 0 (assignLoop N v right fuel pos parent ov cnt).1
        (assignLoop N v right fuel pos parent ov cnt).2.1 ∧
      (∀ p, (assignLoop N v right fuel pos parent ov cnt).2.1 p =
        if pos ≤ p ∧ p ≤ right ∧ ov p = none then some v else ov p) ∧
      (assignLoop N v right fuel pos parent ov cnt).2.2 =
        cntOf N (assignLoop N v right fuel pos parent ov cnt).2.1 := by
  intro fuel
  induction fuel with
  | zero =>
    intro pos parent ov cnt hinv _ _ hcnt hfuel
    refine ⟨hinv, fun p => ?_, hcnt⟩
    rw [if_neg (by rintro ⟨h1, h2, _⟩; omega)]
    rfl
  | succ fuel ih =>
    intro pos parent ov cnt hinv hfix hposN hcnt hfuel
    have hstep : assignLoop N v right (fuel + 1) pos parent ov cnt =
        if pos ≤ right then
          assignLoop N v right fuel (dsuFind (N + 1) parent (pos + 1)).1
            (Function.update (dsuFind (N + 1) parent (pos + 1)).2 pos
              (dsuFind (N + 1) parent (pos + 1)).1)
            (Function.update ov pos (some v)) (cnt + 1)
        else (parent, ov, cnt) := rfl
    by_cases hpr : pos ≤ right
    · have hposltN : pos < N := by omega
      have hfree : ov pos = none := by
        by_contra hcon
        rw [nxtFree, if_neg (by omega), if_neg hcon] at hfix
        have := nxtFree_ge ov N (pos + 1)
        omega
      have hsub : ∀ j, Function.update ov pos (some v) j = none → ov j = none := by
        intro j hj
        by_cases hjp : j = pos
        · subst hjp
          rw [Function.update_same] at hj
          exact absurd hj (by simp)
        · rwa [Function.update_noteq hjp] at hj
      have hinv2 : DsuInvFrom N (pos + 1) parent (Function.update ov pos (some v)) := by
        obtain ⟨hP1, hP2, hP3⟩ := hinv
        refine ⟨?_, ?_, ?_⟩
        · intro j hjlo hjN hjov
          have hjp : j ≠ pos := by omega
          rw [Function.update_noteq hjp] at hjov
          obtain ⟨h1, h2⟩ := hP1 j (Nat.zero_le j) hjN hjov
          exact ⟨h1, le_trans h2 (nxtFree_mono _ _ hsub N j)⟩
        · intro j hjlo hjN hjov
          have hjp : j ≠ pos := by omega
          rw [Function.update_noteq hjp] at hjov
          exact hP2 j (Nat.zero_le j) hjN hjov
        · intro j _ hjN
          exact hP3 j (Nat.zero_le j) hjN
      obtain ⟨hr1, hr2, hr3⟩ := dsuFind_spec N (pos + 1)
        (Function.update ov pos (some v)) (N + 1) parent (pos + 1)
        hinv2 (le_refl _) (by omega) (by omega)
      have hrge : pos + 1 ≤ (dsuFind (N + 1) parent (pos + 1)).1 := by
        rw [hr1]
        exact nxtFree_ge _ N (pos + 1)
      have hrle : (dsuFind (N + 1) parent (pos + 1)).1 ≤ N := by
        rw [hr1]
        exact nxtFree_le _ N (pos + 1) (by omega)
      have hinv3 : DsuInvFrom N 0
          (Function.update (dsuFind (N + 1) parent (pos + 1)).2 pos
            (dsuFind (N + 1) parent (pos + 1)).1)
          (Function.update ov pos (some v)) := by
        obtain ⟨hP1, hP2, hP3⟩ := hinv
        obtain ⟨hQ1, hQ2, hQ3⟩ := hr2
        refine ⟨?_, ?_, ?_⟩
        · intro j _ hjN hjov
          by_cases hjp : j = pos
          · subst hjp
            rw [Function.update_same]
            refine ⟨by omega, ?_⟩
            rw [show nxtFree (Function.update ov j (some v)) N j
                = nxtFree (Function.update ov j (some v)) N (j + 1) by
              rw [nxtFree, if_neg (by omega),
                if_neg (by rw [Function.update_same]; simp)]]
            rw [hr1]
          · rw [Function.update_noteq hjp]
            by_cases hjlt : j < pos
            · rw [hr3 j (by omega)]
              rw [Function.update_noteq hjp] at hjov
              obtain ⟨h1, h2⟩ := hP1 j (Nat.zero_le j) hjN hjov
              exact ⟨h1, le_trans h2 (nxtFree_mono _ _ hsub N j)⟩
            · exact hQ1 j (by omega) hjN hjov
        · intro j _ hjN hjov
          have hjp : j ≠ pos := by
            intro h
            subst h
            rw [Function.update_same] at hjov
            exact absurd hjov (by simp)
          rw [Function.update_noteq hjp]
          by_cases hjlt : j < pos
          · rw [hr3 j (by omega)]
            rw [Function.update_noteq hjp] at hjov
            exact hP2 j (Nat.zero_le j) hjN hjov
          · exact hQ2 j (by omega) hjN hjov
        · intro j _ hjN
          have hjp : j ≠ pos := by omega
          rw [Function.update_noteq hjp]
          exact hQ3 j (by omega) hjN
      have hfix2 : (dsuFind (N + 1) parent (pos + 1)).1 =
          nxtFree (Function.update ov pos (some v)) N
            (dsuFind (N + 1) parent (pos + 1)).1 := by
        rw [hr1]
        exact (nxtFree_eq_of_between _ N (pos + 1) _
          (nxtFree_ge _ N (pos + 1)) (le_refl _)).symm
      have hcnt2 : cnt + 1 = cntOf N (Function.update ov pos (some v)) := by
        rw [cntOf_update v hposltN hfree, hcnt]
      obtain ⟨hI, hC, hK⟩ := ih (dsuFind (N + 1) parent (pos + 1)).1
        (Function.update (dsuFind (N + 1) parent (pos + 1)).2 pos
          (dsuFind (N + 1) parent (pos + 1)).1)
        (Function.update ov pos (some v)) (cnt + 1)
        hinv3 hfix2 hrle hcnt2 (by omega)
      rw [hstep, if_pos hpr]
      refine ⟨hI, ?_, hK⟩
      intro p
      rw [hC p]
      by_cases hpp : p = pos
      · subst hpp
        rw [if_neg (by rw [Function.update_same]; rintro ⟨_, _, h⟩; simp at h),
          Function.update_same, if_pos ⟨le_refl _, hpr, hfree⟩]
      · rw [Function.update_noteq hpp]
        by_cases hfp : ov p = none
        · by_cases hplt : p < pos
          · rw [if_neg (by rintro ⟨h1, _, _⟩; omega),
              if_neg (by rintro ⟨h1, _, _⟩; omega)]
          · by_cases hpright : p ≤ right
            · have hge : (dsuFind (N + 1) parent (pos + 1)).1 ≤ p := by
                rw [hr1]
                by_contra hcon
                push_neg at hcon
                refine nxtFree_min (Function.update ov pos (some v)) N
                  (pos + 1) p (by omega) hcon ?_
                rw [Function.update_noteq hpp]
                exact hfp
              rw [if_pos ⟨hge, hpright, hfp⟩, if_pos ⟨by omega, hpright, hfp⟩]
            · rw [if_neg (by rintro ⟨_, h2, _⟩; omega),
                if_neg (by rintro ⟨_, h2, _⟩; omega)]
        · rw [if_neg (by rintro ⟨_, _, h3⟩; exact hfp h3),
            if_neg (by rintro ⟨_, _, h3⟩; exact hfp h3)]
    · rw [hstep, if_neg hpr]
      refine ⟨hinv, fun p => ?_, hcnt⟩
      rw [if_neg (by rintro ⟨h1, h2, _⟩; omega)]

/-! ## DSU main sweep correctness -/

theorem dsuAssignStep (times : List ℤ) (_hsorted : times.Sorted (· ≤ ·))
    (q : QPeriod) (parent : ℕ → ℕ) (ov : ℕ → Option ℚ) (assigned : ℕ)
    (processed : List IQP) (i : ℕ)
    (hinv : DsuInvFrom times.length 0 parent ov)
    (hcnt : assigned = cntOf times.length ov)
    (hOV : ∀ p, p < times.length → ov p =
      ((processed.find? fun iq =>
        decide (qContains (times.getD p 0) iq.2)).map fun iq => iq.2.value))
    (hcontains_iff : ∀ p, p < times.length →
      (qContains (times.getD p 0) q ↔
        ((bisectLeft times q.startEpoch : ℤ) ≤ (p : ℤ) ∧
          (p : ℤ) ≤ (bisectRight times q.endEpoch : ℤ) - 1)))
    (hLR : (bisectLeft times q.startEpoch : ℤ) ≤
      (bisectRight times q.endEpoch : ℤ) - 1) :
    DsuInvFrom times.length 0
      (assignLoop times.length q.value
        ((bisectRight times q.endEpoch : ℤ) - 1).toNat (times.length + 1)
        (dsuFind (times.length + 1) parent
          (bisectLeft times q.startEpoch : ℤ).toNat).1
        (dsuFind (times.length + 1) parent
          (bisectLeft times q.startEpoch : ℤ).toNat).2
        ov assigned).1
      (assignLoop times.length q.value
        ((bisectRight times q.endEpoch : ℤ) - 1).toNat (times.length + 1)
        (dsuFind (times.length + 1) parent
          (bisectLeft times q.startEpoch : ℤ).toNat).1
        (dsuFind (times.length + 1) parent
          (bisectLeft times q.startEpoch : ℤ).toNat).2
        ov assigned).2.1 ∧
    (assignLoop times.length q.value
        ((bisectRight times q.endEpoch : ℤ) - 1).toNat (times.length + 1)
        (dsuFind (times.length + 1) parent
          (bisectLeft times q.startEpoch : ℤ).toNat).1
        (dsuFind (times.length + 1) parent
          (bisectLeft times q.startEpoch : ℤ).toNat).2
        ov assigned).2.2 =
      cntOf times.length
        (assignLoop times.length q.value
          ((bisectRight times q.endEpoch : ℤ) - 1).toNat (times.length + 1)
          (dsuFind (times.length + 1) parent
            (bisectLeft times q.startEpoch : ℤ).toNat).1
          (dsuFind (times.length + 1) parent
            (bisectLeft times q.startEpoch : ℤ).toNat).2
          ov assigned).2.1 ∧
    (∀ p, p < times.length →
      (assignLoop times.length q.value
          ((bisectRight times q.endEpoch : ℤ) - 1).toNat (times.length + 1)
          (dsuFind (times.length + 1) parent
            (bisectLeft times q.startEpoch : ℤ).toNat).1
          (dsuFind (times.length + 1) parent
            (bisectLeft times q.startEpoch : ℤ).toNat).2
          ov assigned).2.1 p =
        (((processed ++ [(i, q)]).find? fun iq =>
          decide (qContains (times.getD p 0) iq.2)).map fun iq => iq.2.value)) := by
  have hL0 : (0 : ℤ) ≤ (bisectLeft times q.startEpoch : ℤ) := by positivity
  have hLlen : bisectLeft times q.startEpoch ≤ times.length :=
    bisectLeft_le_length times q.startEpoch
  have hRlen : bisectRight times q.endEpoch ≤ times.length :=
    bisectRight_le_length times q.endEpoch
  have hLtoNat : (bisectLeft times q.startEpoch : ℤ).toNat =
      bisectLeft times q.startEpoch := Int.toNat_natCast _
  have hRpos : 1 ≤ bisectRight times q.endEpoch := by omega
  have hRtoNat : (((bisectRight times q.endEpoch : ℤ) - 1).toNat : ℤ) =
      (bisectRight times q.endEpoch : ℤ) - 1 := by omega
  have hRzN : ((bisectRight times q.endEpoch : ℤ) - 1).toNat < times.length := by
    omega
  have hLN : (bisectLeft times q.startEpoch : ℤ).toNat ≤ times.length := by
    omega
  obtain ⟨hr1, hr2, _⟩ := dsuFind_spec times.length 0 ov (times.length + 1)
    parent (bisectLeft times q.startEpoch : ℤ).toNat hinv (Nat.zero_le _) hLN
    (by omega)
  have hfix : (dsuFind (times.length + 1) parent
      (bisectLeft times q.startEpoch : ℤ).toNat).1 =
      nxtFree ov times.length
        (dsuFind (times.length + 1) parent
          (bisectLeft times q.startEpoch : ℤ).toNat).1 := by
    rw [hr1]
    exact (nxtFree_eq_of_between ov times.length _ _
      (nxtFree_ge ov times.length _) (le_refl _)).symm
  have hposN : (dsuFind (times.length + 1) parent
      (bisectLeft times q.startEpoch : ℤ).toNat).1 ≤ times.length := by
    rw [hr1]
    exact nxtFree_le ov times.length _ hLN
  obtain ⟨hI, hC, hK⟩ := assignLoop_spec times.length q.value
    ((bisectRight times q.endEpoch : ℤ) - 1).toNat hRzN (times.length + 1)
    (dsuFind (times.length + 1) parent
      (bisectLeft times q.startEpoch : ℤ).toNat).1
    (dsuFind (times.length + 1) parent
      (bisectLeft times q.startEpoch : ℤ).toNat).2
    ov assigned hr2 hfix hposN hcnt (by omega)
  refine ⟨hI, hK, ?_⟩
  intro p hp
  rw [hC p]
  cases hov : ov p with
  | some w =>
    rw [if_neg (by rintro ⟨_, _, h3⟩; exact Option.some_ne_none w h3)]
    have hOVp := hOV p hp
    rw [hov] at hOVp
    cases hfp : processed.find? fun iq =>
        decide (qContains (times.getD p 0) iq.2) with
    | none => rw [hfp] at hOVp; simp at hOVp
    | some u =>
      rw [find?_append_some _ hfp]
      rw [hfp] at hOVp
      exact hOVp
  | none =>
    have hOVp := hOV p hp
    rw [hov] at hOVp
    have hfp : processed.find? (fun iq =>
        decide (qContains (times.getD p 0) iq.2)) = none := by
      cases hfp2 : processed.find? fun iq =>
          decide (qContains (times.getD p 0) iq.2) with
      | none => rfl
      | some u => rw [hfp2] at hOVp; simp at hOVp
    rw [find?_append_none _ hfp]
    by_cases hcont : qContains (times.getD p 0) q
    · have hLle : (bisectLeft times q.startEpoch : ℤ).toNat ≤ p := by
        have := (hcontains_iff p hp).mp hcont
        omega
      have hple : p ≤ ((bisectRight times q.endEpoch : ℤ) - 1).toNat := by
        have := (hcontains_iff p hp).mp hcont
        omega
      have hfrle : (dsuFind (times.length + 1) parent
          (bisectLeft times q.startEpoch : ℤ).toNat).1 ≤ p := by
        rw [hr1]
        by_contra hcon
        push_neg at hcon
        exact nxtFree_min ov times.length _ p hLle hcon hov
      rw [List.find?_cons_of_pos _ (by simpa using hcont),
        if_pos ⟨hfrle, hple, rfl⟩]
      rfl
    · have hnegcond : ¬ ((dsuFind (times.length + 1) parent
          (bisectLeft times q.startEpoch : ℤ).toNat).1 ≤ p ∧
          p ≤ ((bisectRight times q.endEpoch : ℤ) - 1).toNat ∧
          (none : Option ℚ) = none) := by
        rintro ⟨h1, h2, _⟩
        have hge : (bisectLeft times q.startEpoch : ℤ).toNat ≤ p := by
          have h1b := hr1 ▸ h1
          have hnge := nxtFree_ge ov times.length
            (bisectLeft times q.startEpoch : ℤ).toNat
          omega
        refine hcont ((hcontains_iff p hp).mpr ?_)
        omega
      rw [List.find?_cons_of_neg _ (by simpa using hcont), if_neg hnegcond]
      rfl

theorem dsuProcess_spec (times : List ℤ) (hsorted : times.Sorted (· ≤ ·)) :
    ∀ (qlist : List IQP) (st : DsuState) (processed : List IQP),
      DsuInvFrom times.length 0 st.parent st.ov →
      st.assigned = cntOf times.length st.ov →
      (∀ c ∈ st.cache, c.2 = ((bisectLeft times c.1.1 : ℤ),
        (bisectRight times c.1.2 : ℤ) - 1)) →
      (∀ p, p < times.length → st.ov p =
        ((processed.find? fun iq =>
          decide (qContains (times.getD p 0) iq.2)).map fun iq => iq.2.value)) →
      ∀ p, p < times.length →
        (dsuProcess times times.length qlist st).ov p =
          (((processed ++ qlist).find? fun iq =>
            decide (qContains (times.getD p 0) iq.2)).map fun iq => iq.2.value) := by
  intro qlist
  induction qlist with
  | nil =>
    intro st processed _ _ _ hOV p hp
    rw [List.append_nil]
    exact hOV p hp
  | cons hd rest ih =>
    obtain ⟨i, q⟩ := hd
    intro st processed hinv hcnt hcache hOV
    have hcontains_iff : ∀ p, p < times.length →
        (qContains (times.getD p 0) q ↔
          ((bisectLeft times q.startEpoch : ℤ) ≤ (p : ℤ) ∧
            (p : ℤ) ≤ (bisectRight times q.endEpoch : ℤ) - 1)) := by
      intro p hp
      unfold qContains
      constructor
      · rintro ⟨h1, h2⟩
        constructor
        · have : ¬ (p < bisectLeft times q.startEpoch) := by
            rw [lt_bisectLeft_iff hsorted hp]
            omega
          omega
        · have : p < bisectRight times q.endEpoch := by
            rw [lt_bisectRight_iff hsorted hp]
            exact h2
          omega
      · rintro ⟨h1, h2⟩
        constructor
        · have h3 : ¬ (p < bisectLeft times q.startEpoch) := by omega
          rw [lt_bisectLeft_iff hsorted hp] at h3
          omega
        · have h3 : p < bisectRight times q.endEpoch := by omega
          rw [lt_bisectRight_iff hsorted hp] at h3
          exact h3
    have hOVmid : ∀ (cache2 : List ((ℤ × ℤ) × (ℤ × ℤ))),
        ((bisectRight times q.endEpoch : ℤ) - 1 <
          (bisectLeft times q.startEpoch : ℤ)) →
        (∀ p2, p2 < times.length → st.ov p2 =
          (((processed ++ [(i, q)]).find? fun iq =>
            decide (qContains (times.getD p2 0) iq.2)).map fun iq => iq.2.value)) := by
      intro _ hRL p2 hp2
      cases hfp : processed.find? fun iq =>
          decide (qContains (times.getD p2 0) iq.2) with
      | some w =>
        rw [find?_append_some _ hfp, hOV p2 hp2, hfp]
      | none =>
        rw [find?_append_none _ hfp, hOV p2 hp2, hfp,
          List.find?_cons_of_neg _ (by
            simp only [decide_eq_true_eq]
            rw [hcontains_iff p2 hp2]
            omega)]
        rfl
    have happrw : (processed ++ [(i, q)]) ++ rest = processed ++ (i, q) :: rest := by
      simp
    by_cases hbreak : times.length ≤ st.assigned
    · intro p hp
      have hstep : dsuProcess times times.length ((i, q) :: rest) st = st := by
        rw [dsuProcess, if_pos hbreak]
      rw [hstep]
      have hfull := cntOf_full (hcnt ▸ hbreak) p hp
      rw [hOV p hp] at hfull ⊢
      cases hfp : processed.find? fun iq =>
          decide (qContains (times.getD p 0) iq.2) with
      | none => rw [hfp] at hfull; simp at hfull
      | some w =>
        rw [find?_append_some _ hfp]
    · intro p hp
      rw [← happrw]
      cases hfind : st.cache.find? fun e =>
          decide (e.1 = (q.startEpoch, q.endEpoch)) with
      | some e =>
        have he21 : e.2.1 = (bisectLeft times q.startEpoch : ℤ) := by
          have hmem := List.mem_of_find?_eq_some hfind
          have hkey : e.1 = (q.startEpoch, q.endEpoch) := by
            have := List.find?_some hfind
            simpa using this
          rw [hcache e hmem, hkey]
        have he22 : e.2.2 = (bisectRight times q.endEpoch : ℤ) - 1 := by
          have hmem := List.mem_of_find?_eq_some hfind
          have hkey : e.1 = (q.startEpoch, q.endEpoch) := by
            have := List.find?_some hfind
            simpa using this
          rw [hcache e hmem, hkey]
        simp only [dsuProcess, if_neg hbreak, hfind, he21, he22]
        by_cases hRL : (bisectRight times q.endEpoch : ℤ) - 1 <
            (bisectLeft times q.startEpoch : ℤ)
        · rw [if_pos hRL]
          exact ih ⟨st.parent, st.ov, st.assigned, st.cache⟩ (processed ++ [(i, q)])
            hinv hcnt hcache (hOVmid st.cache hRL) p hp
        · rw [if_neg hRL]
          obtain ⟨hI, hK, hO⟩ := dsuAssignStep times hsorted q st.parent st.ov
            st.assigned processed i hinv hcnt hOV hcontains_iff (not_lt.mp hRL)
          refine ih _ (processed ++ [(i, q)]) ?_ ?_ ?_ ?_ p hp
          · exact hI
          · exact hK
          · exact hcache
          · exact hO
      | none =>
        have hcache2 : ∀ c ∈ (((q.startEpoch, q.endEpoch),
            ((bisectLeft times q.startEpoch : ℤ),
              (bisectRight times q.endEpoch : ℤ) - 1)) :: st.cache),
            c.2 = ((bisectLeft times c.1.1 : ℤ),
              (bisectRight times c.1.2 : ℤ) - 1) := by
          intro c hc
          rcases List.mem_cons.mp hc with rfl | hc2
          · rfl
          · exact hcache c hc2
        simp only [dsuProcess, if_neg hbreak, hfind]
        by_cases hRL : (bisectRight times q.endEpoch : ℤ) - 1 <
            (bisectLeft times q.startEpoch : ℤ)
        · rw [if_pos hRL]
          refine ih _ (processed ++ [(i, q)]) ?_ ?_ ?_ ?_ p hp
          · exact hinv
          · exact hcnt
          · exact hcache2
          · exact hOVmid st.cache hRL
        · rw [if_neg hRL]
          obtain ⟨hI, hK, hO⟩ := dsuAssignStep times hsorted q st.parent st.ov
            st.assigned processed i hinv hcnt hOV hcontains_iff (not_lt.mp hRL)
          refine ih _ (processed ++ [(i, q)]) ?_ ?_ ?_ ?_ p hp
          · exact hI
          · exact hK
          · exact hcache2
          · exact hO

/-- On the priority-sorted enumerated Q list, the first interval containing
`t` is exactly the declarative winner. -/
theorem find?_prio_eq_qWinner (qs : List QPeriod) (t : ℤ) :
    ((sortByKey (fun iq : IQP => (toLex (-iq.2.startEpoch, iq.1) : ℤ ×ₗ ℕ))
      qs.enum).find? fun iq => decide (qContains t iq.2)) = qWinner t qs.enum := by
  cases hf : (sortByKey (fun iq : IQP => (toLex (-iq.2.startEpoch, iq.1) : ℤ ×ₗ ℕ))
      qs.enum).find? fun iq => decide (qContains t iq.2) with
  | none =>
    rw [List.find?_eq_none] at hf
    symm
    rw [qWinner_eq_none_iff]
    intro iq hiq hc
    exact hf iq (mem_sortByKey.mpr hiq) (decide_eq_true hc)
  | some m =>
    have hmS := List.mem_of_find?_eq_some hf
    have hmE : m ∈ qs.enum := mem_sortByKey.mp hmS
    have hpred := List.find?_some hf
    have hcm : qContains t m.2 := of_decide_eq_true hpred
    obtain ⟨l1, l2, hsplit, hl1⟩ := find?_split hf
    have hsorted := sortByKey_sorted
      (fun iq : IQP => (toLex (-iq.2.startEpoch, iq.1) : ℤ ×ₗ ℕ)) qs.enum
    rw [hsplit] at hsorted
    have hmin : ∀ iq ∈ qs.enum, qContains t iq.2 → qPrio m ≤ qPrio iq := by
      intro iq hiq hc
      have hiqS : iq ∈ l1 ++ m :: l2 := by
        rw [← hsplit]
        exact mem_sortByKey.mpr hiq
      rcases List.mem_append.mp hiqS with h1 | h2
      · exact absurd (decide_eq_true hc) (by simpa using hl1 iq h1)
      · rcases List.mem_cons.mp h2 with rfl | h3
        · exact le_refl _
        · exact List.rel_of_sorted_cons (List.pairwise_append.mp hsorted).2.1 _ h3
    symm
    exact qWinner_eq_some_of (fun a ha b hb => qPrio_inj ha hb) hmE hcm hmin

theorem dsu_eq_oracle (times : List ℤ) (qs : List QPeriod)
    (h : times.Sorted (· ≤ ·)) :
    q_overrides_dsu times qs = qOracle times qs := by
  unfold q_overrides_dsu qOracle
  by_cases hc : times.length = 0 ∨ qs.isEmpty
  · rw [if_pos hc]
    rcases hc with hc | hc
    · rw [List.length_eq_zero.mp hc]
      rfl
    · rw [List.isEmpty_iff.mp hc]
      calc List.replicate times.length none
          = times.map fun _ => (none : Option ℚ) := (List.map_const' times none).symm
        _ = _ := by
            apply List.map_congr_left
            intro t _
            rfl
  · rw [if_neg hc]
    push_neg at hc
    have hinv0 : DsuInvFrom times.length 0 id (fun _ => none) := by
      refine ⟨?_, ?_, ?_⟩
      · intro i _ _ hov
        exact absurd rfl hov
      · intro i _ _ _
        rfl
      · intro i _ _
        rfl
    have hcnt0 : 0 = cntOf times.length (fun _ => none) := by
      unfold cntOf
      rw [List.filter_eq_nil_iff.mpr (by intro a _; simp)]
      rfl
    have hmain := dsuProcess_spec times h
      (sortByKey (fun iq : IQP => (toLex (-iq.2.startEpoch, iq.1) : ℤ ×ₗ ℕ))
        qs.enum)
      ⟨id, fun _ => none, 0, []⟩ [] hinv0 hcnt0 (by intro c hc2; simp at hc2)
      (by intro p _; rfl)
    apply List.ext_getElem (by simp)
    intro p hp1 hp2
    have hplen : p < times.length := by simpa using hp2
    rw [List.getElem_map, List.getElem_map, List.getElem_range p (by simpa using hp1)]
    have := hmain p hplen
    rw [List.nil_append] at this
    rw [this, find?_prio_eq_qWinner, List.getD_eq_getElem times 0 hplen]

/-- C1: for every ascending (non-decreasing) list of transaction epochs and
every list of Q-intervals, the heap strategy and the DSU strategy return
equal override vectors, so the runtime strategy selection never affects the
engine's output. -/
theorem C1_heap_eq_dsu (times : List ℤ) (qs : List QPeriod)
    (h : times.Sorted (· ≤ ·)) :
    q_overrides_heap times qs = q_overrides_dsu times qs :=
  (heap_eq_oracle times qs h).trans (dsu_eq_oracle times qs h).symm

/-- C1 witness: the two strategies agree on a concrete five-transaction,
four-interval instance (with overlapping intervals and a tie in
`start_epoch` broken by index). -/
theorem C1_witness :
    ([(-5 : ℤ), 0, 20, 55, 90].Sorted (· ≤ ·)) ∧
    q_overrides_heap [(-5 : ℤ), 0, 20, 55, 90]
        [⟨0, 100, 10⟩, ⟨50, 80, 40⟩, ⟨50, 60, 7⟩, ⟨90, 95, 3⟩] =
      q_overrides_dsu [(-5 : ℤ), 0, 20, 55, 90]
        [⟨0, 100, 10⟩, ⟨50, 80, 40⟩, ⟨50, 60, 7⟩, ⟨90, 95, 3⟩] ∧
    q_overrides_heap [(-5 : ℤ), 0, 20, 55, 90]
        [⟨0, 100, 10⟩, ⟨50, 80, 40⟩, ⟨50, 60, 7⟩, ⟨90, 95, 3⟩] =
      [none, some 10, some 10, some 40, some 3] :=
  ⟨by decide, C1_heap_eq_dsu _ _ (by decide), by decide⟩

/-! ## P-extra sweep correctness -/

theorem sweepAdd_spec (t : ℤ) :
    ∀ (l : List (ℤ × ℚ)) (run : ℚ),
      l.Sorted (keyLE fun ev : ℤ × ℚ => (toLex ev : ℤ ×ₗ ℚ)) →
      ∃ pre, l = pre ++ (sweepAdd t l run).1 ∧
        (∀ e ∈ pre, e.1 ≤ t) ∧
        (∀ e ∈ (sweepAdd t l run).1, t < e.1) ∧
        (sweepAdd t l run).2 = run + (pre.map Prod.snd).sum := by
  intro l
  induction l with
  | nil =>
    intro run _
    exact ⟨[], rfl, by simp, by simp [sweepAdd], by simp [sweepAdd]⟩
  | cons e rest ih =>
    obtain ⟨k, v⟩ := e
    intro run hsorted
    by_cases hk : k ≤ t
    · have hres : sweepAdd t ((k, v) :: rest) run = sweepAdd t rest (run + v) := by
        simp [sweepAdd, hk]
      obtain ⟨pre, hsplit, hle, hgt, hsum⟩ := ih (run + v) hsorted.of_cons
      refine ⟨(k, v) :: pre, ?_, ?_, ?_, ?_⟩
      · rw [hres, List.cons_append]
        exact congrArg (List.cons _) hsplit
      · intro e he
        rcases List.mem_cons.mp he with rfl | h2
        · exact hk
        · exact hle e h2
      · rw [hres]; exact hgt
      · rw [hres, hsum, List.map_cons, List.sum_cons]
        ring
    · have hres : sweepAdd t ((k, v) :: rest) run = ((k, v) :: rest, run) := by
        simp [sweepAdd, hk]
      refine ⟨[], by simp [hres], by simp, ?_, by simp [hres]⟩
      rw [hres]
      intro e he
      rcases List.mem_cons.mp he with rfl | h2
      · exact not_le.mp hk
      · have hrel := List.rel_of_sorted_cons hsorted e h2
        have hfst : k ≤ e.1 := Prod.Lex.monotone_fst _ _ hrel
        omega

theorem sweepSub_spec (t : ℤ) :
    ∀ (l : List (ℤ × ℚ)) (run : ℚ),
      l.Sorted (keyLE fun ev : ℤ × ℚ => (toLex ev : ℤ ×ₗ ℚ)) →
      ∃ pre, l = pre ++ (sweepSub t l run).1 ∧
        (∀ e ∈ pre, e.1 ≤ t) ∧
        (∀ e ∈ (sweepSub t l run).1, t < e.1) ∧
        (sweepSub t l run).2 = run - (pre.map Prod.snd).sum := by
  intro l
  induction l with
  | nil =>
    intro run _
    exact ⟨[], rfl, by simp, by simp [sweepSub], by simp [sweepSub]⟩
  | cons e rest ih =>
    obtain ⟨k, v⟩ := e
    intro run hsorted
    by_cases hk : k ≤ t
    · have hres : sweepSub t ((k, v) :: rest) run = sweepSub t rest (run - v) := by
        simp [sweepSub, hk]
      obtain ⟨pre, hsplit, hle, hgt, hsum⟩ := ih (run - v) hsorted.of_cons
      refine ⟨(k, v) :: pre, ?_, ?_, ?_, ?_⟩
      · rw [hres, List.cons_append]
        exact congrArg (List.cons _) hsplit
      · intro e he
        rcases List.mem_cons.mp he with rfl | h2
        · exact hk
        · exact hle e h2
      · rw [hres]; exact hgt
      · rw [hres, hsum, List.map_cons, List.sum_cons]
        ring
    · have hres : sweepSub t ((k, v) :: rest) run = ((k, v) :: rest, run) := by
        simp [sweepSub, hk]
      refine ⟨[], by simp [hres], by simp, ?_, by simp [hres]⟩
      rw [hres]
      intro e he
      rcases List.mem_cons.mp he with rfl | h2
      · exact not_le.mp hk
      · have hrel := List.rel_of_sorted_cons hsorted e h2
        have hfst : k ≤ e.1 := Prod.Lex.monotone_fst _ _ hrel
        omega

theorem sum_prefix_filter {t : ℤ} {l pre rem : List (ℤ × ℚ)}
    (h : l = pre ++ rem) (hpre : ∀ e ∈ pre, e.1 ≤ t)
    (hrem : ∀ e ∈ rem, t < e.1) :
    (pre.map Prod.snd).sum =
      ((l.filter fun e => decide (e.1 ≤ t)).map Prod.snd).sum := by
  subst h
  rw [List.filter_append,
    List.filter_eq_self.mpr (fun e he => decide_eq_true (hpre e he)),
    List.filter_eq_nil_iff.mpr (fun e he => by simpa using not_le.mpr (hrem e he))]
  simp

theorem pExtra_cons (t : ℤ) (p : PPeriod) (rest : List PPeriod) :
    pExtra t (p :: rest) =
      (if pContains t p then p.value else 0) + pExtra t rest := by
  unfold pExtra
  rw [List.filter_cons]
  by_cases h : pContains t p
  · rw [if_pos (decide_eq_true h), if_pos h, List.map_cons, List.sum_cons]
  · rw [if_neg (by simpa using h), if_neg h, zero_add]

theorem pExtra_eq_event_sums (t : ℤ) :
    ∀ (ps : List PPeriod), (∀ p ∈ ps, p.startEpoch ≤ p.endEpoch) →
      (((ps.map fun p => (p.startEpoch, p.value)).filter
          fun e => decide (e.1 ≤ t)).map Prod.snd).sum -
        (((ps.map fun p => (p.endEpoch + 1, p.value)).filter
          fun e => decide (e.1 ≤ t)).map Prod.snd).sum
        = pExtra t ps := by
  intro ps
  induction ps with
  | nil => intro _; simp [pExtra]
  | cons p rest ih =>
    intro hps
    have hse := hps p (List.mem_cons_self _ _)
    have ih2 := ih fun p2 h2 => hps p2 (List.mem_cons_of_mem _ h2)
    rw [List.map_cons, List.map_cons, List.filter_cons, List.filter_cons,
      pExtra_cons]
    by_cases h1 : p.startEpoch ≤ t
    · by_cases h2 : p.endEpoch + 1 ≤ t
      · have hcont : ¬ pContains t p := by unfold pContains; omega
        rw [if_pos (by simpa using h1), if_pos (by simpa using h2),
          List.map_cons, List.sum_cons, List.map_cons, List.sum_cons,
          if_neg hcont]
        rw [← ih2]
        ring
      · have hcont : pContains t p := by unfold pContains; omega
        rw [if_pos (by simpa using h1), if_neg (by simpa using h2),
          List.map_cons, List.sum_cons, if_pos hcont]
        rw [← ih2]
        ring
    · have h2 : ¬ (p.endEpoch + 1 ≤ t) := by omega
      have hcont : ¬ pContains t p := by unfold pContains; omega
      rw [if_neg (by simpa using h1), if_neg (by simpa using h2), if_neg hcont]
      rw [← ih2]
      ring

theorem adjLoop_length :
    ∀ (triples : List (ℤ × Option ℚ × ℚ)) (starts ends : List (ℤ × ℚ)) (run : ℚ),
      (adjLoop triples starts ends run).length = triples.length := by
  intro triples
  induction triples with
  | nil => intro starts ends run; rfl
  | cons tr rest ih =>
    obtain ⟨t, ov, rem⟩ := tr
    intro starts ends run
    unfold adjLoop
    rw [List.length_cons, List.length_cons, ih]

theorem adjLoop_eq (ps : List PPeriod)
    (hps : ∀ p ∈ ps, p.startEpoch ≤ p.endEpoch) :
    ∀ (triples : List (ℤ × Option ℚ × ℚ)) (t0 : ℤ)
      (starts ends preS preE : List (ℤ × ℚ)) (run : ℚ),
      pStartEvents ps = preS ++ starts →
      pEndEvents ps = preE ++ ends →
      (∀ e ∈ preS, e.1 ≤ t0) →
      (∀ e ∈ preE, e.1 ≤ t0) →
      run = (preS.map Prod.snd).sum - (preE.map Prod.snd).sum →
      (triples.map fun tr => tr.1).Sorted (· ≤ ·) →
      (∀ tr ∈ triples, t0 ≤ tr.1) →
      adjLoop triples starts ends run =
        triples.map fun tr => money (tr.2.1.getD tr.2.2 + pExtra tr.1 ps) := by
  intro triples
  induction triples with
  | nil => intros; rfl
  | cons tr rest ih =>
    obtain ⟨t, ov, rem⟩ := tr
    intro t0 starts ends preS preE run hS hE hpreS hpreE hrun hsorted hlb
    have hSsorted := sortByKey_sorted
      (fun ev : ℤ × ℚ => (toLex ev : ℤ ×ₗ ℚ)) (ps.map fun p => (p.startEpoch, p.value))
    have hEsorted := sortByKey_sorted
      (fun ev : ℤ × ℚ => (toLex ev : ℤ ×ₗ ℚ)) (ps.map fun p => (p.endEpoch + 1, p.value))
    rw [show sortByKey (fun ev : ℤ × ℚ => (toLex ev : ℤ ×ₗ ℚ))
        (ps.map fun p => (p.startEpoch, p.value)) = pStartEvents ps from rfl, hS]
      at hSsorted
    rw [show sortByKey (fun ev : ℤ × ℚ => (toLex ev : ℤ ×ₗ ℚ))
        (ps.map fun p => (p.endEpoch + 1, p.value)) = pEndEvents ps from rfl, hE]
      at hEsorted
    have hstartsSorted := (List.pairwise_append.mp hSsorted).2.1
    have hendsSorted := (List.pairwise_append.mp hEsorted).2.1
    have ht0t : t0 ≤ t := hlb (t, ov, rem) (List.mem_cons_self _ _)
    obtain ⟨newS, hsplitS, hleS, hgtS, hsumS⟩ := sweepAdd_spec t starts run hstartsSorted
    obtain ⟨newE, hsplitE, hleE, hgtE, hsumE⟩ :=
      sweepSub_spec t ends (sweepAdd t starts run).2 hendsSorted
    have hS2 : pStartEvents ps = (preS ++ newS) ++ (sweepAdd t starts run).1 :=
      hS.trans ((congrArg (preS ++ ·) hsplitS).trans (List.append_assoc _ _ _).symm)
    have hE2 : pEndEvents ps = (preE ++ newE) ++ (sweepSub t ends _).1 :=
      hE.trans ((congrArg (preE ++ ·) hsplitE).trans (List.append_assoc _ _ _).symm)
    have hpreS2 : ∀ e ∈ preS ++ newS, e.1 ≤ t := by
      intro e he
      rcases List.mem_append.mp he with h | h
      · exact le_trans (hpreS e h) ht0t
      · exact hleS e h
    have hpreE2 : ∀ e ∈ preE ++ newE, e.1 ≤ t := by
      intro e he
      rcases List.mem_append.mp he with h | h
      · exact le_trans (hpreE e h) ht0t
      · exact hleE e h
    have hrun2 : (sweepSub t ends (sweepAdd t starts run).2).2 =
        ((preS ++ newS).map Prod.snd).sum - ((preE ++ newE).map Prod.snd).sum := by
      rw [hsumE, hsumS, hrun, List.map_append, List.map_append,
        List.sum_append, List.sum_append]
      ring
    have hrunval : (sweepSub t ends (sweepAdd t starts run).2).2 = pExtra t ps := by
      rw [hrun2, sum_prefix_filter hS2 hpreS2 hgtS, sum_prefix_filter hE2 hpreE2 hgtE]
      have hpermS : List.Perm (pStartEvents ps) (ps.map fun p => (p.startEpoch, p.value)) :=
        sortByKey_perm _ _
      have hpermE : List.Perm (pEndEvents ps) (ps.map fun p => (p.endEpoch + 1, p.value)) :=
        sortByKey_perm _ _
      rw [((hpermS.filter _).map Prod.snd).sum_eq, ((hpermE.filter _).map Prod.snd).sum_eq]
      exact pExtra_eq_event_sums t ps hps
    have hstep : adjLoop ((t, ov, rem) :: rest) starts ends run =
        money (ov.getD rem + (sweepSub t ends (sweepAdd t starts run).2).2) ::
          adjLoop rest (sweepAdd t starts run).1 (sweepSub t ends _).1
            (sweepSub t ends _).2 := rfl
    rw [hstep, List.map_cons, hrunval]
    congr 1
    exact ih t (sweepAdd t starts run).1 (sweepSub t ends _).1 (preS ++ newS)
      (preE ++ newE) (pExtra t ps) hS2 hE2 hpreS2 hpreE2
      (hrunval.symm.trans hrun2)
      (by rw [List.map_cons] at hsorted; exact hsorted.of_cons)
      (by
        intro tr htr
        rw [List.map_cons] at hsorted
        exact List.rel_of_sorted_cons hsorted tr.1 (List.mem_map_of_mem _ htr))

theorem adjLoop_eq_top (ps : List PPeriod)
    (hps : ∀ p ∈ ps, p.startEpoch ≤ p.endEpoch)
    (triples : List (ℤ × Option ℚ × ℚ))
    (hsorted : (triples.map fun tr => tr.1).Sorted (· ≤ ·)) :
    adjLoop triples (pStartEvents ps) (pEndEvents ps) 0 =
      triples.map fun tr => money (tr.2.1.getD tr.2.2 + pExtra tr.1 ps) := by
  cases triples with
  | nil => rfl
  | cons tr rest =>
    refine adjLoop_eq ps hps (tr :: rest) tr.1 _ _ [] [] 0 rfl rfl (by simp)
      (by simp) (by simp) hsorted ?_
    intro tr2 htr2
    rcases List.mem_cons.mp htr2 with rfl | h2
    · exact le_refl _
    · rw [List.map_cons] at hsorted
      exact List.rel_of_sorted_cons hsorted tr2.1 (List.mem_map_of_mem _ h2)

/-! ## Canonical sort-order lemmas -/

theorem canonicalOrder_perm (txs : List Txn) :
    List.Perm (canonicalOrder txs) (List.range txs.length) :=
  sortByKey_perm _ _

theorem canonicalOrder_length (txs : List Txn) :
    (canonicalOrder txs).length = txs.length :=
  (canonicalOrder_perm txs).length_eq.trans (List.length_range _)

theorem canonicalOrder_nodup (txs : List Txn) : (canonicalOrder txs).Nodup :=
  ((canonicalOrder_perm txs).nodup_iff).mpr (List.nodup_range _)

theorem canonicalOrder_mem {txs : List Txn} {j : ℕ} :
    j ∈ canonicalOrder txs ↔ j < txs.length :=
  ((canonicalOrder_perm txs).mem_iff).trans List.mem_range

theorem orderedTimes_sorted (txs : List Txn) :
    (orderedTimesOf txs (canonicalOrder txs)).Sorted (· ≤ ·) := by
  unfold orderedTimesOf canonicalOrder
  refine List.Pairwise.map _ ?_ (sortByKey_sorted _ _)
  intro a b hab
  exact Prod.Lex.monotone_fst _ _ hab

/-! ## Fold-of-updates lemmas -/

theorem foldl_update_not_mem :
    ∀ {pairs : List (ℕ × ℚ)} {j : ℕ}, j ∉ pairs.map Prod.fst →
      ∀ (f : ℕ → Option ℚ),
        (pairs.foldl (fun (f : ℕ → Option ℚ) pr => Function.update f pr.1 (some pr.2)) f) j = f j := by
  intro pairs
  induction pairs with
  | nil => intro j _ f; rfl
  | cons pr rest ih =>
    intro j hj f
    rw [List.map_cons] at hj
    have hj1 : j ≠ pr.1 := fun h => hj (h ▸ List.mem_cons_self _ _)
    have hj2 : j ∉ rest.map Prod.fst := fun h => hj (List.mem_cons_of_mem _ h)
    rw [List.foldl_cons, ih hj2, Function.update_noteq hj1]

theorem foldl_update_mem :
    ∀ {pairs : List (ℕ × ℚ)}, (pairs.map Prod.fst).Nodup →
      ∀ {j : ℕ} {a : ℚ}, (j, a) ∈ pairs →
      ∀ (f : ℕ → Option ℚ),
        (pairs.foldl (fun (f : ℕ → Option ℚ) pr => Function.update f pr.1 (some pr.2)) f) j = some a := by
  intro pairs
  induction pairs with
  | nil => intro _ j a hmem; exact absurd hmem (List.not_mem_nil _)
  | cons pr rest ih =>
    intro hnd j a hmem f
    rw [List.map_cons, List.nodup_cons] at hnd
    rcases List.mem_cons.mp hmem with rfl | h2
    · rw [List.foldl_cons,
        foldl_update_not_mem (by simpa using hnd.1) _, Function.update_same]
    · rw [List.foldl_cons]
      exact ih hnd.2 h2 _

/-! ## `_apply_temporal_rules` characterization -/

theorem overridesOf_eq_oracle (useDsu : List ℤ → List QPeriod → Bool)
    {times : List ℤ} (qs : List QPeriod) (h : times.Sorted (· ≤ ·)) :
    overridesOf useDsu times qs = qOracle times qs := by
  unfold overridesOf
  by_cases h2 : useDsu times qs
  · rw [if_pos h2]; exact dsu_eq_oracle times qs h
  · rw [if_neg h2]; exact heap_eq_oracle times qs h

theorem assignOf_eq (useDsu : List ℤ → List QPeriod → Bool)
    (txs : List Txn) (qs : List QPeriod) (ps : List PPeriod)
    (hps : ∀ p ∈ ps, p.startEpoch ≤ p.endEpoch) :
    ∀ j, j < txs.length →
      assignOf useDsu txs qs ps (canonicalOrder txs) j =
        some (money ((((qWinner (txs.getD j default).epoch qs.enum).map
            fun iq => iq.2.value).getD (txs.getD j default).remanent) +
          pExtra (txs.getD j default).epoch ps)) := by
  intro j hj
  have hidxn : (canonicalOrder txs).length = txs.length := canonicalOrder_length txs
  have hTn : (orderedTimesOf txs (canonicalOrder txs)).length = txs.length := by
    unfold orderedTimesOf
    rw [List.length_map, hidxn]
  have hRn : (orderedRemsOf txs (canonicalOrder txs)).length = txs.length := by
    unfold orderedRemsOf
    rw [List.length_map, hidxn]
  have hO : overridesOf useDsu (orderedTimesOf txs (canonicalOrder txs)) qs =
      qOracle (orderedTimesOf txs (canonicalOrder txs)) qs :=
    overridesOf_eq_oracle useDsu qs (orderedTimes_sorted txs)
  have hOn : (overridesOf useDsu (orderedTimesOf txs (canonicalOrder txs)) qs).length
      = txs.length := by
    rw [hO]
    unfold qOracle
    rw [List.length_map, hTn]
  have hinzip : ((overridesOf useDsu (orderedTimesOf txs (canonicalOrder txs)) qs).zip
      (orderedRemsOf txs (canonicalOrder txs))).length = txs.length := by
    rw [List.length_zip, hOn, hRn, min_self]
  have htrip : ((orderedTimesOf txs (canonicalOrder txs)).zip
      ((overridesOf useDsu (orderedTimesOf txs (canonicalOrder txs)) qs).zip
        (orderedRemsOf txs (canonicalOrder txs)))).length = txs.length := by
    rw [List.length_zip, hTn, hinzip, min_self]
  have hfst : (((orderedTimesOf txs (canonicalOrder txs)).zip
      ((overridesOf useDsu (orderedTimesOf txs (canonicalOrder txs)) qs).zip
        (orderedRemsOf txs (canonicalOrder txs)))).map fun tr => tr.1) =
      orderedTimesOf txs (canonicalOrder txs) := by
    rw [show (fun tr : ℤ × Option ℚ × ℚ => tr.1) = Prod.fst from rfl]
    exact List.map_fst_zip _ _ (by rw [hTn, hinzip])
  have hadj : adjSortedOf useDsu txs qs ps (canonicalOrder txs) =
      ((orderedTimesOf txs (canonicalOrder txs)).zip
        ((overridesOf useDsu (orderedTimesOf txs (canonicalOrder txs)) qs).zip
          (orderedRemsOf txs (canonicalOrder txs)))).map
        fun tr => money (tr.2.1.getD tr.2.2 + pExtra tr.1 ps) := by
    unfold adjSortedOf
    exact adjLoop_eq_top ps hps _ (by rw [hfst]; exact orderedTimes_sorted txs)
  have hadjn : (adjSortedOf useDsu txs qs ps (canonicalOrder txs)).length
      = txs.length := by
    rw [hadj, List.length_map, htrip]
  obtain ⟨p, hp, hidxp⟩ := List.mem_iff_getElem.mp (canonicalOrder_mem.mpr hj)
  have hpn : p < txs.length := by omega
  have hpAdj : p < (adjSortedOf useDsu txs qs ps (canonicalOrder txs)).length := by
    omega
  have hpT : p < (orderedTimesOf txs (canonicalOrder txs)).length := by omega
  have hpR : p < (orderedRemsOf txs (canonicalOrder txs)).length := by omega
  have hpO : p <
      (overridesOf useDsu (orderedTimesOf txs (canonicalOrder txs)) qs).length := by
    omega
  have hppairs : p < ((canonicalOrder txs).zip
      (adjSortedOf useDsu txs qs ps (canonicalOrder txs))).length := by
    rw [List.length_zip, hidxn, hadjn, min_self]
    exact hpn
  have hpair : ((canonicalOrder txs).zip
      (adjSortedOf useDsu txs qs ps (canonicalOrder txs)))[p] =
      ((canonicalOrder txs)[p],
        (adjSortedOf useDsu txs qs ps (canonicalOrder txs))[p]) :=
    List.getElem_zip
  have hTp : (orderedTimesOf txs (canonicalOrder txs))[p] =
      (txs.getD j default).epoch := by
    unfold orderedTimesOf
    rw [List.getElem_map, hidxp]
  have hRp : (orderedRemsOf txs (canonicalOrder txs))[p] =
      (txs.getD j default).remanent := by
    unfold orderedRemsOf
    rw [List.getElem_map, hidxp]
  have hOp : (overridesOf useDsu (orderedTimesOf txs (canonicalOrder txs)) qs)[p] =
      (qWinner (txs.getD j default).epoch qs.enum).map fun iq => iq.2.value := by
    have hgen : ∀ (hh : p <
        (overridesOf useDsu (orderedTimesOf txs (canonicalOrder txs)) qs).length),
        (overridesOf useDsu (orderedTimesOf txs (canonicalOrder txs)) qs)[p] =
        (qWinner (txs.getD j default).epoch qs.enum).map fun iq => iq.2.value := by
      rw [hO]
      unfold qOracle
      intro hh
      rw [List.getElem_map, hTp]
    exact hgen hpO
  have hvadj : (adjSortedOf useDsu txs qs ps (canonicalOrder txs))[p] =
      money ((((qWinner (txs.getD j default).epoch qs.enum).map
          fun iq => iq.2.value).getD (txs.getD j default).remanent) +
        pExtra (txs.getD j default).epoch ps) := by
    have hgen : ∀ (hh : p < (adjSortedOf useDsu txs qs ps (canonicalOrder txs)).length),
        (adjSortedOf useDsu txs qs ps (canonicalOrder txs))[p] =
        money ((((qWinner (txs.getD j default).epoch qs.enum).map
          fun iq => iq.2.value).getD (txs.getD j default).remanent) +
          pExtra (txs.getD j default).epoch ps) := by
      rw [hadj]
      intro hh
      rw [List.getElem_map, List.getElem_zip, List.getElem_zip]
      rw [show (((orderedTimesOf txs (canonicalOrder txs))[p],
          ((overridesOf useDsu (orderedTimesOf txs (canonicalOrder txs)) qs)[p],
            (orderedRemsOf txs (canonicalOrder txs))[p])) :
          ℤ × Option ℚ × ℚ).1 = (orderedTimesOf txs (canonicalOrder txs))[p]
        from rfl]
      rw [hTp, hOp, hRp]
    exact hgen hpAdj
  have hmem : (j, money ((((qWinner (txs.getD j default).epoch qs.enum).map
      fun iq => iq.2.value).getD (txs.getD j default).remanent) +
        pExtra (txs.getD j default).epoch ps)) ∈
      ((canonicalOrder txs).zip (adjSortedOf useDsu txs qs ps (canonicalOrder txs))) := by
    have hmm := List.getElem_mem hppairs
    rw [hpair, hidxp, hvadj] at hmm
    exact hmm
  have hnd : (((canonicalOrder txs).zip
      (adjSortedOf useDsu txs qs ps (canonicalOrder txs))).map Prod.fst).Nodup := by
    rw [List.map_fst_zip _ _ (by rw [hidxn, hadjn])]
    exact canonicalOrder_nodup txs
  exact foldl_update_mem hnd hmem _

theorem applyTemporalRules_length (useDsu : List ℤ → List QPeriod → Bool)
    (txs : List Txn) (qs : List QPeriod) (ps : List PPeriod)
    (oidx : Option (List ℕ)) :
    (applyTemporalRules useDsu txs qs ps oidx).length = txs.length := by
  unfold applyTemporalRules
  by_cases h : txs.isEmpty
  · rw [if_pos h, List.isEmpty_iff.mp h]
  · rw [if_neg h, List.length_zipWith, List.length_range, min_self]

theorem applyTemporalRules_some_eq_none (useDsu : List ℤ → List QPeriod → Bool)
    (txs : List Txn) (qs : List QPeriod) (ps : List PPeriod) :
    applyTemporalRules useDsu txs qs ps (some (canonicalOrder txs)) =
      applyTemporalRules useDsu txs qs ps none := rfl

theorem applyTemporalRules_getD (useDsu : List ℤ → List QPeriod → Bool)
    (txs : List Txn) (qs : List QPeriod) (ps : List PPeriod)
    (hps : ∀ p ∈ ps, p.startEpoch ≤ p.endEpoch)
    (j : ℕ) (hj : j < txs.length) :
    (applyTemporalRules useDsu txs qs ps none).getD j default =
      { txs.getD j default with
        adjusted :=
          some (money ((((qWinner (txs.getD j default).epoch qs.enum).map
            fun iq => iq.2.value).getD (txs.getD j default).remanent) +
          pExtra (txs.getD j default).epoch ps)) } := by
  have hne : ¬ txs.isEmpty := by
    intro h
    rw [List.isEmpty_iff.mp h] at hj
    simp at hj
  have hlen : (applyTemporalRules useDsu txs qs ps none).length = txs.length :=
    applyTemporalRules_length useDsu txs qs ps none
  rw [List.getD_eq_getElem _ _ (by omega)]
  have hstep : applyTemporalRules useDsu txs qs ps none =
      List.zipWith
        (fun i tx =>
          match assignOf useDsu txs qs ps (canonicalOrder txs) i with
          | some a => { tx with adjusted := some a }
          | none => tx)
        (List.range txs.length) txs := by
    unfold applyTemporalRules
    rw [if_neg hne]
    rfl
  have hj2 : j < (applyTemporalRules useDsu txs qs ps none).length := by omega
  have : ∀ (hh : j < (List.zipWith
        (fun i tx =>
          match assignOf useDsu txs qs ps (canonicalOrder txs) i with
          | some a => { tx with adjusted := some a }
          | none => tx)
        (List.range txs.length) txs).length),
      (List.zipWith
        (fun i tx =>
          match assignOf useDsu txs qs ps (canonicalOrder txs) i with
          | some a => { tx with adjusted := some a }
          | none => tx)
        (List.range txs.length) txs)[j] =
      { txs.getD j default with
        adjusted :=
          some (money ((((qWinner (txs.getD j default).epoch qs.enum).map
            fun iq => iq.2.value).getD (txs.getD j default).remanent) +
          pExtra (txs.getD j default).epoch ps)) } := by
    intro hh
    rw [List.getElem_zipWith, List.getElem_range j
      (by simp only [List.length_range]; exact hj)]
    rw [assignOf_eq useDsu txs qs ps hps j hj]
    rw [List.getD_eq_getElem _ _ hj]
  have hcast := this (by rw [← hstep]; exact hj2)
  calc (applyTemporalRules useDsu txs qs ps none)[j]
      = _ := by
        congr 1 <;> rw [hstep]
    _ = _ := hcast

/-- C2: after the temporal engine runs (under either Q strategy), a
transaction whose epoch is contained in no Q-interval keeps its original
remanent as the base of its adjusted value, while a transaction contained
in at least one Q-interval gets as base the `fixed` value of the containing
interval with the latest `start_epoch` (ties broken by smallest insertion
index), replacing — not adding to — the original remanent. -/
theorem C2_q_override_selection (useDsu : List ℤ → List QPeriod → Bool)
    (txs : List Txn) (qs : List QPeriod) (ps : List PPeriod)
    (hps : ∀ p ∈ ps, p.startEpoch ≤ p.endEpoch)
    (j : ℕ) (hj : j < txs.length) :
    ((∀ iq ∈ qs.enum, ¬ qContains (txs.getD j default).epoch iq.2) →
      (applyTemporalRules useDsu txs qs ps none).getD j default =
        { txs.getD j default with
          adjusted := some (money ((txs.getD j default).remanent +
            pExtra (txs.getD j default).epoch ps)) }) ∧
    (∀ iq0 ∈ qs.enum, qContains (txs.getD j default).epoch iq0.2 →
      ∃ w ∈ qs.enum, qContains (txs.getD j default).epoch w.2 ∧
        (∀ iq ∈ qs.enum, qContains (txs.getD j default).epoch iq.2 →
          iq.2.startEpoch < w.2.startEpoch ∨
            (iq.2.startEpoch = w.2.startEpoch ∧ w.1 ≤ iq.1)) ∧
        (applyTemporalRules useDsu txs qs ps none).getD j default =
          { txs.getD j default with
            adjusted := some (money (w.2.value +
              pExtra (txs.getD j default).epoch ps)) }) := by
  constructor
  · intro hnone
    have hq : qWinner (txs.getD j default).epoch qs.enum = none :=
      qWinner_eq_none_iff.mpr hnone
    rw [applyTemporalRules_getD useDsu txs qs ps hps j hj, hq]
    rfl
  · intro iq0 hiq0 hc0
    cases hq : qWinner (txs.getD j default).epoch qs.enum with
    | none => exact absurd hc0 (qWinner_eq_none_iff.mp hq iq0 hiq0)
    | some w =>
      obtain ⟨hw, hcw, hmin⟩ := qWinner_spec hq
      refine ⟨w, hw, hcw, fun iq hiq hc => ?_, ?_⟩
      · have hle := hmin iq hiq hc
        unfold qPrio at hle
        rcases (Prod.Lex.le_iff _ _).mp hle with h1 | ⟨h1, h2⟩
        · have h1' : -w.2.startEpoch < -iq.2.startEpoch := h1
          left
          omega
        · have h1' : -w.2.startEpoch = -iq.2.startEpoch := h1
          have h2' : w.1 ≤ iq.1 := h2
          right
          exact ⟨by omega, h2'⟩
      · rw [applyTemporalRules_getD useDsu txs qs ps hps j hj, hq]
        rfl

/-- C2 witness: a concrete one-transaction instance with one containing
Q-interval and one containing P-interval, with both hypotheses discharged. -/
theorem C2_witness :
    (∀ p ∈ ([⟨0, 20, 3⟩] : List PPeriod), p.startEpoch ≤ p.endEpoch) ∧
    ((0 : ℕ) < ([⟨"2023-01-01 00:00", 10, 75, 100, 25, none⟩] : List Txn).length) ∧
    (((∀ iq ∈ ([⟨5, 15, 7⟩] : List QPeriod).enum,
        ¬ qContains (([⟨"2023-01-01 00:00", 10, 75, 100, 25, none⟩] :
          List Txn).getD 0 default).epoch iq.2) →
      (applyTemporalRules (fun _ _ => false)
          [⟨"2023-01-01 00:00", 10, 75, 100, 25, none⟩] [⟨5, 15, 7⟩]
          [⟨0, 20, 3⟩] none).getD 0 default =
        { ([⟨"2023-01-01 00:00", 10, 75, 100, 25, none⟩] :
            List Txn).getD 0 default with
          adjusted := some (money ((([⟨"2023-01-01 00:00", 10, 75, 100, 25,
              none⟩] : List Txn).getD 0 default).remanent +
            pExtra (([⟨"2023-01-01 00:00", 10, 75, 100, 25, none⟩] :
              List Txn).getD 0 default).epoch [⟨0, 20, 3⟩])) }) ∧
    (∀ iq0 ∈ ([⟨5, 15, 7⟩] : List QPeriod).enum,
      qContains (([⟨"2023-01-01 00:00", 10, 75, 100, 25, none⟩] :
        List Txn).getD 0 default).epoch iq0.2 →
      ∃ w ∈ ([⟨5, 15, 7⟩] : List QPeriod).enum,
        qContains (([⟨"2023-01-01 00:00", 10, 75, 100, 25, none⟩] :
          List Txn).getD 0 default).epoch w.2 ∧
        (∀ iq ∈ ([⟨5, 15, 7⟩] : List QPeriod).enum,
          qContains (([⟨"2023-01-01 00:00", 10, 75, 100, 25, none⟩] :
            List Txn).getD 0 default).epoch iq.2 →
          iq.2.startEpoch < w.2.startEpoch ∨
            (iq.2.startEpoch = w.2.startEpoch ∧ w.1 ≤ iq.1)) ∧
        (applyTemporalRules (fun _ _ => false)
            [⟨"2023-01-01 00:00", 10, 75, 100, 25, none⟩] [⟨5, 15, 7⟩]
            [⟨0, 20, 3⟩] none).getD 0 default =
          { ([⟨"2023-01-01 00:00", 10, 75, 100, 25, none⟩] :
              List Txn).getD 0 default with
            adjusted := some (money (w.2.value +
              pExtra (([⟨"2023-01-01 00:00", 10, 75, 100, 25, none⟩] :
                List Txn).getD 0 default).epoch [⟨0, 20, 3⟩])) })) :=
  ⟨by decide, by decide,
    C2_q_override_selection (fun _ _ => false)
      [⟨"2023-01-01 00:00", 10, 75, 100, 25, none⟩] [⟨5, 15, 7⟩]
      [⟨0, 20, 3⟩] (by decide) 0 (by decide)⟩

/-- C3: for every transaction processed by the temporal engine (with
two-decimal remanents and period values, so the final rounding is exact),
the adjusted remanent equals the Q-resolved base remanent plus the sum of
the `extra` values of every P-interval whose range contains the
transaction's epoch, both endpoints inclusive. -/
theorem C3_extras_summed (useDsu : List ℤ → List QPeriod → Bool)
    (txs : List Txn) (qs : List QPeriod) (ps : List PPeriod)
    (hps : ∀ p ∈ ps, p.startEpoch ≤ p.endEpoch)
    (hrem : ∀ tx ∈ txs, IsCents tx.remanent)
    (hqv : ∀ q ∈ qs, IsCents q.value)
    (hpv : ∀ p ∈ ps, IsCents p.value)
    (j : ℕ) (hj : j < txs.length) :
    ((applyTemporalRules useDsu txs qs ps none).getD j default).adjusted =
      some ((((qWinner (txs.getD j default).epoch qs.enum).map
          fun iq => iq.2.value).getD (txs.getD j default).remanent) +
        ((ps.filter fun p =>
            decide (pContains (txs.getD j default).epoch p)).map
          fun p => p.value).sum) := by
  have hfield : ∀ (tx : Txn) (v : Option ℚ),
      (Txn.adjusted { tx with adjusted := v }) = v := fun _ _ => rfl
  rw [applyTemporalRules_getD useDsu txs qs ps hps j hj, hfield]
  have hbase : IsCents (((qWinner (txs.getD j default).epoch qs.enum).map
      fun iq => iq.2.value).getD (txs.getD j default).remanent) := by
    cases hq : qWinner (txs.getD j default).epoch qs.enum with
    | none =>
      have hmem : txs.getD j default ∈ txs := by
        rw [List.getD_eq_getElem _ _ hj]
        exact List.getElem_mem hj
      exact hrem _ hmem
    | some w =>
      exact hqv w.2 (enum_snd_mem (qWinner_spec hq).1)
  have hext : IsCents (pExtra (txs.getD j default).epoch ps) := by
    unfold pExtra
    refine isCents_sum fun q hq => ?_
    obtain ⟨p, hp, rfl⟩ := List.mem_map.mp hq
    exact hpv p (List.mem_filter.mp hp).1
  rw [money_of_isCents (hbase.add hext)]
  rfl

/-- C3 witness: a concrete transaction covered by one Q-interval and two
P-intervals (of which one contains the epoch), with all cent-value
hypotheses discharged explicitly. -/
theorem C3_witness :
    (∀ p ∈ ([⟨0, 20, 3⟩, ⟨11, 30, 5⟩] : List PPeriod),
      p.startEpoch ≤ p.endEpoch) ∧
    (∀ tx ∈ ([⟨"2023-01-01 00:00", 10, 75, 100, 25, none⟩] : List Txn),
      IsCents tx.remanent) ∧
    (∀ q ∈ ([⟨5, 15, 7⟩] : List QPeriod), IsCents q.value) ∧
    (∀ p ∈ ([⟨0, 20, 3⟩, ⟨11, 30, 5⟩] : List PPeriod), IsCents p.value) ∧
    ((applyTemporalRules (fun _ _ => true)
        [⟨"2023-01-01 00:00", 10, 75, 100, 25, none⟩] [⟨5, 15, 7⟩]
        [⟨0, 20, 3⟩, ⟨11, 30, 5⟩] none).getD 0 default).adjusted =
      some ((((qWinner (([⟨"2023-01-01 00:00", 10, 75, 100, 25, none⟩] :
            List Txn).getD 0 default).epoch
            ([⟨5, 15, 7⟩] : List QPeriod).enum).map
          fun iq => iq.2.value).getD
            (([⟨"2023-01-01 00:00", 10, 75, 100, 25, none⟩] :
              List Txn).getD 0 default).remanent) +
        ((([⟨0, 20, 3⟩, ⟨11, 30, 5⟩] : List PPeriod).filter fun p =>
            decide (pContains (([⟨"2023-01-01 00:00", 10, 75, 100, 25,
              none⟩] : List Txn).getD 0 default).epoch p)).map
          fun p => p.value).sum) :=
  ⟨by decide,
    fun tx htx => by
      rw [List.mem_singleton] at htx
      rw [htx]
      exact ⟨2500, by norm_num⟩,
    fun q hq => by
      rw [List.mem_singleton] at hq
      rw [hq]
      exact ⟨700, by norm_num⟩,
    fun p hp => by
      rcases List.mem_cons.mp hp with h | h
      · rw [h]
        exact ⟨300, by norm_num⟩
      · rw [List.mem_singleton] at h
        rw [h]
        exact ⟨500, by norm_num⟩,
    C3_extras_summed (fun _ _ => true)
      [⟨"2023-01-01 00:00", 10, 75, 100, 25, none⟩] [⟨5, 15, 7⟩]
      [⟨0, 20, 3⟩, ⟨11, 30, 5⟩] (by decide)
      (fun tx htx => by
        rw [List.mem_singleton] at htx
        rw [htx]
        exact ⟨2500, by norm_num⟩)
      (fun q hq => by
        rw [List.mem_singleton] at hq
        rw [hq]
        exact ⟨700, by norm_num⟩)
      (fun p hp => by
        rcases List.mem_cons.mp hp with h | h
        · rw [h]
          exact ⟨300, by norm_num⟩
        · rw [List.mem_singleton] at h
          rw [h]
          exact ⟨500, by norm_num⟩)
      0 (by decide)⟩

/-! ## Idempotence of the temporal engine -/

theorem applyTemporalRules_eq_zipWith (useDsu : List ℤ → List QPeriod → Bool)
    (txs : List Txn) (qs : List QPeriod) (ps : List PPeriod)
    (hne : ¬ txs.isEmpty) :
    applyTemporalRules useDsu txs qs ps none =
      List.zipWith
        (fun i tx =>
          match assignOf useDsu txs qs ps (canonicalOrder txs) i with
          | some a => { tx with adjusted := some a }
          | none => tx)
        (List.range txs.length) txs := by
  unfold applyTemporalRules
  rw [if_neg hne]
  rfl

theorem applyTemporalRules_getD_match (useDsu : List ℤ → List QPeriod → Bool)
    (txs : List Txn) (qs : List QPeriod) (ps : List PPeriod)
    (j : ℕ) (hj : j < txs.length) :
    (applyTemporalRules useDsu txs qs ps none).getD j default =
      match assignOf useDsu txs qs ps (canonicalOrder txs) j with
      | some a => { txs.getD j default with adjusted := some a }
      | none => txs.getD j default := by
  have hne : ¬ txs.isEmpty := by
    intro h
    rw [List.isEmpty_iff.mp h] at hj
    simp at hj
  have hlen := applyTemporalRules_length useDsu txs qs ps none
  rw [List.getD_eq_getElem _ _ (by omega)]
  have hstep := applyTemporalRules_eq_zipWith useDsu txs qs ps hne
  have hj2 : j < (applyTemporalRules useDsu txs qs ps none).length := by omega
  have key : ∀ (hh : j < (List.zipWith
        (fun i tx =>
          match assignOf useDsu txs qs ps (canonicalOrder txs) i with
          | some a => { tx with adjusted := some a }
          | none => tx)
        (List.range txs.length) txs).length),
      (List.zipWith
        (fun i tx =>
          match assignOf useDsu txs qs ps (canonicalOrder txs) i with
          | some a => { tx with adjusted := some a }
          | none => tx)
        (List.range txs.length) txs)[j] =
      match assignOf useDsu txs qs ps (canonicalOrder txs) j with
      | some a => { txs.getD j default with adjusted := some a }
      | none => txs.getD j default := by
    intro hh
    rw [List.getElem_zipWith, List.getElem_range j
      (by simp only [List.length_range]; exact hj)]
    rw [List.getD_eq_getElem _ _ hj]
  have hcast := key (by rw [← hstep]; exact hj2)
  calc (applyTemporalRules useDsu txs qs ps none)[j]
      = _ := by
        congr 1 <;> rw [hstep]
    _ = _ := hcast

theorem applyTemporalRules_preserves (useDsu : List ℤ → List QPeriod → Bool)
    (txs : List Txn) (qs : List QPeriod) (ps : List PPeriod) (j : ℕ) :
    ((applyTemporalRules useDsu txs qs ps none).getD j default).epoch =
        (txs.getD j default).epoch ∧
      ((applyTemporalRules useDsu txs qs ps none).getD j default).remanent =
        (txs.getD j default).remanent := by
  by_cases hj : j < txs.length
  · rw [applyTemporalRules_getD_match useDsu txs qs ps j hj]
    cases assignOf useDsu txs qs ps (canonicalOrder txs) j with
    | some a => exact ⟨rfl, rfl⟩
    | none => exact ⟨rfl, rfl⟩
  · have hlen := applyTemporalRules_length useDsu txs qs ps none
    rw [List.getD_eq_default _ _ (by omega), List.getD_eq_default _ _ (by omega)]
    exact ⟨rfl, rfl⟩

theorem assignOf_congr (useDsu : List ℤ → List QPeriod → Bool)
    {txs₁ txs₂ : List Txn} (qs : List QPeriod) (ps : List PPeriod)
    (hlen : txs₁.length = txs₂.length)
    (hepoch : ∀ i, (txs₁.getD i default).epoch = (txs₂.getD i default).epoch)
    (hrem : ∀ i, (txs₁.getD i default).remanent = (txs₂.getD i default).remanent) :
    canonicalOrder txs₁ = canonicalOrder txs₂ ∧
      assignOf useDsu txs₁ qs ps (canonicalOrder txs₁) =
        assignOf useDsu txs₂ qs ps (canonicalOrder txs₂) := by
  have hkey : (fun i => (toLex ((txs₁.getD i default).epoch, i) : ℤ ×ₗ ℕ)) =
      fun i => (toLex ((txs₂.getD i default).epoch, i) : ℤ ×ₗ ℕ) :=
    funext fun i => by rw [hepoch i]
  have hco : canonicalOrder txs₁ = canonicalOrder txs₂ := by
    unfold canonicalOrder
    rw [hkey, hlen]
  have hT : ∀ idx, orderedTimesOf txs₁ idx = orderedTimesOf txs₂ idx := by
    intro idx
    unfold orderedTimesOf
    have h2 : (fun i => (txs₁.getD i default).epoch) =
        fun i => (txs₂.getD i default).epoch := funext hepoch
    rw [h2]
  have hR : ∀ idx, orderedRemsOf txs₁ idx = orderedRemsOf txs₂ idx := by
    intro idx
    unfold orderedRemsOf
    have h2 : (fun i => (txs₁.getD i default).remanent) =
        fun i => (txs₂.getD i default).remanent := funext hrem
    rw [h2]
  refine ⟨hco, ?_⟩
  unfold assignOf adjSortedOf
  rw [hco, hT, hR]

/-- C10: running the temporal engine a second time on its own output
assigns every transaction exactly the same adjusted remanent (indeed, the
whole output batch is unchanged), for every Q/P list pair and under either
Q strategy. -/
theorem C10_engine_idempotent (useDsu : List ℤ → List QPeriod → Bool)
    (txs : List Txn) (qs : List QPeriod) (ps : List PPeriod) :
    applyTemporalRules useDsu (applyTemporalRules useDsu txs qs ps none)
        qs ps none =
      applyTemporalRules useDsu txs qs ps none := by
  by_cases hemp : txs.isEmpty
  · rw [List.isEmpty_iff.mp hemp]
    rfl
  have hlen := applyTemporalRules_length useDsu txs qs ps none
  have hpres := fun j => applyTemporalRules_preserves useDsu txs qs ps j
  obtain ⟨hco, hass⟩ := assignOf_congr useDsu qs ps hlen
    (fun i => (hpres i).1) (fun i => (hpres i).2)
  have hpos : 0 < txs.length :=
    List.length_pos.mpr fun h => hemp (List.isEmpty_iff.mpr h)
  have hne' : ¬ (applyTemporalRules useDsu txs qs ps none).isEmpty := by
    intro h
    rw [List.isEmpty_iff.mp h] at hlen
    simp at hlen
    omega
  rw [applyTemporalRules_eq_zipWith useDsu _ qs ps hne', hass, hlen]
  refine List.ext_getElem ?_ fun j h1 h2 => ?_
  · rw [List.length_zipWith, List.length_range, hlen, min_self]
  have hjt : j < txs.length := by
    rw [List.length_zipWith, List.length_range, hlen, min_self] at h1
    exact h1
  rw [List.getElem_zipWith, List.getElem_range j
    (by simp only [List.length_range]; exact hjt)]
  have hchar := applyTemporalRules_getD_match useDsu txs qs ps j hjt
  rw [List.getD_eq_getElem _ _ h2] at hchar
  cases hA : assignOf useDsu txs qs ps (canonicalOrder txs) j with
  | none => rw [hA] at hchar
  | some a =>
    rw [hA] at hchar
    rw [hchar]

/-! ## Prefix sums and the K-aggregation claim -/

theorem prefixFrom_getD :
    ∀ (l : List ℚ) (acc : ℚ) (i : ℕ), i < l.length →
      (prefixFrom acc l).getD i 0 = acc + (l.take (i + 1)).sum := by
  intro l
  induction l with
  | nil =>
    intro acc i hi
    simp at hi
  | cons v rest ih =>
    intro acc i hi
    match i with
    | 0 => simp [prefixFrom]
    | i + 1 =>
      rw [show prefixFrom acc (v :: rest) =
        (acc + v) :: prefixFrom (acc + v) rest from rfl]
      rw [show ((acc + v) :: prefixFrom (acc + v) rest).getD (i + 1) 0 =
        (prefixFrom (acc + v) rest).getD i 0 from rfl]
      rw [ih (acc + v) i (by simp at hi; omega)]
      rw [List.take_succ_cons, List.sum_cons]
      ring

theorem prefixSums_getD (l : List ℚ) (i : ℕ) (hi : i ≤ l.length) :
    (prefixSums l).getD i 0 = (l.take i).sum := by
  match i with
  | 0 => simp [prefixSums]
  | i + 1 =>
    rw [show (prefixSums l).getD (i + 1) 0 =
      (prefixFrom 0 l).getD i 0 from rfl]
    rw [prefixFrom_getD l 0 i (by omega), zero_add]

theorem take_eq_take_append {α : Type} (l : List α) {a b : ℕ} (h : a ≤ b) :
    l.take b = l.take a ++ (l.take b).drop a := by
  calc l.take b = (l.take b).take a ++ (l.take b).drop a :=
        (List.take_append_drop ..).symm
    _ = l.take a ++ (l.take b).drop a := by
        rw [List.take_take, min_eq_left h]

theorem aggregate_segment (ordered : List Txn)
    (hsort : (ordered.map fun tx => tx.epoch).Sorted (· ≤ ·))
    (s e : ℤ) (hse : s ≤ e) :
    bisectLeft (ordered.map fun tx => tx.epoch) s ≤
        bisectRight (ordered.map fun tx => tx.epoch) e ∧
      ordered.filter (fun tx => decide (s ≤ tx.epoch ∧ tx.epoch ≤ e)) =
        (ordered.take (bisectRight (ordered.map fun tx => tx.epoch) e)).drop
          (bisectLeft (ordered.map fun tx => tx.epoch) s) := by
  have hlm : (ordered.map fun tx => tx.epoch).length = ordered.length :=
    List.length_map ..
  have hRn : bisectRight (ordered.map fun tx => tx.epoch) e ≤ ordered.length := by
    have := bisectRight_le_length (ordered.map fun tx => tx.epoch) e
    omega
  have hLn : bisectLeft (ordered.map fun tx => tx.epoch) s ≤ ordered.length := by
    have := bisectLeft_le_length (ordered.map fun tx => tx.epoch) s
    omega
  have hepochD : ∀ (i : ℕ) (hi : i < ordered.length),
      (ordered.map fun tx => tx.epoch).getD i 0 = (ordered[i]).epoch := by
    intro i hi
    rw [List.getD_eq_getElem _ _ (by omega), List.getElem_map]
  have hLR : bisectLeft (ordered.map fun tx => tx.epoch) s ≤
      bisectRight (ordered.map fun tx => tx.epoch) e := by
    by_contra hc
    push_neg at hc
    have hRn2 : bisectRight (ordered.map fun tx => tx.epoch) e <
        (ordered.map fun tx => tx.epoch).length := by omega
    have h1 : (ordered.map fun tx => tx.epoch).getD
        (bisectRight (ordered.map fun tx => tx.epoch) e) 0 < s :=
      (lt_bisectLeft_iff hsort hRn2).mp hc
    have h2 : ¬ ((ordered.map fun tx => tx.epoch).getD
        (bisectRight (ordered.map fun tx => tx.epoch) e) 0 ≤ e) := by
      intro hc2
      exact absurd ((lt_bisectRight_iff hsort hRn2).mpr hc2) (lt_irrefl _)
    omega
  refine ⟨hLR, ?_⟩
  have hA : ∀ x ∈ ordered.take (bisectLeft (ordered.map fun tx => tx.epoch) s),
      ¬ ((fun tx => decide (s ≤ tx.epoch ∧ tx.epoch ≤ e)) x = true) := by
    intro x hx
    obtain ⟨i, hi, hxi⟩ := List.mem_iff_getElem.mp hx
    have hiL : i < bisectLeft (ordered.map fun tx => tx.epoch) s := by
      rw [List.length_take] at hi
      omega
    have hin : i < ordered.length := by
      rw [List.length_take] at hi
      omega
    have hx2 : ordered[i] = x := by
      rw [← hxi]
      exact (List.getElem_take ..).symm
    have hlt : (ordered.map fun tx => tx.epoch).getD i 0 < s :=
      (lt_bisectLeft_iff hsort (by omega)).mp hiL
    rw [hepochD i hin, hx2] at hlt
    intro hc
    rw [decide_eq_true_eq] at hc
    omega
  have hC : ∀ x ∈ ordered.drop (bisectRight (ordered.map fun tx => tx.epoch) e),
      ¬ ((fun tx => decide (s ≤ tx.epoch ∧ tx.epoch ≤ e)) x = true) := by
    intro x hx
    obtain ⟨i, hi, hxi⟩ := List.mem_iff_getElem.mp hx
    have hin : bisectRight (ordered.map fun tx => tx.epoch) e + i <
        ordered.length := by
      rw [List.length_drop] at hi
      omega
    have hx2 : ordered[bisectRight (ordered.map fun tx => tx.epoch) e + i]
        = x := by
      rw [← hxi]
      exact (List.getElem_drop ..).symm
    have hnotR : ¬ (bisectRight (ordered.map fun tx => tx.epoch) e + i <
        bisectRight (ordered.map fun tx => tx.epoch) e) := by omega
    have hgt : ¬ ((ordered.map fun tx => tx.epoch).getD
        (bisectRight (ordered.map fun tx => tx.epoch) e + i) 0 ≤ e) := by
      intro hc
      exact hnotR ((lt_bisectRight_iff hsort (by omega)).mpr hc)
    rw [hepochD _ hin, hx2] at hgt
    intro hc
    rw [decide_eq_true_eq] at hc
    omega
  have hB : ∀ x ∈ (ordered.take
        (bisectRight (ordered.map fun tx => tx.epoch) e)).drop
        (bisectLeft (ordered.map fun tx => tx.epoch) s),
      (fun tx => decide (s ≤ tx.epoch ∧ tx.epoch ≤ e)) x = true := by
    intro x hx
    obtain ⟨i, hi, hxi⟩ := List.mem_iff_getElem.mp hx
    have hiR : bisectLeft (ordered.map fun tx => tx.epoch) s + i <
        bisectRight (ordered.map fun tx => tx.epoch) e := by
      rw [List.length_drop, List.length_take] at hi
      omega
    have hin : bisectLeft (ordered.map fun tx => tx.epoch) s + i <
        ordered.length := by omega
    have htk : bisectLeft (ordered.map fun tx => tx.epoch) s + i <
        (ordered.take (bisectRight (ordered.map fun tx => tx.epoch) e)).length := by
      rw [List.length_take]
      omega
    have hx2 : ordered[bisectLeft (ordered.map fun tx => tx.epoch) s + i]
        = x := by
      rw [← hxi]
      calc ordered[bisectLeft (ordered.map fun tx => tx.epoch) s + i]
          = (ordered.take (bisectRight (ordered.map fun tx => tx.epoch) e))[
              bisectLeft (ordered.map fun tx => tx.epoch) s + i] :=
            (List.getElem_take ..).symm
        _ = _ := (List.getElem_drop ..).symm
    have hge : ¬ ((ordered.map fun tx => tx.epoch).getD
        (bisectLeft (ordered.map fun tx => tx.epoch) s + i) 0 < s) := by
      intro hc
      have := (lt_bisectLeft_iff hsort
        (show bisectLeft (ordered.map fun tx => tx.epoch) s + i <
          (ordered.map fun tx => tx.epoch).length by omega)).mpr hc
      omega
    have hle : (ordered.map fun tx => tx.epoch).getD
        (bisectLeft (ordered.map fun tx => tx.epoch) s + i) 0 ≤ e :=
      (lt_bisectRight_iff hsort (by omega)).mp hiR
    rw [hepochD _ hin, hx2] at hge hle
    rw [decide_eq_true_eq]
    omega
  have hTR : ordered.take (bisectRight (ordered.map fun tx => tx.epoch) e) =
      ordered.take (bisectLeft (ordered.map fun tx => tx.epoch) s) ++
        (ordered.take (bisectRight (ordered.map fun tx => tx.epoch) e)).drop
          (bisectLeft (ordered.map fun tx => tx.epoch) s) :=
    take_eq_take_append ordered hLR
  have hdecomp : ordered =
      (ordered.take (bisectLeft (ordered.map fun tx => tx.epoch) s) ++
        (ordered.take (bisectRight (ordered.map fun tx => tx.epoch) e)).drop
          (bisectLeft (ordered.map fun tx => tx.epoch) s)) ++
        ordered.drop (bisectRight (ordered.map fun tx => tx.epoch) e) := by
    rw [← hTR]
    exact (List.take_append_drop ..).symm
  conv_lhs => rw [hdecomp]
  rw [List.filter_append, List.filter_append,
    List.filter_eq_nil_iff.mpr hA, List.filter_eq_self.mpr hB,
    List.filter_eq_nil_iff.mpr hC]
  simp

/-- C4: for every K-interval, in the input order of the K list (with
well-formed intervals and two-decimal transaction values, so the final
rounding is exact), `aggregate_savings_by_k` emits the amount equal to the
sum of the adjusted remanents of exactly those transactions whose epoch
lies in `[start_epoch, end_epoch]`, and the record carries that K-interval's
original start/end strings. -/
theorem C4_k_aggregation (txs : List Txn) (ks : List KPeriod)
    (hks : ∀ k ∈ ks, k.startEpoch ≤ k.endEpoch)
    (hcents : ∀ tx ∈ txs, IsCents (txValue tx))
    (j : ℕ) (hj : j < ks.length) :
    (aggregate_savings_by_k txs ks false).length = ks.length ∧
      (aggregate_savings_by_k txs ks false).getD j default =
        ⟨(ks.getD j default).startStr, (ks.getD j default).endStr,
          ((txs.filter fun tx =>
              decide ((ks.getD j default).startEpoch ≤ tx.epoch ∧
                tx.epoch ≤ (ks.getD j default).endEpoch)).map txValue).sum⟩ := by
  have hne : ¬ ks.isEmpty := by
    intro h
    rw [List.isEmpty_iff.mp h] at hj
    simp at hj
  have hstep : aggregate_savings_by_k txs ks false =
      ks.map fun k =>
        (⟨k.startStr, k.endStr,
          money ((prefixSums ((sortByKey (fun tx => tx.epoch) txs).map
                txValue)).getD
              (bisectRight ((sortByKey (fun tx => tx.epoch) txs).map
                fun tx => tx.epoch) k.endEpoch) 0 -
            (prefixSums ((sortByKey (fun tx => tx.epoch) txs).map
                txValue)).getD
              (bisectLeft ((sortByKey (fun tx => tx.epoch) txs).map
                fun tx => tx.epoch) k.startEpoch) 0)⟩ : KSaving) := by
    unfold aggregate_savings_by_k
    rw [if_neg hne]
    rfl
  refine ⟨by rw [hstep, List.length_map], ?_⟩
  have hmem : ks.getD j default ∈ ks := by
    rw [List.getD_eq_getElem _ _ hj]
    exact List.getElem_mem hj
  have hse := hks _ hmem
  have hsort : ((sortByKey (fun tx => tx.epoch) txs).map
      fun tx => tx.epoch).Sorted (· ≤ ·) := by
    refine List.Pairwise.map _ ?_ (sortByKey_sorted _ _)
    intro a b hab
    exact hab
  obtain ⟨hLR, hfil⟩ := aggregate_segment (sortByKey (fun tx => tx.epoch) txs)
    hsort (ks.getD j default).startEpoch (ks.getD j default).endEpoch hse
  have hlm : ((sortByKey (fun tx => tx.epoch) txs).map
      fun tx => tx.epoch).length = (sortByKey (fun tx => tx.epoch) txs).length :=
    List.length_map ..
  have hlv : ((sortByKey (fun tx => tx.epoch) txs).map txValue).length =
      (sortByKey (fun tx => tx.epoch) txs).length := List.length_map ..
  have hRv : bisectRight ((sortByKey (fun tx => tx.epoch) txs).map
      fun tx => tx.epoch) (ks.getD j default).endEpoch ≤
      ((sortByKey (fun tx => tx.epoch) txs).map txValue).length := by
    have := bisectRight_le_length ((sortByKey (fun tx => tx.epoch) txs).map
      fun tx => tx.epoch) (ks.getD j default).endEpoch
    omega
  rw [hstep, List.getD_eq_getElem _ _ (by rw [List.length_map]; exact hj),
    List.getElem_map, ← List.getD_eq_getElem _ _ hj]
  congr 1
  rw [prefixSums_getD _ _ hRv, prefixSums_getD _ _ (by omega)]
  have hmt : ∀ n : ℕ, ((sortByKey (fun tx => tx.epoch) txs).map txValue).take n =
      ((sortByKey (fun tx => tx.epoch) txs).take n).map txValue := fun n =>
    (List.map_take ..).symm
  rw [hmt, hmt, take_eq_take_append (sortByKey (fun tx => tx.epoch) txs) hLR,
    List.map_append, List.sum_append, add_sub_cancel_left, ← hfil]
  have hfc : ∀ q ∈ ((sortByKey (fun tx => tx.epoch) txs).filter fun tx =>
      decide ((ks.getD j default).startEpoch ≤ tx.epoch ∧
        tx.epoch ≤ (ks.getD j default).endEpoch)).map txValue, IsCents q := by
    intro q hq
    obtain ⟨tx, htx, rfl⟩ := List.mem_map.mp hq
    exact hcents tx (mem_sortByKey.mp (List.mem_of_mem_filter htx))
  rw [money_of_isCents (isCents_sum hfc)]
  exact (((sortByKey_perm (fun tx => tx.epoch) txs).filter _).map txValue).sum_eq

/-- C4 witness: two transactions, one inside and one outside a concrete
K-interval, with all hypotheses discharged. -/
theorem C4_witness :
    (∀ k ∈ ([⟨"2023-01-01 00:00", "2023-06-30 23:59", 0, 10⟩] : List KPeriod),
      k.startEpoch ≤ k.endEpoch) ∧
    (∀ tx ∈ ([⟨"a", 5, 100, 100, 40, some 45⟩,
        ⟨"b", 20, 200, 200, 60, none⟩] : List Txn), IsCents (txValue tx)) ∧
    (aggregate_savings_by_k
        [⟨"a", 5, 100, 100, 40, some 45⟩, ⟨"b", 20, 200, 200, 60, none⟩]
        [⟨"2023-01-01 00:00", "2023-06-30 23:59", 0, 10⟩] false).length =
      ([⟨"2023-01-01 00:00", "2023-06-30 23:59", 0, 10⟩] :
        List KPeriod).length ∧
    (aggregate_savings_by_k
        [⟨"a", 5, 100, 100, 40, some 45⟩, ⟨"b", 20, 200, 200, 60, none⟩]
        [⟨"2023-01-01 00:00", "2023-06-30 23:59", 0, 10⟩] false).getD 0 default =
      ⟨(([⟨"2023-01-01 00:00", "2023-06-30 23:59", 0, 10⟩] :
          List KPeriod).getD 0 default).startStr,
        (([⟨"2023-01-01 00:00", "2023-06-30 23:59", 0, 10⟩] :
          List KPeriod).getD 0 default).endStr,
        ((([⟨"a", 5, 100, 100, 40, some 45⟩,
            ⟨"b", 20, 200, 200, 60, none⟩] : List Txn).filter fun tx =>
            decide ((([⟨"2023-01-01 00:00", "2023-06-30 23:59", 0, 10⟩] :
                List KPeriod).getD 0 default).startEpoch ≤ tx.epoch ∧
              tx.epoch ≤ (([⟨"2023-01-01 00:00", "2023-06-30 23:59", 0,
                10⟩] : List KPeriod).getD 0 default).endEpoch)).map
          txValue).sum⟩ :=
  ⟨by decide,
    fun tx htx => by
      rcases List.mem_cons.mp htx with h | h
      · rw [h]
        exact ⟨4500, by norm_num [txValue]⟩
      · rw [List.mem_singleton] at h
        rw [h]
        exact ⟨6000, by norm_num [txValue]⟩,
    C4_k_aggregation
      [⟨"a", 5, 100, 100, 40, some 45⟩, ⟨"b", 20, 200, 200, 60, none⟩]
      [⟨"2023-01-01 00:00", "2023-06-30 23:59", 0, 10⟩] (by decide)
      (fun tx htx => by
        rcases List.mem_cons.mp htx with h | h
        · rw [h]
          exact ⟨4500, by norm_num [txValue]⟩
        · rw [List.mem_singleton] at h
          rw [h]
          exact ⟨6000, by norm_num [txValue]⟩)
      0 (by decide)⟩

/-! ## Validator cumulative cap -/

theorem capLoop_cons {α : Type} (rem : α → ℚ) (limit : ℚ) (tx : α)
    (rest : List α) (running : ℚ) :
    capLoop rem limit (tx :: rest) running =
      if limit + capEps < running + rem tx then
        ((capLoop rem limit rest running).1,
          tx :: (capLoop rem limit rest running).2)
      else
        (tx :: (capLoop rem limit rest (running + rem tx)).1,
          (capLoop rem limit rest (running + rem tx)).2) := by
  conv_lhs => unfold capLoop

theorem capLoop_partition {α : Type} (rem : α → ℚ) (limit : ℚ) :
    ∀ (cands : List α) (running : ℚ),
      List.Perm ((capLoop rem limit cands running).1 ++
        (capLoop rem limit cands running).2) cands := by
  intro cands
  induction cands with
  | nil =>
    intro running
    simp [capLoop]
  | cons tx rest ih =>
    intro running
    by_cases h : limit + capEps < running + rem tx
    · rw [capLoop_cons, if_pos h]
      exact List.perm_middle.trans ((ih running).cons tx)
    · rw [capLoop_cons, if_neg h]
      exact (ih (running + rem tx)).cons tx

theorem capLoop_running_le {α : Type} (rem : α → ℚ) (limit : ℚ)
    (hlim : IsCents limit) :
    ∀ (cands : List α) (running : ℚ), IsCents running →
      (∀ tx ∈ cands, IsCents (rem tx)) → running ≤ limit →
      running + ((capLoop rem limit cands running).1.map rem).sum ≤ limit := by
  intro cands
  induction cands with
  | nil =>
    intro running _ _ hrl
    simpa [capLoop] using hrl
  | cons tx rest ih =>
    intro running hrc hc hrl
    by_cases h : limit + capEps < running + rem tx
    · rw [capLoop_cons, if_pos h]
      exact ih running hrc (fun t ht => hc t (List.mem_cons_of_mem _ ht)) hrl
    · have h2 : running + rem tx ≤ limit + capEps := not_lt.mp h
      have hcr : IsCents (running + rem tx) :=
        hrc.add (hc tx (List.mem_cons_self ..))
      have hle : running + rem tx ≤ limit := isCents_le_of_le_add_eps hcr hlim h2
      rw [capLoop_cons, if_neg h]
      show running + ((tx :: (capLoop rem limit rest
        (running + rem tx)).1).map rem).sum ≤ limit
      rw [List.map_cons, List.sum_cons]
      have := ih (running + rem tx) hcr
        (fun t ht => hc t (List.mem_cons_of_mem _ ht)) hle
      linarith

/-- C6: with a non-negative validator limit (the code rejects negative
limits; the limit defaults to `money(12·wage)`) and two-decimal candidate
remanents, the cumulative-cap walk keeps the sum of accepted remanents at
most the limit; every candidate ends up accepted or rejected (none is
lost), and one candidate is rejected exactly when adding its remanent to
the running sum would exceed `limit + 1e-9`, processing then continuing
with the same running sum so later, smaller candidates may still be
accepted. -/
theorem C6_cumulative_cap {α : Type} (rem : α → ℚ) (wage : ℚ)
    (maxInv : Option ℚ) (cands : List α)
    (hcents : ∀ tx ∈ cands, IsCents (rem tx))
    (hpos : 0 ≤ validatorLimit wage maxInv) :
    ((capLoop rem (validatorLimit wage maxInv) cands 0).1.map rem).sum ≤
        validatorLimit wage maxInv ∧
      List.Perm ((capLoop rem (validatorLimit wage maxInv) cands 0).1 ++
        (capLoop rem (validatorLimit wage maxInv) cands 0).2) cands ∧
      ∀ (tx : α) (rest : List α) (running : ℚ),
        capLoop rem (validatorLimit wage maxInv) (tx :: rest) running =
          if validatorLimit wage maxInv + capEps < running + rem tx then
            ((capLoop rem (validatorLimit wage maxInv) rest running).1,
              tx :: (capLoop rem (validatorLimit wage maxInv) rest running).2)
          else
            (tx :: (capLoop rem (validatorLimit wage maxInv) rest
                (running + rem tx)).1,
              (capLoop rem (validatorLimit wage maxInv) rest
                (running + rem tx)).2) := by
  have hlim : IsCents (validatorLimit wage maxInv) := isCents_money _
  refine ⟨?_, capLoop_partition rem (validatorLimit wage maxInv) cands 0,
    fun tx rest running => ?_⟩
  · have := capLoop_running_le rem (validatorLimit wage maxInv) hlim cands 0
      isCents_zero hcents hpos
    linarith
  · exact capLoop_cons rem (validatorLimit wage maxInv) tx rest running

/-- C6 witness: candidates `[60, 100, 40]` against limit `100`: the 100 is
rejected mid-stream while 60 and 40 are both accepted, so the walk
continues past a rejection; the concluding cap, partition and rejection
rules are instantiated concretely. -/
theorem C6_witness :
    (∀ tx ∈ ([60, 100, 40] : List ℚ), IsCents (id tx)) ∧
      (0 ≤ validatorLimit 0 (some 100)) ∧
      (((capLoop id (validatorLimit 0 (some 100)) [60, 100, 40] 0).1.map
          id).sum ≤ validatorLimit 0 (some 100) ∧
        List.Perm ((capLoop id (validatorLimit 0 (some 100))
            [60, 100, 40] 0).1 ++
          (capLoop id (validatorLimit 0 (some 100)) [60, 100, 40] 0).2)
          [60, 100, 40] ∧
        ∀ (tx : ℚ) (rest : List ℚ) (running : ℚ),
          capLoop id (validatorLimit 0 (some 100)) (tx :: rest) running =
            if validatorLimit 0 (some 100) + capEps < running + id tx then
              ((capLoop id (validatorLimit 0 (some 100)) rest running).1,
                tx :: (capLoop id (validatorLimit 0 (some 100))
                  rest running).2)
            else
              (tx :: (capLoop id (validatorLimit 0 (some 100)) rest
                  (running + id tx)).1,
                (capLoop id (validatorLimit 0 (some 100)) rest
                  (running + id tx)).2)) :=
  ⟨fun tx htx => by
      rcases List.mem_cons.mp htx with h | h
      · rw [h]
        exact ⟨6000, by norm_num⟩
      rcases List.mem_cons.mp h with h2 | h2
      · rw [h2]
        exact ⟨10000, by norm_num⟩
      · rw [List.mem_singleton] at h2
        rw [h2]
        exact ⟨4000, by norm_num⟩,
    by
      unfold validatorLimit
      rw [show ((some (100 : ℚ)).getD ((0 : ℚ) * 12)) = 100 from rfl,
        money_of_isCents ⟨10000, by norm_num⟩]
      norm_num,
    C6_cumulative_cap id 0 (some 100) [60, 100, 40]
      (fun tx htx => by
        rcases List.mem_cons.mp htx with h | h
        · rw [h]
          exact ⟨6000, by norm_num⟩
        rcases List.mem_cons.mp h with h2 | h2
        · rw [h2]
          exact ⟨10000, by norm_num⟩
        · rw [List.mem_singleton] at h2
          rw [h2]
          exact ⟨4000, by norm_num⟩)
      (by
        unfold validatorLimit
        rw [show ((some (100 : ℚ)).getD ((0 : ℚ) * 12)) = 100 from rfl,
          money_of_isCents ⟨10000, by norm_num⟩]
        norm_num)⟩

/-! ## Filter classification -/

theorem filterClassify_cons (tx : Txn) (inK : Bool) (rest : List (Txn × Bool)) :
    filterClassify ((tx, inK) :: rest) =
      if inK = false then
        ((filterClassify rest).1,
          ⟨tx.date, money tx.amount, outsideKMsg⟩ :: (filterClassify rest).2)
      else if money (tx.adjusted.getD tx.remanent) ≤ 0 then filterClassify rest
      else (⟨tx.date, money tx.amount, money tx.ceiling,
          money (tx.adjusted.getD tx.remanent), true⟩ :: (filterClassify rest).1,
        (filterClassify rest).2) := by
  conv_lhs => unfold filterClassify

theorem filterClassify_eq (pairs : List (Txn × Bool)) :
    filterClassify pairs =
      (pairs.filterMap fValidOf, pairs.filterMap fInvalidOf) := by
  induction pairs with
  | nil => rfl
  | cons pr rest ih =>
    obtain ⟨tx, inK⟩ := pr
    cases inK
    · rw [filterClassify_cons, if_pos rfl, ih,
        List.filterMap_cons_none (by rfl :
          fValidOf (tx, false) = none),
        List.filterMap_cons_some (by rfl :
          fInvalidOf (tx, false) =
            some ⟨tx.date, money tx.amount, outsideKMsg⟩)]
    · rw [filterClassify_cons,
        if_neg (fun h => Bool.noConfusion h), ih]
      by_cases ha : money (tx.adjusted.getD tx.remanent) ≤ 0
      · rw [if_pos ha,
          List.filterMap_cons_none (show fValidOf (tx, true) = none by
            unfold fValidOf
            exact if_neg (fun h => Bool.noConfusion h) |>.trans (if_pos ha)),
          List.filterMap_cons_none (by rfl :
            fInvalidOf (tx, true) = none)]
      · rw [if_neg ha,
          List.filterMap_cons_some
            (show fValidOf (tx, true) = some ⟨tx.date, money tx.amount,
                money tx.ceiling, money (tx.adjusted.getD tx.remanent),
                true⟩ by
              unfold fValidOf
              exact if_neg (fun h => Bool.noConfusion h) |>.trans (if_neg ha)),
          List.filterMap_cons_none (by rfl :
            fInvalidOf (tx, true) = none)]

theorem membershipInK_length (txs : List Txn) (ks : List KPeriod)
    (oidx : Option (List ℕ)) :
    (membershipInK txs ks oidx).length = txs.length := by
  unfold membershipInK
  by_cases h1 : txs.isEmpty
  · rw [if_pos h1, List.isEmpty_iff.mp h1]
    rfl
  · rw [if_neg h1]
    by_cases h2 : ks.isEmpty
    · rw [if_pos h2, List.length_replicate]
    · rw [if_neg h2]
      cases mergeKPeriods ks with
      | nil => rw [List.length_replicate]
      | cons m ms => rw [List.length_map, List.length_range]

theorem applyTemporalRules_preserves_date
    (useDsu : List ℤ → List QPeriod → Bool)
    (txs : List Txn) (qs : List QPeriod) (ps : List PPeriod) (j : ℕ) :
    ((applyTemporalRules useDsu txs qs ps none).getD j default).date =
      (txs.getD j default).date := by
  by_cases hj : j < txs.length
  · rw [applyTemporalRules_getD_match useDsu txs qs ps j hj]
    cases assignOf useDsu txs qs ps (canonicalOrder txs) j with
    | some a => rfl
    | none => rfl
  · have hlen := applyTemporalRules_length useDsu txs qs ps none
    rw [List.getD_eq_default _ _ (by omega), List.getD_eq_default _ _ (by omega)]

theorem adjustedOf_eq (useDsu : List ℤ → List QPeriod → Bool)
    (canonical : List Txn) (qs : List QPeriod) (ps : List PPeriod) :
    adjustedOf useDsu canonical qs ps =
      applyTemporalRules useDsu canonical qs ps none := rfl

theorem fValidOf_eq_some {pr : Txn × Bool} {v : FValid}
    (h : fValidOf pr = some v) :
    pr.2 = true ∧ ¬ money (pr.1.adjusted.getD pr.1.remanent) ≤ 0 ∧
      v = ⟨pr.1.date, money pr.1.amount, money pr.1.ceiling,
        money (pr.1.adjusted.getD pr.1.remanent), true⟩ := by
  unfold fValidOf at h
  by_cases h2 : pr.2 = false
  · rw [if_pos h2] at h
    exact absurd h (by simp)
  · rw [if_neg h2] at h
    by_cases ha : money (pr.1.adjusted.getD pr.1.remanent) ≤ 0
    · rw [if_pos ha] at h
      exact absurd h (by simp)
    · rw [if_neg ha] at h
      refine ⟨by revert h2; cases pr.2 <;> simp, ha, (Option.some.inj h).symm⟩

theorem fInvalidOf_eq_some {pr : Txn × Bool} {iv : FInvalid}
    (h : fInvalidOf pr = some iv) :
    pr.2 = false ∧ iv = ⟨pr.1.date, money pr.1.amount, outsideKMsg⟩ := by
  unfold fInvalidOf at h
  by_cases h2 : pr.2 = false
  · rw [if_pos h2] at h
    exact ⟨h2, (Option.some.inj h).symm⟩
  · rw [if_neg h2] at h
    exact absurd h (by simp)

/-- C7: for every canonical, deduplicated transaction in the filter
pipeline, exactly one scenario holds: its computed K-membership is false
and it lands in `invalid` with the outside-all-ranges message (and no
`valid` record carries its date); or it is in K with adjusted remanent
`≤ 0` and neither output carries its date; or it lands in `valid` with
`remanent` equal to its adjusted remanent and `inKPeriod` true (and no
`invalid` record carries its date). -/
theorem C7_filter_trichotomy (useDsu : List ℤ → List QPeriod → Bool)
    (canonical : List Txn) (qs : List QPeriod) (ps : List PPeriod)
    (ks : List KPeriod)
    (hnd : (canonical.map fun tx => tx.date).Nodup)
    (j : ℕ) (hj : j < canonical.length) :
    ((memOf useDsu canonical qs ps ks).getD j false = false →
      (⟨((adjustedOf useDsu canonical qs ps).getD j default).date,
          money ((adjustedOf useDsu canonical qs ps).getD j default).amount,
          outsideKMsg⟩ : FInvalid) ∈
        (filterCore useDsu canonical qs ps ks).2 ∧
      ∀ v ∈ (filterCore useDsu canonical qs ps ks).1,
        v.date ≠ ((adjustedOf useDsu canonical qs ps).getD j default).date) ∧
    ((memOf useDsu canonical qs ps ks).getD j false = true →
      money (((adjustedOf useDsu canonical qs ps).getD j
            default).adjusted.getD
          ((adjustedOf useDsu canonical qs ps).getD j default).remanent) ≤ 0 →
      (∀ v ∈ (filterCore useDsu canonical qs ps ks).1,
        v.date ≠ ((adjustedOf useDsu canonical qs ps).getD j default).date) ∧
      ∀ iv ∈ (filterCore useDsu canonical qs ps ks).2,
        iv.date ≠ ((adjustedOf useDsu canonical qs ps).getD j default).date) ∧
    ((memOf useDsu canonical qs ps ks).getD j false = true →
      0 < money (((adjustedOf useDsu canonical qs ps).getD j
            default).adjusted.getD
          ((adjustedOf useDsu canonical qs ps).getD j default).remanent) →
      (⟨((adjustedOf useDsu canonical qs ps).getD j default).date,
          money ((adjustedOf useDsu canonical qs ps).getD j default).amount,
          money ((adjustedOf useDsu canonical qs ps).getD j default).ceiling,
          money (((adjustedOf useDsu canonical qs ps).getD j
              default).adjusted.getD
            ((adjustedOf useDsu canonical qs ps).getD j default).remanent),
          true⟩ : FValid) ∈ (filterCore useDsu canonical qs ps ks).1 ∧
      ∀ iv ∈ (filterCore useDsu canonical qs ps ks).2,
        iv.date ≠ ((adjustedOf useDsu canonical qs ps).getD j default).date) := by
  set A := adjustedOf useDsu canonical qs ps with hA
  set M := memOf useDsu canonical qs ps ks with hM
  have hAlen : A.length = canonical.length := by
    rw [hA, adjustedOf_eq]
    exact applyTemporalRules_length useDsu canonical qs ps none
  have hMlen : M.length = A.length := by
    rw [hM]
    unfold memOf
    rw [← hA]
    exact membershipInK_length A ks _
  have hjA : j < A.length := by omega
  have hjM : j < M.length := by omega
  have hjp : j < (A.zip M).length := by
    rw [List.length_zip]
    omega
  have hpj : (A.zip M)[j] = (A[j], M[j]) := List.getElem_zip
  have hAgetD : A.getD j default = A[j] := List.getD_eq_getElem _ _ hjA
  have hMgetD : M.getD j false = M[j] := List.getD_eq_getElem _ _ hjM
  have hcore : filterCore useDsu canonical qs ps ks =
      filterClassify (A.zip M) := by
    rw [hA, hM]
    rfl
  have hval : (filterCore useDsu canonical qs ps ks).1 =
      (A.zip M).filterMap fValidOf := by
    rw [hcore, filterClassify_eq]
  have hinv : (filterCore useDsu canonical qs ps ks).2 =
      (A.zip M).filterMap fInvalidOf := by
    rw [hcore, filterClassify_eq]
  have hdates : (A.map fun tx => tx.date) = canonical.map fun tx => tx.date := by
    refine List.ext_getElem (by rw [List.length_map, List.length_map, hAlen]) ?_
    intro i h1 h2
    have hiA : i < A.length := by
      rw [List.length_map] at h1
      omega
    have hic : i < canonical.length := by omega
    rw [List.getElem_map, List.getElem_map]
    have hpd := applyTemporalRules_preserves_date useDsu canonical qs ps i
    rw [← adjustedOf_eq, ← hA] at hpd
    rw [List.getD_eq_getElem _ _ hiA, List.getD_eq_getElem _ _ hic] at hpd
    exact hpd
  have hndA : (A.map fun tx => tx.date).Nodup := by
    rw [hdates]
    exact hnd
  have hkey : ∀ (i : ℕ) (hi : i < (A.zip M).length),
      ((A.zip M)[i]).1.date = (A.getD j default).date → i = j := by
    intro i hi hdate
    have hiA : i < A.length := by
      rw [List.length_zip] at hi
      omega
    have h1 : ((A.zip M)[i]).1 = A[i] := by rw [List.getElem_zip]
    rw [h1, hAgetD] at hdate
    have hiM : i < (A.map fun tx => tx.date).length := by
      rw [List.length_map]
      omega
    have hjM2 : j < (A.map fun tx => tx.date).length := by
      rw [List.length_map]
      omega
    have h2 : (A.map fun tx => tx.date)[i] = (A.map fun tx => tx.date)[j] := by
      rw [List.getElem_map, List.getElem_map]
      exact hdate
    exact (List.Nodup.getElem_inj_iff hndA).mp h2
  have hvalid_char : ∀ v ∈ (filterCore useDsu canonical qs ps ks).1,
      v.date = (A.getD j default).date →
      M[j] = true ∧
        ¬ money ((A.getD j default).adjusted.getD
          (A.getD j default).remanent) ≤ 0 := by
    intro v hv hvd
    rw [hval] at hv
    obtain ⟨pr, hpr, hsome⟩ := List.mem_filterMap.mp hv
    obtain ⟨htrue, hagt, hveq⟩ := fValidOf_eq_some hsome
    obtain ⟨i, hi, hieq⟩ := List.mem_iff_getElem.mp hpr
    have hvd2 : pr.1.date = (A.getD j default).date := by
      rw [hveq] at hvd
      exact hvd
    have hij : i = j := hkey i hi (by rw [hieq]; exact hvd2)
    subst hij
    have hpr2 : pr = (A[i], M[i]) := by
      rw [← hieq, hpj]
    rw [hpr2] at htrue hagt
    rw [hAgetD]
    exact ⟨htrue, hagt⟩
  have hinv_char : ∀ iv ∈ (filterCore useDsu canonical qs ps ks).2,
      iv.date = (A.getD j default).date → M[j] = false := by
    intro iv hiv hivd
    rw [hinv] at hiv
    obtain ⟨pr, hpr, hsome⟩ := List.mem_filterMap.mp hiv
    obtain ⟨hfalse, hiveq⟩ := fInvalidOf_eq_some hsome
    obtain ⟨i, hi, hieq⟩ := List.mem_iff_getElem.mp hpr
    have hivd2 : pr.1.date = (A.getD j default).date := by
      rw [hiveq] at hivd
      exact hivd
    have hij : i = j := hkey i hi (by rw [hieq]; exact hivd2)
    subst hij
    have hpr2 : pr = (A[i], M[i]) := by
      rw [← hieq, hpj]
    rw [hpr2] at hfalse
    exact hfalse
  refine ⟨fun hm => ?_, fun hm ha => ?_, fun hm ha => ?_⟩
  · have hMj : M[j] = false := by
      rw [← hMgetD]
      exact hm
    have hfi : fInvalidOf ((A.zip M)[j]) =
        some ⟨(A.getD j default).date,
          money (A.getD j default).amount, outsideKMsg⟩ := by
      rw [hAgetD, hpj, hMj]
      rfl
    constructor
    · rw [hinv]
      exact List.mem_filterMap.mpr ⟨_, List.getElem_mem hjp, hfi⟩
    · intro v hv hvd
      have := (hvalid_char v hv hvd).1
      rw [hMj] at this
      exact Bool.noConfusion this
  · have hMj : M[j] = true := by
      rw [← hMgetD]
      exact hm
    refine ⟨fun v hv hvd => ?_, fun iv hiv hivd => ?_⟩
    · exact absurd ha (hvalid_char v hv hvd).2
    · have := hinv_char iv hiv hivd
      rw [hMj] at this
      exact Bool.noConfusion this
  · have hMj : M[j] = true := by
      rw [← hMgetD]
      exact hm
    have ha2 : 0 < money ((A[j]).adjusted.getD (A[j]).remanent) := by
      rw [← hAgetD]
      exact ha
    constructor
    · have hfv : fValidOf ((A.zip M)[j]) =
          some ⟨(A.getD j default).date,
            money (A.getD j default).amount,
            money (A.getD j default).ceiling,
            money ((A.getD j default).adjusted.getD
              (A.getD j default).remanent), true⟩ := by
        rw [hAgetD, hpj, hMj]
        unfold fValidOf
        rw [if_neg (fun h => Bool.noConfusion h), if_neg (not_le.mpr ha2)]
      rw [hval]
      exact List.mem_filterMap.mpr ⟨_, List.getElem_mem hjp, hfv⟩
    · intro iv hiv hivd
      have := hinv_char iv hiv hivd
      rw [hMj] at this
      exact Bool.noConfusion this

/-- C7 witness: a single transaction whose epoch lies outside the one
K-interval, with the Nodup and index hypotheses discharged. -/
theorem C7_witness :
    ((c7C.map fun tx => tx.date).Nodup) ∧ ((0 : ℕ) < c7C.length) ∧
    (    ((memOf c7U c7C ([] : List QPeriod) ([] : List PPeriod) c7K).getD 0 false = false →
      (⟨((adjustedOf c7U c7C ([] : List QPeriod) ([] : List PPeriod)).getD 0 default).date,
          money ((adjustedOf c7U c7C ([] : List QPeriod) ([] : List PPeriod)).getD 0 default).amount,
          outsideKMsg⟩ : FInvalid) ∈
        (filterCore c7U c7C ([] : List QPeriod) ([] : List PPeriod) c7K).2 ∧
      ∀ v ∈ (filterCore c7U c7C ([] : List QPeriod) ([] : List PPeriod) c7K).1,
        v.date ≠ ((adjustedOf c7U c7C ([] : List QPeriod) ([] : List PPeriod)).getD 0 default).date) ∧
    ((memOf c7U c7C ([] : List QPeriod) ([] : List PPeriod) c7K).getD 0 false = true →
      money (((adjustedOf c7U c7C ([] : List QPeriod) ([] : List PPeriod)).getD 0
            default).adjusted.getD
          ((adjustedOf c7U c7C ([] : List QPeriod) ([] : List PPeriod)).getD 0 default).remanent) ≤ 0 →
      (∀ v ∈ (filterCore c7U c7C ([] : List QPeriod) ([] : List PPeriod) c7K).1,
        v.date ≠ ((adjustedOf c7U c7C ([] : List QPeriod) ([] : List PPeriod)).getD 0 default).date) ∧
      ∀ iv ∈ (filterCore c7U c7C ([] : List QPeriod) ([] : List PPeriod) c7K).2,
        iv.date ≠ ((adjustedOf c7U c7C ([] : List QPeriod) ([] : List PPeriod)).getD 0 default).date) ∧
    ((memOf c7U c7C ([] : List QPeriod) ([] : List PPeriod) c7K).getD 0 false = true →
      0 < money (((adjustedOf c7U c7C ([] : List QPeriod) ([] : List PPeriod)).getD 0
            default).adjusted.getD
          ((adjustedOf c7U c7C ([] : List QPeriod) ([] : List PPeriod)).getD 0 default).remanent) →
      (⟨((adjustedOf c7U c7C ([] : List QPeriod) ([] : List PPeriod)).getD 0 default).date,
          money ((adjustedOf c7U c7C ([] : List QPeriod) ([] : List PPeriod)).getD 0 default).amount,
          money ((adjustedOf c7U c7C ([] : List QPeriod) ([] : List PPeriod)).getD 0 default).ceiling,
          money (((adjustedOf c7U c7C ([] : List QPeriod) ([] : List PPeriod)).getD 0
              default).adjusted.getD
            ((adjustedOf c7U c7C ([] : List QPeriod) ([] : List PPeriod)).getD 0 default).remanent),
          true⟩ : FValid) ∈ (filterCore c7U c7C ([] : List QPeriod) ([] : List PPeriod) c7K).1 ∧
      ∀ iv ∈ (filterCore c7U c7C ([] : List QPeriod) ([] : List PPeriod) c7K).2,
        iv.date ≠ ((adjustedOf c7U c7C ([] : List QPeriod) ([] : List PPeriod)).getD 0 default).date)) :=
  ⟨by decide, by decide,
    C7_filter_trichotomy c7U c7C [] [] c7K (by decide) 0 (by decide)⟩

/-! ## K-interval merging and membership -/

theorem mergeLoop_nil (cs ce : ℤ) : mergeLoop cs ce [] = [(cs, ce)] := rfl

theorem mergeLoop_cons (cs ce s e : ℤ) (rest : List (ℤ × ℤ)) :
    mergeLoop cs ce ((s, e) :: rest) =
      if s ≤ ce + 1 then mergeLoop cs (if ce < e then e else ce) rest
      else (cs, ce) :: mergeLoop s e rest := by
  conv_lhs => unfold mergeLoop

theorem mergeLoop_spec :
    ∀ (l : List (ℤ × ℤ)) (cs ce : ℤ), cs ≤ ce →
      (∀ iv ∈ l, iv.1 ≤ iv.2) →
      (∀ iv ∈ l, cs ≤ iv.1) →
      l.Pairwise (fun a b => a.1 ≤ b.1) →
      (∀ iv ∈ mergeLoop cs ce l, iv.1 ≤ iv.2) ∧
        (∀ iv ∈ mergeLoop cs ce l, cs ≤ iv.1) ∧
        (mergeLoop cs ce l).Pairwise (fun a b => a.2 + 1 < b.1) ∧
        ∀ t : ℤ, (∃ iv ∈ mergeLoop cs ce l, iv.1 ≤ t ∧ t ≤ iv.2) ↔
          (cs ≤ t ∧ t ≤ ce) ∨ ∃ iv ∈ l, iv.1 ≤ t ∧ t ≤ iv.2 := by
  intro l
  induction l with
  | nil =>
    intro cs ce hce _ _ _
    rw [mergeLoop_nil]
    refine ⟨?_, ?_, ?_, fun t => ?_⟩
    · intro iv hiv
      rw [List.mem_singleton] at hiv
      rw [hiv]
      exact hce
    · intro iv hiv
      rw [List.mem_singleton] at hiv
      rw [hiv]
    · simp
    · rw [List.exists_mem_cons_iff]
  | cons hd rest ih =>
    intro cs ce hce hvalid hstart hsort
    obtain ⟨s, e⟩ := hd
    have hse : s ≤ e := hvalid (s, e) (List.mem_cons_self ..)
    have hcss : cs ≤ s := hstart (s, e) (List.mem_cons_self ..)
    have hstail : ∀ iv ∈ rest, s ≤ iv.1 := (List.pairwise_cons.mp hsort).1
    have hvtail : ∀ iv ∈ rest, iv.1 ≤ iv.2 :=
      fun iv hiv => hvalid iv (List.mem_cons_of_mem _ hiv)
    have hcstail : ∀ iv ∈ rest, cs ≤ iv.1 :=
      fun iv hiv => hstart iv (List.mem_cons_of_mem _ hiv)
    have hsorttail := (List.pairwise_cons.mp hsort).2
    rw [mergeLoop_cons]
    by_cases hm : s ≤ ce + 1
    · rw [if_pos hm]
      have hce2 : cs ≤ (if ce < e then e else ce) := by
        by_cases h2 : ce < e
        · rw [if_pos h2]
          omega
        · rw [if_neg h2]
          exact hce
      obtain ⟨r1, r2, r3, r4⟩ :=
        ih cs (if ce < e then e else ce) hce2 hvtail hcstail hsorttail
      refine ⟨r1, r2, r3, fun t => ?_⟩
      rw [r4 t, List.exists_mem_cons_iff]
      by_cases h2 : ce < e
      · rw [if_pos h2] at *
        constructor
        · rintro (h | h)
          · by_cases h3 : t ≤ ce
            · exact Or.inl ⟨h.1, h3⟩
            · exact Or.inr (Or.inl ⟨by omega, h.2⟩)
          · exact Or.inr (Or.inr h)
        · rintro (h | h | h)
          · exact Or.inl ⟨h.1, by omega⟩
          · exact Or.inl ⟨by omega, h.2⟩
          · exact Or.inr h
      · rw [if_neg h2] at *
        constructor
        · rintro (h | h)
          · exact Or.inl h
          · exact Or.inr (Or.inr h)
        · rintro (h | h | h)
          · exact Or.inl h
          · exact Or.inl ⟨by omega, by omega⟩
          · exact Or.inr h
    · rw [if_neg hm]
      obtain ⟨r1, r2, r3, r4⟩ := ih s e hse hvtail hstail hsorttail
      refine ⟨?_, ?_, ?_, fun t => ?_⟩
      · intro iv hiv
        rcases List.mem_cons.mp hiv with h | h
        · rw [h]
          exact hce
        · exact r1 iv h
      · intro iv hiv
        rcases List.mem_cons.mp hiv with h | h
        · rw [h]
        · exact le_trans hcss (r2 iv h)
      · rw [List.pairwise_cons]
        refine ⟨fun iv hiv => ?_, r3⟩
        have := r2 iv hiv
        omega
      · rw [List.exists_mem_cons_iff, r4 t, List.exists_mem_cons_iff]
  termination_by l => l.length

theorem mergeKPeriods_spec (ks : List KPeriod)
    (hks : ∀ k ∈ ks, k.startEpoch ≤ k.endEpoch) :
    (∀ iv ∈ mergeKPeriods ks, iv.1 ≤ iv.2) ∧
      (mergeKPeriods ks).Pairwise (fun a b => a.2 + 1 < b.1) ∧
      ∀ t : ℤ, (∃ iv ∈ mergeKPeriods ks, iv.1 ≤ t ∧ t ≤ iv.2) ↔
        ∃ k ∈ ks, kContains t k := by
  unfold mergeKPeriods
  cases hs : sortByKey (fun iv : ℤ × ℤ => (toLex iv : ℤ ×ₗ ℤ))
      (ks.map fun k => (k.startEpoch, k.endEpoch)) with
  | nil =>
    have hp := sortByKey_perm (fun iv : ℤ × ℤ => (toLex iv : ℤ ×ₗ ℤ))
      (ks.map fun k => (k.startEpoch, k.endEpoch))
    rw [hs] at hp
    have hmap : ks.map (fun k => (k.startEpoch, k.endEpoch)) = [] :=
      hp.nil_eq.symm
    have hks0 : ks = [] := List.map_eq_nil_iff.mp hmap
    subst hks0
    refine ⟨by simp, by simp, fun t => by simp⟩
  | cons hd tl =>
    obtain ⟨s, e⟩ := hd
    have hmem : ∀ iv ∈ (s, e) :: tl,
        iv ∈ ks.map fun k => (k.startEpoch, k.endEpoch) := by
      intro iv hiv
      rw [← hs] at hiv
      exact mem_sortByKey.mp hiv
    have hvalid : ∀ iv ∈ (s, e) :: tl, iv.1 ≤ iv.2 := by
      intro iv hiv
      obtain ⟨k, hk, hkeq⟩ := List.mem_map.mp (hmem iv hiv)
      rw [← hkeq]
      exact hks k hk
    have hsort0 : ((s, e) :: tl).Pairwise (fun a b : ℤ × ℤ => a.1 ≤ b.1) := by
      have hss := sortByKey_sorted (fun iv : ℤ × ℤ => (toLex iv : ℤ ×ₗ ℤ))
        (ks.map fun k => (k.startEpoch, k.endEpoch))
      rw [hs] at hss
      refine hss.imp ?_
      intro a b hab
      rcases (Prod.Lex.le_iff _ _).mp hab with h | ⟨h, _⟩
      · exact le_of_lt h
      · exact le_of_eq h
    have hse : s ≤ e := hvalid (s, e) (List.mem_cons_self ..)
    obtain ⟨r1, r2, r3, r4⟩ := mergeLoop_spec tl s e hse
      (fun iv hiv => hvalid iv (List.mem_cons_of_mem _ hiv))
      (List.pairwise_cons.mp hsort0).1 (List.pairwise_cons.mp hsort0).2
    refine ⟨r1, r3, fun t => ?_⟩
    rw [r4 t]
    constructor
    · rintro (h | ⟨iv, hiv, hc⟩)
      · obtain ⟨k, hk, hkeq⟩ :=
          List.mem_map.mp (hmem (s, e) (List.mem_cons_self ..))
        refine ⟨k, hk, ?_⟩
        have h1 : k.startEpoch = s := congrArg Prod.fst hkeq
        have h2 : k.endEpoch = e := congrArg Prod.snd hkeq
        exact ⟨by omega, by omega⟩
      · obtain ⟨k, hk, hkeq⟩ :=
          List.mem_map.mp (hmem iv (List.mem_cons_of_mem _ hiv))
        refine ⟨k, hk, ?_⟩
        rw [← hkeq] at hc
        exact hc
    · rintro ⟨k, hk, hc⟩
      have hmem2 : (k.startEpoch, k.endEpoch) ∈ (s, e) :: tl := by
        rw [← hs]
        exact mem_sortByKey.mpr (List.mem_map.mpr ⟨k, hk, rfl⟩)
      obtain ⟨hc1, hc2⟩ := hc
      rcases List.mem_cons.mp hmem2 with h | h
      · left
        have h1 : k.startEpoch = s := congrArg Prod.fst h
        have h2 : k.endEpoch = e := congrArg Prod.snd h
        exact ⟨by omega, by omega⟩
      · right
        exact ⟨(k.startEpoch, k.endEpoch), h, ⟨hc1, hc2⟩⟩

theorem sweepK_nil (txs : List Txn) (ms : List (ℤ × ℤ)) (mem : ℕ → Bool) :
    sweepK txs [] ms mem = mem := rfl

theorem sweepK_cons (txs : List Txn) (i : ℕ) (rest : List ℕ)
    (ms : List (ℤ × ℤ)) (mem : ℕ → Bool) :
    sweepK txs (i :: rest) ms mem =
      match ms.dropWhile fun iv =>
          decide (iv.2 < (txs.getD i default).epoch) with
      | [] => sweepK txs rest [] mem
      | (s, e) :: tl =>
        sweepK txs rest ((s, e) :: tl)
          (Function.update mem i (decide (s ≤ (txs.getD i default).epoch ∧
            (txs.getD i default).epoch ≤ e))) := by
  conv_lhs => unfold sweepK

theorem sweepK_spec (txs : List Txn) (merged : List (ℤ × ℤ))
    (hpair : merged.Pairwise (fun a b => a.2 + 1 < b.1)) :
    ∀ (idx : List ℕ) (done ms : List (ℤ × ℤ)) (mem : ℕ → Bool),
      merged = done ++ ms →
      (∀ iv ∈ done, ∀ i ∈ idx, iv.2 < (txs.getD i default).epoch) →
      idx.Pairwise (fun a b =>
        (txs.getD a default).epoch ≤ (txs.getD b default).epoch) →
      idx.Nodup →
      (∀ i ∈ idx, mem i = false) →
      ∀ j, sweepK txs idx ms mem j =
        if j ∈ idx then
          decide (∃ iv ∈ merged, iv.1 ≤ (txs.getD j default).epoch ∧
            (txs.getD j default).epoch ≤ iv.2)
        else mem j := by
  intro idx
  induction idx with
  | nil =>
    intro done ms mem hsplit hdone hsorted hnd hmem j
    rw [sweepK_nil, if_neg (List.not_mem_nil j)]
  | cons i rest ih =>
    intro done ms mem hsplit hdone hsorted hnd hmem j
    rw [sweepK_cons]
    have hms : ms = (ms.takeWhile fun iv =>
        decide (iv.2 < (txs.getD i default).epoch)) ++
        ms.dropWhile fun iv => decide (iv.2 < (txs.getD i default).epoch) :=
      (List.takeWhile_append_dropWhile ..).symm
    have hd2 : ∀ iv ∈ ms.takeWhile fun iv =>
        decide (iv.2 < (txs.getD i default).epoch),
        iv.2 < (txs.getD i default).epoch := by
      intro iv hiv
      have hp := List.mem_takeWhile_imp hiv
      exact of_decide_eq_true hp
    have hsorted2 := (List.pairwise_cons.mp hsorted).2
    have hts : ∀ i' ∈ rest,
        (txs.getD i default).epoch ≤ (txs.getD i' default).epoch :=
      (List.pairwise_cons.mp hsorted).1
    have hnd2 := (List.nodup_cons.mp hnd).2
    have hinotrest : i ∉ rest := (List.nodup_cons.mp hnd).1
    have hdonei : ∀ iv ∈ done ++ ms.takeWhile fun iv =>
        decide (iv.2 < (txs.getD i default).epoch),
        iv.2 < (txs.getD i default).epoch := by
      intro iv hiv
      rcases List.mem_append.mp hiv with h | h
      · exact hdone iv h i (List.mem_cons_self ..)
      · exact hd2 iv h
    have hdone2 : ∀ iv ∈ done ++ ms.takeWhile fun iv =>
        decide (iv.2 < (txs.getD i default).epoch),
        ∀ i' ∈ rest, iv.2 < (txs.getD i' default).epoch := by
      intro iv hiv i' hi'
      exact lt_of_lt_of_le (hdonei iv hiv) (hts i' hi')
    cases hdw : ms.dropWhile fun iv =>
        decide (iv.2 < (txs.getD i default).epoch) with
    | nil =>
      have hms2 : ms = ms.takeWhile fun iv =>
          decide (iv.2 < (txs.getD i default).epoch) := by
        conv_lhs => rw [hms]
        rw [hdw, List.append_nil]
      have hsplit2 : merged = (done ++ ms.takeWhile fun iv =>
          decide (iv.2 < (txs.getD i default).epoch)) ++ [] := by
        rw [List.append_nil, hsplit]
        conv_lhs => rw [hms2]
      have hres := ih (done ++ ms.takeWhile fun iv =>
          decide (iv.2 < (txs.getD i default).epoch)) [] mem hsplit2 hdone2
        hsorted2 hnd2 (fun i' hi' => hmem i' (List.mem_cons_of_mem _ hi')) j
      show sweepK txs rest [] mem j = _
      rw [hres]
      by_cases hji : j = i
      · subst hji
        rw [if_neg hinotrest, if_pos (List.mem_cons_self ..),
          hmem j (List.mem_cons_self ..)]
        symm
        refine decide_eq_false ?_
        rintro ⟨iv, hiv, hc1, hc2⟩
        rw [hsplit2, List.append_nil] at hiv
        exact absurd hc2 (not_le.mpr (hdonei iv hiv))
      · by_cases hjr : j ∈ rest
        · rw [if_pos hjr, if_pos (List.mem_cons_of_mem _ hjr)]
        · have hjc : j ∉ i :: rest := by
            intro hc
            rcases List.mem_cons.mp hc with h | h
            · exact hji h
            · exact hjr h
          rw [if_neg hjr, if_neg hjc]
    | cons hd3 tl3 =>
      obtain ⟨s, e⟩ := hd3
      have hehead : ¬ ((s, e).2 < (txs.getD i default).epoch) := by
        have hh := List.head?_dropWhile_not (fun iv =>
          decide (iv.2 < (txs.getD i default).epoch)) ms
        rw [hdw] at hh
        simpa using hh
      have hms2 : ms = (ms.takeWhile fun iv =>
          decide (iv.2 < (txs.getD i default).epoch)) ++ (s, e) :: tl3 := by
        conv_lhs => rw [hms]
        rw [hdw]
      have hsplit2 : merged = (done ++ ms.takeWhile fun iv =>
          decide (iv.2 < (txs.getD i default).epoch)) ++ (s, e) :: tl3 := by
        rw [hsplit]
        conv_lhs => rw [hms2]
        rw [List.append_assoc]
      have hmem2 : ∀ i' ∈ rest, Function.update mem i
          (decide (s ≤ (txs.getD i default).epoch ∧
            (txs.getD i default).epoch ≤ e)) i' = false := by
        intro i' hi'
        rw [Function.update_noteq (fun hc => hinotrest
          (by rw [← hc]; exact hi'))]
        exact hmem i' (List.mem_cons_of_mem _ hi')
      have hres := ih (done ++ ms.takeWhile fun iv =>
          decide (iv.2 < (txs.getD i default).epoch)) ((s, e) :: tl3)
        (Function.update mem i (decide (s ≤ (txs.getD i default).epoch ∧
          (txs.getD i default).epoch ≤ e)))
        hsplit2 hdone2 hsorted2 hnd2 hmem2 j
      show sweepK txs rest ((s, e) :: tl3) (Function.update mem i
        (decide (s ≤ (txs.getD i default).epoch ∧
          (txs.getD i default).epoch ≤ e))) j = _
      rw [hres]
      by_cases hji : j = i
      · subst hji
        rw [if_neg hinotrest, if_pos (List.mem_cons_self ..),
          Function.update_same]
        refine decide_eq_decide.mpr ?_
        constructor
        · intro hc
          refine ⟨(s, e), ?_, hc⟩
          rw [hsplit2]
          exact List.mem_append_right _ (List.mem_cons_self ..)
        · rintro ⟨iv, hiv, hc1, hc2⟩
          rw [hsplit2] at hiv
          rcases List.mem_append.mp hiv with h | h
          · exact absurd hc2 (not_le.mpr (hdonei iv h))
          · rcases List.mem_cons.mp h with h2 | h2
            · rw [h2] at hc1 hc2
              exact ⟨hc1, hc2⟩
            · have hgap : (s, e).2 + 1 < iv.1 := by
                have hp2 := hpair
                rw [hsplit2] at hp2
                exact (List.pairwise_cons.mp
                  (List.pairwise_append.mp hp2).2.1).1 iv h2
              have hgap2 : e + 1 < iv.1 := hgap
              have he2 : ¬ (e < (txs.getD j default).epoch) := hehead
              exact absurd hc1 (by omega)
      · by_cases hjr : j ∈ rest
        · rw [if_pos hjr, if_pos (List.mem_cons_of_mem _ hjr)]
        · have hjc : j ∉ i :: rest := by
            intro hc
            rcases List.mem_cons.mp hc with h | h
            · exact hji h
            · exact hjr h
          rw [if_neg hjr, if_neg hjc, Function.update_noteq hji]

theorem membershipInK_spec (txs : List Txn) (ks : List KPeriod)
    (hks : ∀ k ∈ ks, k.startEpoch ≤ k.endEpoch) (hne : ks ≠ [])
    (j : ℕ) (hj : j < txs.length) :
    (membershipInK txs ks none).getD j false =
      decide (∃ k ∈ ks, kContains (txs.getD j default).epoch k) := by
  obtain ⟨hval, hpair, hunion⟩ := mergeKPeriods_spec ks hks
  have htne : ¬ txs.isEmpty := by
    intro h
    rw [List.isEmpty_iff.mp h] at hj
    simp at hj
  have hkne : ¬ ks.isEmpty := fun h => hne (List.isEmpty_iff.mp h)
  unfold membershipInK
  rw [if_neg htne, if_neg hkne]
  cases hmk : mergeKPeriods ks with
  | nil =>
    exfalso
    obtain ⟨k, hk⟩ := List.exists_mem_of_ne_nil ks hne
    have hex : ∃ iv ∈ mergeKPeriods ks,
        iv.1 ≤ k.startEpoch ∧ k.startEpoch ≤ iv.2 :=
      (hunion k.startEpoch).mpr ⟨k, hk, le_refl _, hks k hk⟩
    rw [hmk] at hex
    simpa using hex
  | cons m ms =>
    rw [hmk] at hpair hunion
    have hsorted : (canonicalOrder txs).Pairwise (fun a b =>
        (txs.getD a default).epoch ≤ (txs.getD b default).epoch) := by
      have hst := orderedTimes_sorted txs
      unfold orderedTimesOf at hst
      exact List.pairwise_map.mp hst
    have hspec := sweepK_spec txs (m :: ms) hpair (canonicalOrder txs) []
      (m :: ms) (fun _ => false) rfl (by simp) hsorted
      (canonicalOrder_nodup txs) (fun _ _ => rfl) j
    show ((List.range txs.length).map
      (sweepK txs (canonicalOrder txs) (m :: ms) fun _ => false)).getD
        j false = _
    rw [List.getD_eq_getElem _ _
      (by rw [List.length_map, List.length_range]; exact hj)]
    have hgoal : ∀ (hh : j < ((List.range txs.length).map
        (sweepK txs (canonicalOrder txs) (m :: ms) fun _ => false)).length),
        ((List.range txs.length).map
          (sweepK txs (canonicalOrder txs) (m :: ms) fun _ => false))[j] =
        sweepK txs (canonicalOrder txs) (m :: ms) (fun _ => false) j := by
      intro hh
      rw [List.getElem_map, List.getElem_range j
        (by simp only [List.length_range]; exact hj)]
    rw [hgoal _, hspec, if_pos (canonicalOrder_mem.mpr hj)]
    exact decide_eq_decide.mpr (hunion _)

/-- C5 counterexample: with an empty K list the code returns membership
True for every transaction, although the union of zero K-intervals is
empty, so "true iff the epoch lies inside the union" fails for the empty
list. -/
theorem C5_counterexample :
    membershipInK [⟨"2023-01-01 00:00", 10, 75, 100, 25, none⟩] [] none =
        [true] ∧
      ¬ ∃ k ∈ ([] : List KPeriod), kContains 10 k := by
  constructor
  · rfl
  · rintro ⟨k, hk, _⟩
    exact (List.not_mem_nil k) hk

/-- C5 (amended): for a NONEMPTY K list with well-formed intervals,
merging overlapping-or-touching intervals preserves exactly the integer
epochs covered, and a transaction's K-membership bit is true iff its epoch
lies inside the union of the K-intervals.  (The original claim also
asserted this for the empty K list, where the code instead marks every
transaction as a member — see the counterexample.) -/
theorem C5_k_membership (txs : List Txn) (ks : List KPeriod)
    (hks : ∀ k ∈ ks, k.startEpoch ≤ k.endEpoch) (hne : ks ≠ []) :
    (∀ t : ℤ, (∃ iv ∈ mergeKPeriods ks, iv.1 ≤ t ∧ t ≤ iv.2) ↔
        ∃ k ∈ ks, kContains t k) ∧
      ∀ j, j < txs.length →
        ((membershipInK txs ks none).getD j false = true ↔
          ∃ k ∈ ks, kContains (txs.getD j default).epoch k) := by
  refine ⟨(mergeKPeriods_spec ks hks).2.2, fun j hj => ?_⟩
  rw [membershipInK_spec txs ks hks hne j hj]
  exact decide_eq_true_iff ..

/-- C5 witness: two transactions, one inside the union of two K-intervals
and one in the gap between them, at concrete values. -/
theorem C5_witness :
    (∀ k ∈ ([⟨"a", "b", 0, 5⟩, ⟨"c", "d", 8, 12⟩] : List KPeriod),
        k.startEpoch ≤ k.endEpoch) ∧
      ([⟨"a", "b", 0, 5⟩, ⟨"c", "d", 8, 12⟩] : List KPeriod) ≠ [] ∧
      ((∀ t : ℤ, (∃ iv ∈ mergeKPeriods [⟨"a", "b", 0, 5⟩, ⟨"c", "d", 8, 12⟩],
            iv.1 ≤ t ∧ t ≤ iv.2) ↔
          ∃ k ∈ ([⟨"a", "b", 0, 5⟩, ⟨"c", "d", 8, 12⟩] : List KPeriod),
            kContains t k) ∧
        ∀ j, j < ([⟨"x", 10, 75, 100, 25, none⟩,
            ⟨"y", 7, 75, 100, 25, none⟩] : List Txn).length →
          ((membershipInK [⟨"x", 10, 75, 100, 25, none⟩,
              ⟨"y", 7, 75, 100, 25, none⟩]
              [⟨"a", "b", 0, 5⟩, ⟨"c", "d", 8, 12⟩] none).getD j false = true ↔
            ∃ k ∈ ([⟨"a", "b", 0, 5⟩, ⟨"c", "d", 8, 12⟩] : List KPeriod),
              kContains (([⟨"x", 10, 75, 100, 25, none⟩,
                ⟨"y", 7, 75, 100, 25, none⟩] : List Txn).getD
                  j default).epoch k)) :=
  ⟨by decide, by decide,
    C5_k_membership [⟨"x", 10, 75, 100, 25, none⟩, ⟨"y", 7, 75, 100, 25, none⟩]
      [⟨"a", "b", 0, 5⟩, ⟨"c", "d", 8, 12⟩] (by decide) (by decide)⟩

/-! ## Timestamp parsing -/

theorem parse_eq (value : List Char) :
    parse_timestamp_to_epoch value =
      if (pyStrip value).isEmpty then none
      else if ¬ ((pyStrip value).length = 16 ∨ (pyStrip value).length = 19)
        then none
      else if ¬ ((pyStrip value).getD 4 'X' = '-' ∧
          (pyStrip value).getD 7 'X' = '-' ∧
          (pyStrip value).getD 10 'X' = ' ' ∧
          (pyStrip value).getD 13 'X' = ':' ∧
          ((pyStrip value).length = 19 → (pyStrip value).getD 16 'X' = ':'))
        then none
      else parseTail (pyStrip value) (sliceInt (pyStrip value) 0 4)
        (sliceInt (pyStrip value) 5 7) (sliceInt (pyStrip value) 8 10)
        (sliceInt (pyStrip value) 11 13) (sliceInt (pyStrip value) 14 16)
        (if (pyStrip value).length = 19 then sliceInt (pyStrip value) 17 19
          else some 0) := rfl

theorem parseTail_inv {cleaned : List Char}
    {s1 s2 s3 s4 s5 s6 : Option ℤ} {out : List Char × ℤ}
    (hout : parseTail cleaned s1 s2 s3 s4 s5 s6 = some out) :
    ∃ y mo d h mi s : ℤ, s1 = some y ∧ s2 = some mo ∧ s3 = some d ∧
      s4 = some h ∧ s5 = some mi ∧ s6 = some s ∧
      validDateTime y mo d h mi s ∧
      out = ((if cleaned.length = 19 then cleaned
        else cleaned ++ [':', '0', '0']), utcEpoch y mo d h mi s) := by
  cases s1 with
  | none => exact Option.noConfusion hout
  | some y =>
  cases s2 with
  | none => exact Option.noConfusion hout
  | some mo =>
  cases s3 with
  | none => exact Option.noConfusion hout
  | some d =>
  cases s4 with
  | none => exact Option.noConfusion hout
  | some h =>
  cases s5 with
  | none => exact Option.noConfusion hout
  | some mi =>
  cases s6 with
  | none => exact Option.noConfusion hout
  | some s =>
  have hred : parseTail cleaned (some y) (some mo) (some d) (some h)
      (some mi) (some s) =
      if validDateTime y mo d h mi s then
        some ((if cleaned.length = 19 then cleaned
               else cleaned ++ [':', '0', '0']), utcEpoch y mo d h mi s)
      else none := rfl
  by_cases hv : validDateTime y mo d h mi s
  · rw [hred, if_pos hv] at hout
    exact ⟨y, mo, d, h, mi, s, rfl, rfl, rfl, rfl, rfl, rfl, hv,
      (Option.some.inj hout).symm⟩
  · rw [hred, if_neg hv] at hout
    exact Option.noConfusion hout

/-- C9 counterexample: a 17-character input (leading space) parses
successfully because the code strips surrounding whitespace before the
length check, contradicting "succeeds exactly on strings of length 16 or
19". -/
theorem C9_counterexample :
    (' ' :: String.toList "2023-01-01 00:00").length = 17 ∧
      (parse_timestamp_to_epoch
        (' ' :: String.toList "2023-01-01 00:00")).isSome = true := by
  constructor
  · rfl
  · decide

/-- C9 (amended): `parse_timestamp_to_epoch` strips surrounding whitespace
first — so inputs of other lengths can succeed (see the counterexample) —
and then succeeds exactly when the STRIPPED string has length 16 or 19,
the separators at positions 4, 7, 10, 13 (and 16) match, the component
slices parse as Python integers, and the components form a real calendar
instant; on success the 16-character form is normalized by appending ":00"
and the returned epoch is the integer UTC interpretation of the
instant. -/
theorem C9_parse_timestamp (value : List Char) :
    ((parse_timestamp_to_epoch value).isSome = true ↔
      (((pyStrip value).length = 16 ∨ (pyStrip value).length = 19) ∧
        ((pyStrip value).getD 4 'X' = '-' ∧
          (pyStrip value).getD 7 'X' = '-' ∧
          (pyStrip value).getD 10 'X' = ' ' ∧
          (pyStrip value).getD 13 'X' = ':' ∧
          ((pyStrip value).length = 19 → (pyStrip value).getD 16 'X' = ':')) ∧
        ∃ y mo d h mi s : ℤ,
          sliceInt (pyStrip value) 0 4 = some y ∧
          sliceInt (pyStrip value) 5 7 = some mo ∧
          sliceInt (pyStrip value) 8 10 = some d ∧
          sliceInt (pyStrip value) 11 13 = some h ∧
          sliceInt (pyStrip value) 14 16 = some mi ∧
          (if (pyStrip value).length = 19 then sliceInt (pyStrip value) 17 19
            else some 0) = some s ∧
          validDateTime y mo d h mi s)) ∧
      ∀ y mo d h mi s : ℤ,
        ((pyStrip value).length = 16 ∨ (pyStrip value).length = 19) →
        ((pyStrip value).getD 4 'X' = '-' ∧
          (pyStrip value).getD 7 'X' = '-' ∧
          (pyStrip value).getD 10 'X' = ' ' ∧
          (pyStrip value).getD 13 'X' = ':' ∧
          ((pyStrip value).length = 19 → (pyStrip value).getD 16 'X' = ':')) →
        sliceInt (pyStrip value) 0 4 = some y →
        sliceInt (pyStrip value) 5 7 = some mo →
        sliceInt (pyStrip value) 8 10 = some d →
        sliceInt (pyStrip value) 11 13 = some h →
        sliceInt (pyStrip value) 14 16 = some mi →
        (if (pyStrip value).length = 19 then sliceInt (pyStrip value) 17 19
          else some 0) = some s →
        validDateTime y mo d h mi s →
        parse_timestamp_to_epoch value =
          some ((if (pyStrip value).length = 19 then pyStrip value
            else pyStrip value ++ [':', '0', '0']),
            utcEpoch y mo d h mi s) := by
  have hemp_of : ((pyStrip value).length = 16 ∨ (pyStrip value).length = 19) →
      ¬ (pyStrip value).isEmpty = true := by
    intro hl hc
    rw [List.isEmpty_iff.mp hc] at hl
    simp at hl
  constructor
  · by_cases hemp : (pyStrip value).isEmpty
    · have hn : parse_timestamp_to_epoch value = none := by
        rw [parse_eq, if_pos hemp]
      rw [hn]
      simp only [Option.isSome_none, Bool.false_eq_true, false_iff]
      rintro ⟨hl, _, _⟩
      exact hemp_of hl hemp
    · by_cases hlen : (pyStrip value).length = 16 ∨ (pyStrip value).length = 19
      · by_cases hsep : (pyStrip value).getD 4 'X' = '-' ∧
            (pyStrip value).getD 7 'X' = '-' ∧
            (pyStrip value).getD 10 'X' = ' ' ∧
            (pyStrip value).getD 13 'X' = ':' ∧
            ((pyStrip value).length = 19 → (pyStrip value).getD 16 'X' = ':')
        · have hp : parse_timestamp_to_epoch value =
              parseTail (pyStrip value) (sliceInt (pyStrip value) 0 4)
                (sliceInt (pyStrip value) 5 7) (sliceInt (pyStrip value) 8 10)
                (sliceInt (pyStrip value) 11 13)
                (sliceInt (pyStrip value) 14 16)
                (if (pyStrip value).length = 19
                  then sliceInt (pyStrip value) 17 19 else some 0) := by
            rw [parse_eq, if_neg hemp, if_neg (not_not_intro hlen),
              if_neg (not_not_intro hsep)]
          rw [hp]
          constructor
          · intro hs
            obtain ⟨out, hout⟩ := Option.isSome_iff_exists.mp hs
            obtain ⟨y, mo, d, h, mi, s, e1, e2, e3, e4, e5, e6, hv, _⟩ :=
              parseTail_inv hout
            exact ⟨hlen, hsep, y, mo, d, h, mi, s, e1, e2, e3, e4, e5, e6, hv⟩
          · rintro ⟨_, _, y, mo, d, h, mi, s, e1, e2, e3, e4, e5, e6, hv⟩
            rw [e1, e2, e3, e4, e5, e6]
            show (if validDateTime y mo d h mi s then
              some ((if (pyStrip value).length = 19 then pyStrip value
                     else pyStrip value ++ [':', '0', '0']),
                utcEpoch y mo d h mi s)
              else none).isSome = true
            rw [if_pos hv]
            rfl
        · have hn : parse_timestamp_to_epoch value = none := by
            rw [parse_eq, if_neg hemp, if_neg (not_not_intro hlen),
              if_pos hsep]
          rw [hn]
          simp only [Option.isSome_none, Bool.false_eq_true, false_iff]
          rintro ⟨_, hs, _⟩
          exact hsep hs
      · have hn : parse_timestamp_to_epoch value = none := by
          rw [parse_eq, if_neg hemp, if_pos hlen]
        rw [hn]
        simp only [Option.isSome_none, Bool.false_eq_true, false_iff]
        rintro ⟨hl, _, _⟩
        exact hlen hl
  · intro y mo d h mi s hlen hsep e1 e2 e3 e4 e5 e6 hv
    rw [parse_eq, if_neg (hemp_of hlen), if_neg (not_not_intro hlen),
      if_neg (not_not_intro hsep), e1, e2, e3, e4, e5, e6]
    show (if validDateTime y mo d h mi s then
      some ((if (pyStrip value).length = 19 then pyStrip value
             else pyStrip value ++ [':', '0', '0']),
        utcEpoch y mo d h mi s)
      else none) = _
    rw [if_pos hv]

/-- C9 witness: the characterization applied at a concrete 16-character
timestamp: the parse succeeds because the stripped string has the right
length, separators, integer components and a real calendar instant. -/
theorem C9_witness :
    (parse_timestamp_to_epoch (String.toList "2023-01-01 00:00")).isSome
      = true :=
  (C9_parse_timestamp (String.toList "2023-01-01 00:00")).1.mpr
    ⟨by decide, by decide, 2023, 1, 1, 0, 0, 0, by decide, by decide,
      by decide, by decide, by decide, by decide, by decide⟩

end Retirement
